import Mathlib

/-!
Shallow embedding of the jolin dense linear-algebra kernel
(column-major generic matrices, LU with partial pivoting, QR via
Gram-Schmidt and Householder reflections, determinant) over an exact
linearly ordered field, together with proofs of the specified
properties.  Machine floats are modelled by exact field arithmetic;
the element-type `sqrt` is threaded as an explicit function parameter
and instantiated with `Real.sqrt` where its defining property matters.
Rust panics that the program can actually reach are modelled with
`Option` (`none` = abort).
-/

set_option linter.unusedSectionVars false
set_option maxRecDepth 4000

namespace Jolin

/-- Iterate `f` over indices `0, 1, …, n-1`, threading state; models a Rust
`for i in 0..n` loop (index `0` is applied first, `n-1` last). -/
def iterUp {σ : Type _} (f : Nat → σ → σ) : Nat → σ → σ
  | 0, st => st
  | n+1, st => f n (iterUp f n st)

/-- Fallible iteration of `f` over `0, …, n-1`, short-circuiting on error;
models a Rust `for` loop whose body may `return Err`. -/
def iterUpE {σ ε : Type _} (f : Nat → σ → Except ε σ) : Nat → σ → Except ε σ
  | 0, st => .ok st
  | n+1, st => (iterUpE f n st).bind (f n)

/-- The error kinds of `error.rs` (`JolinErrorKind`); `JolinError` is a plain
wrapper around its kind, so it is modelled by the kind itself. -/
inductive JolinError : Type
  | shapeMismatching
  | notEnoughInput
  | singularMatrix
deriving DecidableEq, Repr

/-- Column-major dense matrix (the `Matrix` trait data model shared by
`Mat64`/`Mat32`): `data[r + c*rows]` holds the element at row `r`,
column `c`. -/
structure Mat (α : Type) where
  rows : Nat
  cols : Nat
  data : List α
deriving DecidableEq, Repr

/-- The representation invariant maintained by every Rust constructor:
the flat buffer has exactly `rows * cols` elements. -/
def Mat.wf {α : Type} (m : Mat α) : Prop := m.data.length = m.rows * m.cols

instance {α : Type} (m : Mat α) : Decidable m.wf := by
  unfold Mat.wf; infer_instance

variable {α : Type} [LinearOrderedField α]

/-- `Matrix::idx`: flat index of `(r, c)` in the column-major buffer. -/
def Mat.idx {α : Type} (m : Mat α) (r c : Nat) : Nat := r + c * m.rows

/-- `Matrix::elem`: read the element at `(r, c)`.  An out-of-range Rust read
panics; every read in the algorithms below is in bounds on well-formed
input, except the one in `diagonal_product`, which is therefore modelled
fallibly there. -/
def Mat.elem (m : Mat α) (r c : Nat) : α := m.data.getD (m.idx r c) 0

/-- A store through `Matrix::elem_mut`. -/
def Mat.setE (m : Mat α) (r c : Nat) (v : α) : Mat α :=
  { m with data := m.data.set (m.idx r c) v }

/-- `Matrix::data_column`: the column-major slice `data[c*rows..(c+1)*rows]`. -/
def Mat.data_column (m : Mat α) (c : Nat) : List α :=
  (m.data.drop (c * m.rows)).take m.rows

/-- `Matrix::zero`. -/
def Mat.zero (rows cols : Nat) : Mat α :=
  ⟨rows, cols, List.replicate (rows * cols) 0⟩

/-- `Matrix::identity`: the zero square matrix with ones written down the
diagonal. -/
def Mat.identity (n : Nat) : Mat α :=
  iterUp (fun c m => m.setE c c 1) n (Mat.zero n n)

/-- `matrix::add`: element-wise sum after the shape check, the result built
by pushing column-major. -/
def add (a b : Mat α) : Except JolinError (Mat α) :=
  if a.rows ≠ b.rows ∨ a.cols ≠ b.cols then .error .shapeMismatching
  else
    let row := a.rows
    let column := b.cols
    let data := iterUp (fun c d =>
      iterUp (fun r d2 => d2 ++ [a.elem r c + b.elem r c]) row d) column []
    .ok ⟨row, column, data⟩

/-- `matrix::sub`. -/
def sub (left right : Mat α) : Except JolinError (Mat α) :=
  if left.rows ≠ right.rows ∨ left.cols ≠ right.cols then .error .shapeMismatching
  else
    let row := left.rows
    let column := left.cols
    let data := iterUp (fun c d =>
      iterUp (fun r d2 => d2 ++ [left.elem r c - right.elem r c]) row d) column []
    .ok ⟨row, column, data⟩

/-- `matrix::neg`. -/
def neg (a : Mat α) : Mat α :=
  ⟨a.rows, a.cols, a.data.map (fun x => -x)⟩

/-- The product matrix `matrix::mul` computes after its shape check: the
triple loop, accumulating into the zero element read back from the result
matrix. -/
def mulMat (left right : Mat α) : Mat α :=
  iterUp (fun c m =>
    iterUp (fun r m2 =>
      let t := iterUp (fun k t => t + left.elem r k * right.elem k c)
        left.cols (m2.elem r c)
      m2.setE r c t) left.rows m) right.cols (Mat.zero left.rows right.cols)

/-- `matrix::mul`. -/
def mul (left right : Mat α) : Except JolinError (Mat α) :=
  if left.cols ≠ right.rows then .error .shapeMismatching
  else .ok (mulMat left right)

/-- `matrix::tr`: transpose written into a fresh zero matrix. -/
def tr (a : Mat α) : Mat α :=
  iterUp (fun r m =>
    iterUp (fun c m2 => m2.setE c r (a.elem r c)) a.cols m) a.rows
    (Mat.zero a.cols a.rows)

/-- `LikeNumber::abs` as the concrete element types implement it:
`if self > 0 { self } else { -self }`. -/
def jabs (x : α) : α := if x > 0 then x else -x

/-- `LikeNumber::sign` as the 32-bit element implements it in the sources
(`if self >= 0 { 1 } else { -1 }`); the 64-bit impl block in the vendored
`matrix/mat64.rs` lacks this method.  Modelled from the spec: sign returns
the unit carrying the number's sign, either unit at zero. -/
def jsign (x : α) : α := if x ≥ 0 then 1 else -1

/-- `decomp::lu::argmaxabs`: first index of maximal absolute value. -/
def argmaxabs (elems : List α) : Nat :=
  if elems.length = 0 then 0
  else iterUp (fun i1 ans =>
    if jabs (elems.getD (i1 + 1) 0) > jabs (elems.getD ans 0) then i1 + 1 else ans)
    (elems.length - 1) 0

/-- `LUDecomposition`: the result record of both LU algorithms. -/
structure LUDecomposition (α : Type) where
  l : Mat α
  u : Mat α
  p : List Nat
deriving DecidableEq, Repr

/-- The mutable locals of the LU elimination loop. -/
structure LUState (α : Type) where
  a : Mat α
  l : Mat α
  u : Mat α
  p : List Nat
  invp : List Nat
deriving DecidableEq, Repr

/-- Swap the already-written prefix (columns `< k`) of rows `i` and `r2`
of `l`. -/
def lSwapLoop (i r2 k : Nat) (l : Mat α) : Mat α :=
  iterUp (fun c l2 =>
    let v1 := l2.elem i c
    let v2 := l2.elem r2 c
    (l2.setE i c v2).setE r2 c v1) k l

/-- Move row `pra` of `a` into row `i` of `u`, zeroing it in `a`
(columns `0..n`). -/
def moveRowLoop (pra i n : Nat) (au : Mat α × Mat α) : Mat α × Mat α :=
  iterUp (fun c au2 =>
    (au2.1.setE pra c 0, au2.2.setE i c (au2.1.elem pra c))) n au

/-- Subtract `ratio` times row `i` of `u` from row `r` of `a`, columns
`i..n`. -/
def elimRowLoop (r i n : Nat) (ratio : α) (u a : Mat α) : Mat α :=
  iterUp (fun k a2 =>
    a2.setE r (i + k) (a2.elem r (i + k) - ratio * u.elem i (i + k))) (n - i) a

/-- The row-elimination loop of the generic `lu`: every row with a nonzero
entry in column `i` is reduced and its ratio recorded in `l`. -/
def elimLoop (i n : Nat) (invp : List Nat) (u : Mat α) (al : Mat α × Mat α) :
    Mat α × Mat α :=
  iterUp (fun r al2 =>
    if al2.1.elem r i ≠ 0 then
      let ratio := al2.1.elem r i / u.elem i i
      (elimRowLoop r i n ratio u al2.1, al2.2.setE (invp.getD r 0) i ratio)
    else al2) n al

/-- One step (`for i in 0..n` body) of the generic `lu`: pivot search,
exact-zero singularity test, permutation bookkeeping, pivot-row move and
row elimination. -/
def luStep (n i : Nat) (st : LUState α) : Except JolinError (LUState α) :=
  let pra := argmaxabs (st.a.data_column i)
  if st.a.elem pra i = 0 then .error .singularMatrix
  else
    let prpa := st.invp.getD pra 0
    let idx1 := st.p.getD i 0
    let idx2 := st.p.getD prpa 0
    let p2 := (st.p.set i idx2).set prpa idx1
    let invp2 := (st.invp.set idx2 i).set idx1 prpa
    let l1 := lSwapLoop i prpa i st.l
    let au := moveRowLoop pra i n (st.a, st.u)
    let al := elimLoop i n invp2 au.2 (au.1, l1)
    .ok ⟨al.1, al.2, au.2, p2, invp2⟩

/-- `decomp::lu::lu`, the generic LU decomposition with partial pivoting. -/
def lu (mat : Mat α) : Except JolinError (LUDecomposition α) :=
  if mat.rows ≠ mat.cols then .error .shapeMismatching
  else
    let n := mat.rows
    (iterUpE (luStep n) n
      ⟨mat, Mat.identity n, Mat.zero n n, List.range n, List.range n⟩).map
      (fun st => ⟨st.l, st.u, st.p⟩)

/-- The magic number `1e-16` of `Mat64::lu_decomp`, the significant-figure
floor of the 64-bit float type. -/
def tol16 : α := 1 / 10 ^ 16

/-- The row-elimination loop of `Mat64::lu_decomp`: rows are reduced when
their column-`i` magnitude is at least `1e-16`. -/
def elimLoopTol (i n : Nat) (invp : List Nat) (u : Mat α) (al : Mat α × Mat α) :
    Mat α × Mat α :=
  iterUp (fun r al2 =>
    if jabs (al2.1.elem r i) ≥ tol16 then
      let ratio := al2.1.elem r i / u.elem i i
      (elimRowLoop r i n ratio u al2.1, al2.2.setE (invp.getD r 0) i ratio)
    else al2) n al

/-- One step of `Mat64::lu_decomp`: identical bookkeeping to `luStep`, with
the singularity test `|pivot| < 1e-16` instead of `pivot == 0`. -/
def luTolStep (n i : Nat) (st : LUState α) : Except JolinError (LUState α) :=
  let pra := argmaxabs (st.a.data_column i)
  if jabs (st.a.elem pra i) < tol16 then .error .singularMatrix
  else
    let prpa := st.invp.getD pra 0
    let idx1 := st.p.getD i 0
    let idx2 := st.p.getD prpa 0
    let p2 := (st.p.set i idx2).set prpa idx1
    let invp2 := (st.invp.set idx2 i).set idx1 prpa
    let l1 := lSwapLoop i prpa i st.l
    let au := moveRowLoop pra i n (st.a, st.u)
    let al := elimLoopTol i n invp2 au.2 (au.1, l1)
    .ok ⟨al.1, al.2, au.2, p2, invp2⟩

/-- `<Mat64 as LUDecomposable>::lu_decomp`, the type-specialised duplicate of
`lu` with the `1e-16` closeness-to-zero tests, modelled over the same exact
field. -/
def lu_decomp (mat : Mat α) : Except JolinError (LUDecomposition α) :=
  if mat.rows ≠ mat.cols then .error .shapeMismatching
  else
    let n := mat.rows
    (iterUpE (luTolStep n) n
      ⟨mat, Mat.identity n, Mat.zero n n, List.range n, List.range n⟩).map
      (fun st => ⟨st.l, st.u, st.p⟩)

/-- `decomp::qr::l2_norm_of_vector`, with the element-type square root `s`
passed explicitly (it is `LikeNumber::sqrt` in the source). -/
def l2_norm_of_vector (s : α → α) (v : List α) : α :=
  s ((v.map (fun x => x * x)).sum)

/-- `decomp::qr::vector_dot_product` (the source panics on length mismatch;
all call sites pass equal-length columns). -/
def vector_dot_product (a b : List α) : α :=
  ((a.zip b).map (fun xy => xy.1 * xy.2)).sum

/-- `QRDecomposition`: the result record of both QR algorithms. -/
structure QRDecomposition (α : Type) where
  q : Mat α
  r : Mat α
deriving DecidableEq, Repr

/-- `decomp::qr::qr_gram_schmidt`, with element square root `s`. -/
def qr_gram_schmidt (s : α → α) (mat : Mat α) :
    Except JolinError (QRDecomposition α) :=
  if mat.rows < mat.cols then .error .shapeMismatching
  else
    let m := mat.rows
    let n := mat.cols
    let aq := iterUp (fun i aq2 =>
      let a2 := iterUp (fun ii a3 =>
        let ratio := vector_dot_product (a3.data_column i) (aq2.2.data_column ii)
        iterUp (fun j a4 => a4.setE j i (a4.elem j i - ratio * aq2.2.elem j ii)) m a3)
        i aq2.1
      let u := a2.data_column i
      let u_l2 := l2_norm_of_vector s u
      let q2 := iterUp (fun j q3 => q3.setE j i (u.getD j 0 / u_l2)) m aq2.2
      (a2, q2)) n (mat, Mat.zero m m)
    let rmat := iterUp (fun c rm =>
      iterUp (fun r rm2 =>
        rm2.setE r c (vector_dot_product ((aq.2).data_column r) (mat.data_column c)))
        (c + 1) rm) n (Mat.zero m n)
    .ok ⟨aq.2, rmat⟩

/-- Unwrap of the `mul(...).unwrap()` calls inside `qr_househoulder`; the
error branch is unreachable because the shapes always agree there. -/
def unwrapD (x : Except JolinError (Mat α)) : Mat α :=
  match x with
  | .ok v => v
  | .error _ => Mat.zero 0 0

/-- `decomp::qr::qr_househoulder` (sic), with element square root `s`. -/
def qr_househoulder (s : α → α) (mat : Mat α) :
    Except JolinError (QRDecomposition α) :=
  if mat.rows < mat.cols then .error .shapeMismatching
  else
    let m := mat.rows
    let n := mat.cols
    let full_iteration := if m - 1 < n then m - 1 else n
    let aq := iterUp (fun i aq2 =>
      let x := (aq2.1.data_column i).drop i
      let alpha := -l2_norm_of_vector s x * jsign (x.getD 0 0)
      let u0 := x.set 0 (x.getD 0 0 - alpha)
      let u_norm := l2_norm_of_vector s u0
      let u := u0.map (fun v => v / u_norm)
      let q_i := iterUp (fun j qi =>
        iterUp (fun k qi2 =>
          let q_i_v := qi2.elem (i + j) (i + k)
          let vvt := u.getD j 0 * u.getD k 0
          qi2.setE (i + j) (i + k) (q_i_v - vvt - vvt)) (m - i) qi) (m - i)
        (Mat.identity m)
      (unwrapD (mul q_i aq2.1), unwrapD (mul q_i aq2.2))) full_iteration
      (mat, Mat.identity m)
    .ok ⟨tr aq.2, aq.1⟩

/-- `det::diagonal_product`.  The diagonal reads are modelled fallibly:
on a 0×0 matrix the very first read `mat.elem(0,0)` is out of bounds and
the Rust program panics, which is the `none` branch here. -/
def diagonal_product (mat : Mat α) : Option α :=
  match mat.data.get? (mat.idx 0 0) with
  | none => none
  | some a0 =>
    iterUp (fun i1 acc =>
      match acc with
      | none => none
      | some v =>
        match mat.data.get? (mat.idx (i1 + 1) (i1 + 1)) with
        | none => none
        | some d => some (v * d)) (mat.rows - 1) (some a0)

/-- The inner `while a[i] != i` loop of `det::permutation_order`, given
fuel; on the permutations `lu` produces, each round fixes one position, so
`a.length` fuel is never exhausted. -/
def permOrderWhile : Nat → Nat → List Nat × Nat → List Nat × Nat
  | 0, _, st => st
  | fuel + 1, i, (a, ans) =>
    if a.getD i 0 ≠ i then
      let tmp := a.getD i 0
      permOrderWhile fuel i ((a.set i (a.getD tmp 0)).set tmp tmp, ans + 1)
    else (a, ans)

/-- `det::permutation_order`: number of transpositions needed to reach the
permutation, computed on a private copy. -/
def permutation_order (p : List Nat) : Nat :=
  (iterUp (fun i st => permOrderWhile p.length i st) p.length (p, 0)).2

/-- `det::det` (generic path).  The outer `Option` layer records panics:
`none` means the Rust program aborts inside `diagonal_product`. -/
def det (mat : Mat α) : Option (Except JolinError α) :=
  if mat.rows ≠ mat.cols then some (.error .shapeMismatching)
  else if mat.rows = 2 then
    some (.ok (mat.elem 0 0 * mat.elem 1 1 - mat.elem 0 1 * mat.elem 1 0))
  else
    match lu mat with
    | .error _ => some (.ok 0)
    | .ok lud =>
      match diagonal_product lud.l, diagonal_product lud.u with
      | some dl, some du =>
        some (.ok (if permutation_order lud.p % 2 = 0 then dl * du else -(dl * du)))
      | _, _ => none

/-- Forward-recursive form of `iterUpE`, used to run two loops in
lock-step. -/
def runFrom {σ ε : Type _} (f : Nat → σ → Except ε σ) (i : Nat) :
    Nat → σ → Except ε σ
  | 0, st => .ok st
  | k + 1, st => (f i st).bind (runFrom f (i + 1) k)

deriving instance DecidableEq for Except

/-- Lock-step agreement checker for the generic `lu` against
`Mat64::lu_decomp`: runs the shared elimination, step by step, and checks
that both zero policies (exact zero versus magnitude below `1e-16`)
produce the identical step outcome. -/
def luCheckAux (n : Nat) : Nat → Nat → LUState α → Bool
  | 0, _, _ => true
  | rem + 1, i, st =>
    if luStep n i st = luTolStep n i st then
      match luStep n i st with
      | .error _ => true
      | .ok st2 => luCheckAux n rem (i + 1) st2
    else false

/-- `luCheck mat` holds when the generic and the `1e-16`-tolerance LU runs
agree at every step on `mat`. -/
def luCheck (mat : Mat α) : Bool :=
  if mat.rows = mat.cols then
    luCheckAux mat.rows mat.rows 0
      ⟨mat, Mat.identity mat.rows, Mat.zero mat.rows mat.rows,
        List.range mat.rows, List.range mat.rows⟩
  else true

/-- Linear independence of the matrix columns (full column rank), stated
concretely over the embedding. -/
def colIndep (A : Mat α) : Prop :=
  ∀ co : Nat → α,
    (∀ r : Nat, r < A.rows →
      ∑ j ∈ Finset.range A.cols, co j * A.elem r j = 0) →
    ∀ j : Nat, j < A.cols → co j = 0

/-- The square Mathlib matrix read off a (square) embedded matrix, used to
state non-singularity. -/
def toSq (A : Mat α) : Matrix (Fin A.rows) (Fin A.rows) α :=
  fun i j => A.elem i j

/-- The permutation bookkeeping invariant of the LU loop: `p` and `invp`
are length-`n` index lists, in-range, and mutually inverse. -/
structure PermPair (n : Nat) (p invp : List Nat) : Prop where
  plen : p.length = n
  ilen : invp.length = n
  plt : ∀ k, k < n → p.getD k 0 < n
  ilt : ∀ x, x < n → invp.getD x 0 < n
  ip : ∀ k, k < n → invp.getD (p.getD k 0) 0 = k
  pi : ∀ x, x < n → p.getD (invp.getD x 0) 0 = x

/-- The finite permutation encoded by a `PermPair`. -/
def PermPair.toEquiv {n : Nat} {p invp : List Nat} (h : PermPair n p invp) :
    Equiv.Perm (Fin n) where
  toFun := fun k => ⟨p.getD k 0, h.plt k k.isLt⟩
  invFun := fun x => ⟨invp.getD x 0, h.ilt x x.isLt⟩
  left_inv := fun k => Fin.ext (h.ip k k.isLt)
  right_inv := fun x => Fin.ext (h.pi x x.isLt)

/-- The loop invariant of both LU eliminations after `i` completed steps on
the square input `A` of size `n`: shapes are stable, the permutation pair is
coherent, eliminated columns and finalized rows of the working copy are
zero, `u` is upper-triangular with nonzero pivots on its written rows, `l`
is unit lower-triangular with untouched identity columns from `i` on, and
the recorded factors reconstruct `A` row-by-row through `invp`. -/
structure LUInv {α : Type} [LinearOrderedField α] (A : Mat α) (n i : Nat)
    (st : LUState α) : Prop where
  arows : st.a.rows = n
  acols : st.a.cols = n
  awf : st.a.wf
  lrows : st.l.rows = n
  lcols : st.l.cols = n
  lwf : st.l.wf
  urows : st.u.rows = n
  ucols : st.u.cols = n
  uwf : st.u.wf
  perm : PermPair n st.p st.invp
  colzero : ∀ c, c < i → ∀ r, r < n → st.a.elem r c = 0
  rowfin : ∀ k, k < i → ∀ c, c < n → st.a.elem (st.p.getD k 0) c = 0
  uhi : ∀ k, i ≤ k → k < n → ∀ c, c < n → st.u.elem k c = 0
  utri : ∀ k, k < i → ∀ c, c < k → st.u.elem k c = 0
  udiag : ∀ k, k < i → st.u.elem k k ≠ 0
  ldiag : ∀ k, k < n → st.l.elem k k = 1
  lupper : ∀ k c, k < n → c < n → k < c → st.l.elem k c = 0
  lid : ∀ k c, k < n → c < n → i ≤ c → k ≠ c → st.l.elem k c = 0
  recon : ∀ x, x < n → ∀ c, c < n → A.elem x c = st.a.elem x c +
    ∑ j ∈ Finset.range n, st.l.elem (st.invp.getD x 0) j * st.u.elem j c

/-- The loop invariant of `qr_househoulder` after `t` reflector steps on the
`m×n` input `mat`: shapes are stable, the accumulated `q` is orthogonal on
both sides, the working copy `a` is `q·mat`, and the first `t` columns of
`a` are zero strictly below the diagonal. -/
structure HHInv {α : Type} [LinearOrderedField α] (mat : Mat α) (m n t : Nat)
    (aq : Mat α × Mat α) : Prop where
  arows : aq.1.rows = m
  acols : aq.1.cols = n
  awf : aq.1.wf
  qrows : aq.2.rows = m
  qcols : aq.2.cols = m
  qwf : aq.2.wf
  qqt : mulMat aq.2 (tr aq.2) = Mat.identity m
  qtq : mulMat (tr aq.2) aq.2 = Mat.identity m
  afac : aq.1 = mulMat aq.2 mat
  lowz : ∀ c, c < t → ∀ r, c < r → r < m → aq.1.elem r c = 0

/-- The loop invariant of `qr_gram_schmidt` after `t` columns of the `m×n`
input `mat` have been processed: shapes are stable, untouched columns of
the working copy and of `q` still hold their initial values, the written
columns of `q` are orthonormal, each processed column of `mat` lies in the
span of the written `q` columns, and each written `q` column lies in the
span of the corresponding leading columns of `mat`. -/
structure GSInv {α : Type} [LinearOrderedField α] (mat : Mat α) (m n t : Nat)
    (aq : Mat α × Mat α) : Prop where
  arows : aq.1.rows = m
  acols : aq.1.cols = n
  awf : aq.1.wf
  qrows : aq.2.rows = m
  qcols : aq.2.cols = m
  qwf : aq.2.wf
  afresh : ∀ c, t ≤ c → c < n → ∀ r, r < m → aq.1.elem r c = mat.elem r c
  qfresh : ∀ c, t ≤ c → c < m → ∀ r, r < m → aq.2.elem r c = 0
  orth : ∀ j k, j < t → k < t →
    (∑ r ∈ Finset.range m, aq.2.elem r j * aq.2.elem r k) =
      if j = k then 1 else 0
  aspan : ∀ c, c < t → ∃ β : Nat → α, ∀ r, r < m →
    mat.elem r c = ∑ j ∈ Finset.range (c + 1), β j * aq.2.elem r j
  qspan : ∀ j, j < t → ∃ γ : Nat → α, ∀ r, r < m →
    aq.2.elem r j = ∑ jj ∈ Finset.range (j + 1), γ jj * mat.elem r jj

/-! ## Infrastructure: iteration, indexing and element lemmas -/

theorem iterUp_hold {σ : Type _} {P : σ → Prop} {f : Nat → σ → σ}
    (hf : ∀ i st, P st → P (f i st)) :
    ∀ n st, P st → P (iterUp f n st) := by
  intro n
  induction n with
  | zero => intro st h; exact h
  | succ n ih => intro st h; exact hf n _ (ih st h)

theorem iterUp_congr {σ : Type _} {f g : Nat → σ → σ} (n : Nat) (st : σ)
    (h : ∀ i, i < n → ∀ s, f i s = g i s) :
    iterUp f n st = iterUp g n st := by
  induction n with
  | zero => rfl
  | succ n ih =>
    show f n (iterUp f n st) = g n (iterUp g n st)
    rw [ih (fun i hi s => h i (Nat.lt_succ_of_lt hi) s), h n (Nat.lt_succ_self n)]

theorem iterUp_acc (g : Nat → α) (K : Nat) (t0 : α) :
    iterUp (fun k t => t + g k) K t0 = t0 + ∑ k ∈ Finset.range K, g k := by
  induction K with
  | zero => simp [iterUp]
  | succ K ih =>
    show iterUp (fun k t => t + g k) K t0 + g K = _
    rw [ih, Finset.sum_range_succ, add_assoc]

theorem Mat.idx_lt {m : Mat α} (hwf : m.wf) {r c : Nat}
    (hr : r < m.rows) (hc : c < m.cols) : m.idx r c < m.data.length := by
  rw [hwf]
  calc r + c * m.rows < m.rows + c * m.rows := by omega
    _ = (c + 1) * m.rows := by ring
    _ ≤ m.cols * m.rows := Nat.mul_le_mul_right _ (by omega)
    _ = m.rows * m.cols := Nat.mul_comm _ _

theorem Mat.idx_inj {m : Mat α} {r c r' c' : Nat}
    (hr : r < m.rows) (hr' : r' < m.rows)
    (h : m.idx r c = m.idx r' c') : r = r' ∧ c = c' := by
  unfold Mat.idx at h
  have h1 : (r + c * m.rows) % m.rows = (r' + c' * m.rows) % m.rows := by rw [h]
  rw [Nat.add_mul_mod_self_right, Nat.add_mul_mod_self_right,
    Nat.mod_eq_of_lt hr, Nat.mod_eq_of_lt hr'] at h1
  subst h1
  have h2 : c * m.rows = c' * m.rows := by omega
  have hpos : 0 < m.rows := by omega
  exact ⟨rfl, Nat.eq_of_mul_eq_mul_right hpos h2⟩

@[simp] theorem Mat.rows_setE (m : Mat α) (r c : Nat) (v : α) :
    (m.setE r c v).rows = m.rows := rfl

@[simp] theorem Mat.cols_setE (m : Mat α) (r c : Nat) (v : α) :
    (m.setE r c v).cols = m.cols := rfl

@[simp] theorem Mat.length_setE (m : Mat α) (r c : Nat) (v : α) :
    (m.setE r c v).data.length = m.data.length := List.length_set _ _ _

@[simp] theorem Mat.idx_setE (m : Mat α) (r c r' c' : Nat) (v : α) :
    (m.setE r c v).idx r' c' = m.idx r' c' := rfl

theorem Mat.wf_setE {m : Mat α} (h : m.wf) (r c : Nat) (v : α) :
    (m.setE r c v).wf := by
  unfold Mat.wf at h ⊢; simpa using h

theorem Mat.elem_setE_self {m : Mat α} {r c : Nat} (h : m.idx r c < m.data.length)
    (v : α) : (m.setE r c v).elem r c = v := by
  have h0 : (m.setE r c v).elem r c = (m.data.set (m.idx r c) v).getD (m.idx r c) 0 := rfl
  rw [h0, List.getD_eq_getElem?_getD, List.getElem?_set_self', List.getElem?_eq_getElem h]
  rfl

theorem Mat.elem_setE_ne {m : Mat α} {r c r' c' : Nat}
    (h : m.idx r c ≠ m.idx r' c') (v : α) :
    (m.setE r c v).elem r' c' = m.elem r' c' := by
  have h0 : (m.setE r c v).elem r' c' = (m.data.set (m.idx r c) v).getD (m.idx r' c') 0 := rfl
  rw [h0, List.getD_eq_getElem?_getD, List.getElem?_set_ne h, ← List.getD_eq_getElem?_getD]
  rfl

/-- Pointwise description of a store when the written position is in range. -/
theorem Mat.elem_setE_at {m : Mat α} (hwf : m.wf) {r c : Nat}
    (hr : r < m.rows) (hc : c < m.cols) {r' c' : Nat} (hr' : r' < m.rows)
    (v : α) :
    (m.setE r c v).elem r' c' = if r' = r ∧ c' = c then v else m.elem r' c' := by
  by_cases hrc : r' = r ∧ c' = c
  · obtain ⟨h1, h2⟩ := hrc
    subst h1; subst h2
    rw [if_pos ⟨rfl, rfl⟩]
    exact Mat.elem_setE_self (Mat.idx_lt hwf hr hc) v
  · rw [if_neg hrc]
    refine Mat.elem_setE_ne (fun h => hrc ?_) v
    obtain ⟨h1, h2⟩ := Mat.idx_inj hr hr' h
    exact ⟨h1.symm, h2.symm⟩

@[simp] theorem Mat.rows_zero (r c : Nat) : (Mat.zero (α := α) r c).rows = r := rfl

@[simp] theorem Mat.cols_zero (r c : Nat) : (Mat.zero (α := α) r c).cols = c := rfl

theorem Mat.wf_zero (r c : Nat) : (Mat.zero (α := α) r c).wf := by
  unfold Mat.wf Mat.zero; simp

@[simp] theorem Mat.elem_zero (rows cols r c : Nat) :
    (Mat.zero (α := α) rows cols).elem r c = 0 := by
  unfold Mat.elem Mat.zero
  simp only [List.getD_eq_getElem?_getD, List.getElem?_replicate]
  split <;> rfl

theorem Mat.rows_identity (n : Nat) : (Mat.identity (α := α) n).rows = n := by
  unfold Mat.identity
  have := iterUp_hold (P := fun m : Mat α => m.rows = n)
    (f := fun c m => m.setE c c 1) (fun i st h => by simpa using h) n
    (Mat.zero n n) rfl
  exact this

theorem Mat.cols_identity (n : Nat) : (Mat.identity (α := α) n).cols = n := by
  unfold Mat.identity
  exact iterUp_hold (P := fun m : Mat α => m.cols = n)
    (fun i st h => by simpa using h) n (Mat.zero n n) rfl

theorem Mat.wf_identity (n : Nat) : (Mat.identity (α := α) n).wf := by
  unfold Mat.identity
  exact iterUp_hold (P := fun m : Mat α => m.wf)
    (fun i st h => Mat.wf_setE h _ _ _) n (Mat.zero n n) (Mat.wf_zero n n)

theorem Mat.elem_identity_aux (n k : Nat) (hk : k ≤ n) :
    ∀ r c : Nat, r < n → c < n →
      (iterUp (fun c2 (m : Mat α) => m.setE c2 c2 1) k (Mat.zero n n)).elem r c
        = if r = c ∧ r < k then 1 else 0 := by
  induction k with
  | zero => intro r c hr hc; simp [iterUp]
  | succ k ih =>
    intro r c hr hc
    have hrows : (iterUp (fun c2 (m : Mat α) => m.setE c2 c2 1) k (Mat.zero n n)).rows = n :=
      iterUp_hold (P := fun m : Mat α => m.rows = n)
        (fun i st h => by simpa using h) k (Mat.zero n n) rfl
    have hcols : (iterUp (fun c2 (m : Mat α) => m.setE c2 c2 1) k (Mat.zero n n)).cols = n :=
      iterUp_hold (P := fun m : Mat α => m.cols = n)
        (fun i st h => by simpa using h) k (Mat.zero n n) rfl
    have hwf : (iterUp (fun c2 (m : Mat α) => m.setE c2 c2 1) k (Mat.zero n n)).wf :=
      iterUp_hold (P := fun m : Mat α => m.wf)
        (fun i st h => Mat.wf_setE h _ _ _) k (Mat.zero n n) (Mat.wf_zero n n)
    show ((iterUp (fun c2 (m : Mat α) => m.setE c2 c2 1) k (Mat.zero n n)).setE k k 1).elem r c = _
    rw [Mat.elem_setE_at hwf (by omega) (by omega) (by omega)]
    rw [ih (by omega) r c hr hc]
    by_cases h1 : r = k ∧ c = k
    · rw [if_pos h1, if_pos ⟨h1.1.trans h1.2.symm, by omega⟩]
    · rw [if_neg h1]
      by_cases h2 : r = c ∧ r < k
      · rw [if_pos h2, if_pos ⟨h2.1, by omega⟩]
      · rw [if_neg h2, if_neg (fun h3 => h2 ⟨h3.1, by
          rcases Nat.lt_succ_iff_lt_or_eq.mp h3.2 with h4 | h4
          · exact h4
          · exact absurd ⟨h4, h3.1.symm.trans h4⟩ h1⟩)]

theorem Mat.elem_identity {n r c : Nat} (hr : r < n) (hc : c < n) :
    (Mat.identity (α := α) n).elem r c = if r = c then 1 else 0 := by
  unfold Mat.identity
  rw [Mat.elem_identity_aux n n le_rfl r c hr hc]
  by_cases h : r = c
  · rw [if_pos ⟨h, hr⟩, if_pos h]
  · rw [if_neg (fun h2 => h h2.1), if_neg h]

/-- In-range reads as `getElem?` values. -/
theorem Mat.getElem?_eq (m : Mat α) {r c : Nat} (h : m.idx r c < m.data.length) :
    m.data[m.idx r c]? = some (m.elem r c) := by
  unfold Mat.elem
  rw [List.getElem?_eq_getElem h, List.getD_eq_getElem?_getD, List.getElem?_eq_getElem h]
  rfl

/-- Two well-formed matrices of the same shape and elements are equal. -/
theorem Mat.ext_elem {a b : Mat α} (hwa : a.wf) (hwb : b.wf)
    (hr : a.rows = b.rows) (hc : a.cols = b.cols)
    (h : ∀ r c : Nat, r < a.rows → c < a.cols → a.elem r c = b.elem r c) :
    a = b := by
  obtain ⟨ar, ac, ad⟩ := a
  obtain ⟨br, bc, bd⟩ := b
  simp only at hr hc
  subst hr; subst hc
  simp only [Mat.mk.injEq, true_and]
  have hwa2 : ad.length = ar * ac := hwa
  have hwb2 : bd.length = ar * ac := hwb
  clear hwa hwb
  refine List.ext_getElem? (fun n => ?_)
  by_cases hn : n < ar * ac
  · have hpos : 0 < ar := by
      rcases Nat.eq_zero_or_pos ar with h0 | h0
      · rw [h0, Nat.zero_mul] at hn; omega
      · exact h0
    obtain ⟨q, r0, hr0, hqr⟩ : ∃ q r0, r0 < ar ∧ n = r0 + q * ar := by
      refine ⟨n / ar, n % ar, Nat.mod_lt _ hpos, ?_⟩
      rw [Nat.add_comm, Nat.mul_comm]
      exact (Nat.div_add_mod n ar).symm
    have hc1 : q < ac := by
      by_contra hq
      push_neg at hq
      have h1 : ac * ar ≤ q * ar := Nat.mul_le_mul_right _ hq
      have h2 : ar * ac = ac * ar := Nat.mul_comm _ _
      omega
    have ha := Mat.getElem?_eq (⟨ar, ac, ad⟩ : Mat α) (r := r0) (c := q)
      (by show r0 + q * ar < ad.length; omega)
    have hb := Mat.getElem?_eq (⟨ar, ac, bd⟩ : Mat α) (r := r0) (c := q)
      (by show r0 + q * ar < bd.length; omega)
    simp only [Mat.idx] at ha hb
    rw [hqr, ha, hb, h _ _ hr0 hc1]
  · rw [List.getElem?_eq_none (by omega), List.getElem?_eq_none (by omega)]

/-- Column slices read back matrix elements. -/
theorem Mat.data_column_getD (m : Mat α) {c j : Nat} (hj : j < m.rows) :
    (m.data_column c).getD j 0 = m.elem j c := by
  unfold Mat.data_column Mat.elem Mat.idx
  simp only [List.getD_eq_getElem?_getD, List.getElem?_take, List.getElem?_drop]
  rw [if_pos hj, Nat.add_comm (c * m.rows) j]

theorem Mat.data_column_length (m : Mat α) (hwf : m.wf) {c : Nat} (hc : c < m.cols) :
    (m.data_column c).length = m.rows := by
  unfold Mat.data_column
  rw [List.length_take, List.length_drop, hwf]
  have h1 : (c + 1) * m.rows ≤ m.cols * m.rows := Nat.mul_le_mul_right _ (by omega)
  have h2 : m.rows * m.cols = m.cols * m.rows := Nat.mul_comm _ _
  have h3 : (c + 1) * m.rows = c * m.rows + m.rows := by ring
  omega

/-! ## Sums: dot products and accumulation loops as `Finset.range` sums -/

theorem vector_dot_product_eq (a b : List α) :
    vector_dot_product a b =
      ∑ j ∈ Finset.range (min a.length b.length), a.getD j 0 * b.getD j 0 := by
  induction a generalizing b with
  | nil => simp [vector_dot_product]
  | cons x xs ih =>
    cases b with
    | nil => simp [vector_dot_product]
    | cons y ys =>
      have h1 : vector_dot_product (x :: xs) (y :: ys) =
          x * y + vector_dot_product xs ys := by
        unfold vector_dot_product
        simp [List.zip_cons_cons]
      rw [h1, ih ys]
      have h2 : min (x :: xs).length (y :: ys).length = min xs.length ys.length + 1 := by
        simp [Nat.succ_min_succ]
      rw [h2, Finset.sum_range_succ']
      simp [add_comm]

theorem sum_sq_eq (v : List α) :
    (v.map fun x => x * x).sum =
      ∑ j ∈ Finset.range v.length, v.getD j 0 * v.getD j 0 := by
  induction v with
  | nil => simp
  | cons x xs ih =>
    simp only [List.map_cons, List.sum_cons, ih, List.length_cons]
    rw [Finset.sum_range_succ']
    simp [add_comm]

theorem dot_columns {p q : Mat α} (hp : p.wf) (hq : q.wf) {cp cq : Nat}
    (hcp : cp < p.cols) (hcq : cq < q.cols) (hrows : p.rows = q.rows) :
    vector_dot_product (p.data_column cp) (q.data_column cq) =
      ∑ j ∈ Finset.range p.rows, p.elem j cp * q.elem j cq := by
  rw [vector_dot_product_eq, Mat.data_column_length p hp hcp,
    Mat.data_column_length q hq hcq, ← hrows, Nat.min_self]
  refine Finset.sum_congr rfl (fun j hj => ?_)
  have hj2 := Finset.mem_range.mp hj
  rw [Mat.data_column_getD p hj2, Mat.data_column_getD q (by omega)]

/-! ## Characterization of `mulMat`, `tr` and `Mat.identity` products -/

theorem mulMat_shape (left right : Mat α) :
    (mulMat left right).rows = left.rows ∧ (mulMat left right).cols = right.cols ∧
      (mulMat left right).wf := by
  unfold mulMat
  refine iterUp_hold (P := fun m : Mat α =>
    m.rows = left.rows ∧ m.cols = right.cols ∧ m.wf) ?_ _ _
    ⟨rfl, rfl, Mat.wf_zero _ _⟩
  intro c m hm
  refine iterUp_hold (P := fun m : Mat α =>
    m.rows = left.rows ∧ m.cols = right.cols ∧ m.wf) ?_ _ _ hm
  intro r m2 hm2
  exact ⟨by simpa using hm2.1, by simpa using hm2.2.1, Mat.wf_setE hm2.2.2 _ _ _⟩


theorem mulMat_inner_elem (left right : Mat α) (t : Nat) (ht : t < right.cols)
    (m0 : Mat α) (hm0r : m0.rows = left.rows) (hm0c : m0.cols = right.cols)
    (hm0 : m0.wf) :
    ∀ s, s ≤ left.rows →
      (let res := iterUp (fun r m2 =>
        m2.setE r t (iterUp (fun k v => v + left.elem r k * right.elem k t)
          left.cols (m2.elem r t))) s m0
      res.rows = left.rows ∧ res.cols = right.cols ∧ res.wf ∧
        ∀ x y : Nat, x < left.rows →
          res.elem x y = if y = t ∧ x < s then
            m0.elem x t + ∑ k ∈ Finset.range left.cols, left.elem x k * right.elem k t
          else m0.elem x y) := by
  intro s
  induction s with
  | zero =>
    intro _
    refine ⟨hm0r, hm0c, hm0, fun x y hx => ?_⟩
    simp [iterUp]
  | succ s ih =>
    intro hs
    obtain ⟨hr1, hc1, hw1, he1⟩ := ih (by omega)
    set res := iterUp (fun r m2 =>
      m2.setE r t (iterUp (fun k v => v + left.elem r k * right.elem k t)
        left.cols (m2.elem r t))) s m0 with hres
    refine ⟨by simpa using hr1, by simpa using hc1, Mat.wf_setE hw1 _ _ _,
      fun x y hx => ?_⟩
    show (res.setE s t _).elem x y = _
    rw [Mat.elem_setE_at hw1 (by omega) (by omega) (by omega)]
    by_cases hxy : x = s ∧ y = t
    · obtain ⟨h1, h2⟩ := hxy
      rw [if_pos ⟨h1, h2⟩, if_pos ⟨h2, by omega⟩, iterUp_acc, h1,
        he1 s t (by omega), if_neg (fun hcon => lt_irrefl s hcon.2)]
    · rw [if_neg (fun h => hxy ⟨h.1, h.2⟩), he1 x y hx]
      by_cases h2 : y = t ∧ x < s
      · rw [if_pos h2, if_pos ⟨h2.1, by omega⟩]
      · rw [if_neg h2, if_neg (fun h3 => ?_)]
        rcases Nat.lt_succ_iff_lt_or_eq.mp h3.2 with h4 | h4
        · exact h2 ⟨h3.1, h4⟩
        · exact hxy ⟨h4, h3.1⟩

theorem mulMat_outer_elem (left right : Mat α) :
    ∀ t, t ≤ right.cols →
      (let res := iterUp (fun c m =>
        iterUp (fun r m2 =>
          m2.setE r c (iterUp (fun k v => v + left.elem r k * right.elem k c)
            left.cols (m2.elem r c))) left.rows m) t
        (Mat.zero left.rows right.cols)
      res.rows = left.rows ∧ res.cols = right.cols ∧ res.wf ∧
        ∀ x y : Nat, x < left.rows → y < right.cols →
          res.elem x y = if y < t then
            ∑ k ∈ Finset.range left.cols, left.elem x k * right.elem k y
          else 0) := by
  intro t
  induction t with
  | zero =>
    intro _
    exact ⟨rfl, rfl, Mat.wf_zero _ _, fun x y hx hy => by simp [iterUp]⟩
  | succ t ih =>
    intro ht
    obtain ⟨hr1, hc1, hw1, he1⟩ := ih (by omega)
    have hinner := mulMat_inner_elem left right t (by omega) _ hr1 hc1 hw1
      left.rows le_rfl
    obtain ⟨hr2, hc2, hw2, he2⟩ := hinner
    refine ⟨hr2, hc2, hw2, fun x y hx hy => ?_⟩
    simp only [iterUp]
    rw [he2 x y hx]
    by_cases hyt : y = t
    · subst hyt
      rw [if_pos ⟨rfl, hx⟩, he1 x y hx hy, if_neg (by omega), if_pos (by omega),
        zero_add]
    · rw [if_neg (fun h => hyt h.1), he1 x y hx hy]
      by_cases h2 : y < t
      · rw [if_pos h2, if_pos (by omega)]
      · rw [if_neg h2, if_neg (by omega)]

theorem mulMat_rows (left right : Mat α) : (mulMat left right).rows = left.rows :=
  (mulMat_outer_elem left right right.cols le_rfl).1

theorem mulMat_cols (left right : Mat α) : (mulMat left right).cols = right.cols :=
  (mulMat_outer_elem left right right.cols le_rfl).2.1

theorem mulMat_wf (left right : Mat α) : (mulMat left right).wf :=
  (mulMat_outer_elem left right right.cols le_rfl).2.2.1

theorem mulMat_elem (left right : Mat α) {r c : Nat} (hr : r < left.rows)
    (hc : c < right.cols) :
    (mulMat left right).elem r c =
      ∑ k ∈ Finset.range left.cols, left.elem r k * right.elem k c := by
  have h0 := (mulMat_outer_elem left right right.cols le_rfl).2.2.2 r c hr hc
  unfold mulMat
  rw [h0, if_pos hc]

theorem mul_ok {left right : Mat α} (h : left.cols = right.rows) :
    mul left right = .ok (mulMat left right) := by
  unfold mul
  rw [if_neg (by omega)]

theorem tr_inner (a : Mat α) (t : Nat) (ht : t < a.rows) (m0 : Mat α)
    (hm0r : m0.rows = a.cols) (hm0c : m0.cols = a.rows) (hm0 : m0.wf) :
    ∀ s, s ≤ a.cols →
      (let res := iterUp (fun c m2 => m2.setE c t (a.elem t c)) s m0
      res.rows = a.cols ∧ res.cols = a.rows ∧ res.wf ∧
        ∀ x y : Nat, x < a.cols →
          res.elem x y = if y = t ∧ x < s then a.elem t x else m0.elem x y) := by
  intro s
  induction s with
  | zero =>
    intro _
    exact ⟨hm0r, hm0c, hm0, fun x y hx => by simp [iterUp]⟩
  | succ s ih =>
    intro hs
    obtain ⟨hr1, hc1, hw1, he1⟩ := ih (by omega)
    set res := iterUp (fun c (m2 : Mat α) => m2.setE c t (a.elem t c)) s m0 with hres
    refine ⟨by simpa using hr1, by simpa using hc1, Mat.wf_setE hw1 _ _ _,
      fun x y hx => ?_⟩
    show (res.setE s t (a.elem t s)).elem x y = _
    rw [Mat.elem_setE_at hw1 (by omega) (by omega) (by omega)]
    by_cases hxy : x = s ∧ y = t
    · obtain ⟨h1, h2⟩ := hxy
      subst h1; subst h2
      rw [if_pos ⟨rfl, rfl⟩, if_pos ⟨rfl, by omega⟩]
    · rw [if_neg (fun h => hxy ⟨h.1, h.2⟩), he1 x y hx]
      by_cases h2 : y = t ∧ x < s
      · rw [if_pos h2, if_pos ⟨h2.1, by omega⟩]
      · rw [if_neg h2, if_neg (fun h3 => ?_)]
        rcases Nat.lt_succ_iff_lt_or_eq.mp h3.2 with h4 | h4
        · exact h2 ⟨h3.1, h4⟩
        · exact hxy ⟨h4, h3.1⟩

theorem tr_outer (a : Mat α) :
    ∀ t, t ≤ a.rows →
      (let res := iterUp (fun r m =>
        iterUp (fun c m2 => m2.setE c r (a.elem r c)) a.cols m) t
        (Mat.zero a.cols a.rows)
      res.rows = a.cols ∧ res.cols = a.rows ∧ res.wf ∧
        ∀ x y : Nat, x < a.cols →
          res.elem x y = if y < t then a.elem y x else 0) := by
  intro t
  induction t with
  | zero =>
    intro _
    exact ⟨rfl, rfl, Mat.wf_zero _ _, fun x y hx => by simp [iterUp]⟩
  | succ t ih =>
    intro ht
    obtain ⟨hr1, hc1, hw1, he1⟩ := ih (by omega)
    obtain ⟨hr2, hc2, hw2, he2⟩ := tr_inner a t (by omega) _ hr1 hc1 hw1
      a.cols le_rfl
    refine ⟨hr2, hc2, hw2, fun x y hx => ?_⟩
    simp only [iterUp]
    rw [he2 x y hx]
    by_cases hyt : y = t
    · subst hyt
      rw [if_pos ⟨rfl, hx⟩, if_pos (by omega)]
    · rw [if_neg (fun h => hyt h.1), he1 x y hx]
      by_cases h2 : y < t
      · rw [if_pos h2, if_pos (by omega)]
      · rw [if_neg h2, if_neg (by omega)]

theorem tr_rows (a : Mat α) : (tr a).rows = a.cols := (tr_outer a a.rows le_rfl).1

theorem tr_cols (a : Mat α) : (tr a).cols = a.rows := (tr_outer a a.rows le_rfl).2.1

theorem tr_wf (a : Mat α) : (tr a).wf := (tr_outer a a.rows le_rfl).2.2.1

theorem tr_elem (a : Mat α) {r c : Nat} (hr : r < a.rows) (hc : c < a.cols) :
    (tr a).elem c r = a.elem r c := by
  have h0 := (tr_outer a a.rows le_rfl).2.2.2 c r hc
  unfold tr
  rw [h0, if_pos hr]

/-! ## Absolute value, identity product, and `Except` plumbing -/

theorem jabs_eq_abs (x : α) : jabs x = |x| := by
  unfold jabs
  by_cases h : x > 0
  · rw [if_pos h, abs_of_pos h]
  · rw [if_neg h, abs_of_nonpos (le_of_not_lt h)]

theorem mulMat_identity (n : Nat) (A : Mat α) (h : A.rows = n) (hwf : A.wf) :
    mulMat (Mat.identity n) A = A := by
  refine Mat.ext_elem (mulMat_wf _ _) hwf ?_ ?_ ?_
  · rw [mulMat_rows, Mat.rows_identity, h]
  · rw [mulMat_cols]
  · intro r c hr hc
    rw [mulMat_rows, Mat.rows_identity] at hr
    rw [mulMat_cols] at hc
    rw [mulMat_elem _ _ (by rw [Mat.rows_identity]; exact hr) hc,
      Mat.cols_identity]
    have hsum : ∀ k ∈ Finset.range n,
        (Mat.identity (α := α) n).elem r k * A.elem k c =
          if r = k then A.elem k c else 0 := by
      intro k hk
      rw [Mat.elem_identity hr (Finset.mem_range.mp hk)]
      by_cases hrk : r = k
      · rw [if_pos hrk, if_pos hrk, one_mul]
      · rw [if_neg hrk, if_neg hrk, zero_mul]
    rw [Finset.sum_congr rfl hsum, Finset.sum_ite_eq (Finset.range n) r
      (fun k => A.elem k c), if_pos (Finset.mem_range.mpr hr)]

theorem except_bind_ok {σ ε : Type _} (x : Except ε σ) :
    x.bind (fun s => Except.ok s) = x := by
  cases x <;> rfl

theorem runFrom_succ_last {σ ε : Type _} (f : Nat → σ → Except ε σ) :
    ∀ (k i : Nat) (st : σ),
      runFrom f i (k + 1) st = (runFrom f i k st).bind (f (i + k)) := by
  intro k
  induction k with
  | zero =>
    intro i st
    have h1 : runFrom f (i + 1) 0 = fun s => Except.ok s := by
      funext s; rfl
    show (f i st).bind (runFrom f (i + 1) 0) = (Except.ok st).bind (f (i + 0))
    rw [h1, except_bind_ok]
    show f i st = f (i + 0) st
    rw [Nat.add_zero]
  | succ k ih =>
    intro i st
    show (f i st).bind (runFrom f (i + 1) (k + 1)) = _
    have h1 : runFrom f (i + 1) (k + 1) =
        fun s => (runFrom f (i + 1) k s).bind (f (i + 1 + k)) := by
      funext s
      exact ih (i + 1) s
    rw [h1]
    have h2 : runFrom f i (k + 1) st = (f i st).bind (runFrom f (i + 1) k) := rfl
    rw [h2]
    cases f i st with
    | error e => rfl
    | ok s =>
      show (runFrom f (i + 1) k s).bind (f (i + 1 + k)) = _
      have h3 : i + 1 + k = i + (k + 1) := by omega
      rw [h3]
      rfl

theorem iterUpE_eq_runFrom {σ ε : Type _} (f : Nat → σ → Except ε σ) :
    ∀ (n : Nat) (st : σ), iterUpE f n st = runFrom f 0 n st := by
  intro n
  induction n with
  | zero => intro st; rfl
  | succ n ih =>
    intro st
    show (iterUpE f n st).bind (f n) = _
    rw [ih st, runFrom_succ_last f n 0 st, Nat.zero_add]

/-! ## Step-level singularity tests (C4's two zero policies) -/

theorem luStep_singular_iff (n i : Nat) (st : LUState α) :
    (luStep n i st = .error .singularMatrix ↔
      st.a.elem (argmaxabs (st.a.data_column i)) i = 0) ∧
    (∀ e, luStep n i st = .error e → e = .singularMatrix) := by
  by_cases h : st.a.elem (argmaxabs (st.a.data_column i)) i = 0
  · have hs : luStep n i st = .error .singularMatrix := by
      simp only [luStep, if_pos h]
    constructor
    · constructor
      · intro _
        exact h
      · intro _
        exact hs
    · intro e he
      rw [hs] at he
      injection he with h2
      exact h2.symm
  · obtain ⟨st2, hs⟩ : ∃ st2, luStep n i st = .ok st2 := by
      simp only [luStep, if_neg h]
      exact ⟨_, rfl⟩
    constructor
    · constructor
      · intro hc
        rw [hs] at hc
        cases hc
      · intro hc
        exact absurd hc h
    · intro e he
      rw [hs] at he
      cases he

theorem luTolStep_singular_iff (n i : Nat) (st : LUState α) :
    (luTolStep n i st = .error .singularMatrix ↔
      |st.a.elem (argmaxabs (st.a.data_column i)) i| < 1 / 10 ^ 16) ∧
    (∀ e, luTolStep n i st = .error e → e = .singularMatrix) := by
  by_cases h : |st.a.elem (argmaxabs (st.a.data_column i)) i| < (1 : α) / 10 ^ 16
  · have hs : luTolStep n i st = .error .singularMatrix := by
      simp only [luTolStep, jabs_eq_abs, tol16, if_pos h]
    constructor
    · constructor
      · intro _
        exact h
      · intro _
        exact hs
    · intro e he
      rw [hs] at he
      injection he with h2
      exact h2.symm
  · obtain ⟨st2, hs⟩ : ∃ st2, luTolStep n i st = .ok st2 := by
      simp only [luTolStep, jabs_eq_abs, tol16, if_neg h]
      exact ⟨_, rfl⟩
    constructor
    · constructor
      · intro hc
        rw [hs] at hc
        cases hc
      · intro hc
        exact absurd hc h
    · intro e he
      rw [hs] at he
      cases he

/-! ## Lock-step agreement of the two LU implementations -/

theorem luCheckAux_agree (n : Nat) :
    ∀ (rem i : Nat) (st : LUState α), luCheckAux n rem i st = true →
      runFrom (luStep n) i rem st = runFrom (luTolStep n) i rem st := by
  intro rem
  induction rem with
  | zero => intro i st _; rfl
  | succ rem ih =>
    intro i st hchk
    unfold luCheckAux at hchk
    by_cases heq : luStep n i st = luTolStep n i st
    · rw [if_pos heq] at hchk
      show (luStep n i st).bind (runFrom (luStep n) (i + 1) rem) =
        (luTolStep n i st).bind (runFrom (luTolStep n) (i + 1) rem)
      rw [← heq]
      cases hstep : luStep n i st with
      | error e => rfl
      | ok st2 =>
        show runFrom (luStep n) (i + 1) rem st2 =
          runFrom (luTolStep n) (i + 1) rem st2
        rw [hstep] at hchk
        exact ih (i + 1) st2 hchk
    · rw [if_neg heq] at hchk
      cases hchk

/-! ## Claim theorems (shape contract, determinant, equivalence, totality) -/

/-- C3 (amended): the generic `lu` and the type-specialised `Mat64::lu_decomp`
implement identical bookkeeping and differ only in their zero tests; on every
square input on which each singularity test and each elimination guard
evaluates the same under both policies (exact zero versus magnitude below
`1e-16`) — the lock-step condition `luCheck` — the two return the identical
outcome, the same error kind on failure and identical `l`, `u`, `p` on
success.  They are not equivalent on all inputs: see the counterexample. -/
theorem claim_C3 : ∀ A : Mat ℚ, luCheck A = true → lu A = lu_decomp A := by
  intro A hchk
  unfold lu lu_decomp
  by_cases h : A.rows ≠ A.cols
  · rw [if_pos h, if_pos h]
  · rw [if_neg h, if_neg h]
    unfold luCheck at hchk
    rw [if_pos (by omega)] at hchk
    have hagree := luCheckAux_agree A.rows A.rows 0 _ hchk
    simp only [iterUpE_eq_runFrom, hagree]

/-- C3: the claimed equivalence fails on the code: on the 1×1 matrix
holding `2⁻⁶⁰` (exactly representable as a 64-bit float, and with all
tested comparisons exact), the generic `lu` succeeds while
`Mat64::lu_decomp` reports `SingularMatrix`. -/
theorem claim_C3_counterexample :
    lu (⟨1, 1, [(1 / 2 ^ 60 : ℚ)]⟩ : Mat ℚ) =
      .ok ⟨⟨1, 1, [1]⟩, ⟨1, 1, [1 / 2 ^ 60]⟩, [0]⟩ ∧
    lu_decomp (⟨1, 1, [(1 / 2 ^ 60 : ℚ)]⟩ : Mat ℚ) = .error .singularMatrix := by
  constructor
  · norm_num [lu, iterUpE, luStep, argmaxabs, jabs, lSwapLoop, moveRowLoop,
      elimRowLoop, elimLoop, iterUp, Mat.identity, Mat.zero, Mat.elem,
      Mat.setE, Mat.idx, Mat.data_column, List.range, List.range.loop,
      List.getD, List.set, Except.bind, Except.map]
  · norm_num [lu_decomp, iterUpE, luTolStep, argmaxabs, jabs, tol16,
      lSwapLoop, moveRowLoop, elimRowLoop, elimLoopTol, iterUp, Mat.identity,
      Mat.zero, Mat.elem, Mat.setE, Mat.idx, Mat.data_column, List.range,
      List.range.loop, List.getD, List.set, Except.bind, Except.map]

/-- C3 witness: the lock-step condition holds on the repository's own 3×3
test matrix, so both implementations coincide there. -/
theorem claim_C3_witness :
    lu (⟨3, 3, [2, 4, 3, 3, 7, 9, 4, 5, 5]⟩ : Mat ℚ) =
      lu_decomp (⟨3, 3, [2, 4, 3, 3, 7, 9, 4, 5, 5]⟩ : Mat ℚ) :=
  claim_C3 _ (by
    norm_num [luCheck, luCheckAux, luStep, luTolStep, iterUpE, argmaxabs,
      jabs, tol16, lSwapLoop, moveRowLoop, elimRowLoop, elimLoop, elimLoopTol,
      iterUp, Mat.identity, Mat.zero, Mat.elem, Mat.setE, Mat.idx,
      Mat.data_column, List.range, List.range.loop, List.getD, List.set,
      Except.bind, Except.map])

/-- C6: on every square input of size other than 2×2 on which the LU
decomposition fails, `det` recovers and returns `Ok` of the additive
identity instead of propagating the error (in particular it never surfaces
`SingularMatrix`). -/
theorem claim_C6 : ∀ (A : Mat ℚ) (e : JolinError), A.rows = A.cols →
    A.rows ≠ 2 → lu A = .error e → det A = some (.ok 0) := by
  intro A e hsq h2 hlu
  unfold det
  rw [if_neg (by omega), if_neg h2, hlu]

/-- C6 witness: the 1×1 zero matrix is square, not 2×2, LU fails on it with
`SingularMatrix`, and `det` returns `Ok 0`. -/
theorem claim_C6_witness :
    det (⟨1, 1, [(0 : ℚ)]⟩ : Mat ℚ) = some (.ok 0) :=
  claim_C6 _ JolinError.singularMatrix rfl (by decide) (by
    norm_num [lu, iterUpE, luStep, argmaxabs, jabs, iterUp, Mat.identity,
      Mat.zero, Mat.elem, Mat.setE, Mat.idx, Mat.data_column, List.range,
      List.range.loop, List.getD, List.set, Except.bind, Except.map])

/-- C7: the shape-mismatch contract. `mul` fails with `ShapeMismatch` iff
`left.column() != right.row()`; `add` and `sub` fail with `ShapeMismatch`
iff the operand shapes differ; `lu` and `det` fail with `ShapeMismatch` on
every non-square input; both QR variants fail with `ShapeMismatch` on every
input with fewer rows than columns. -/
theorem claim_C7 :
    (∀ a b : Mat ℚ, mul a b = .error .shapeMismatching ↔ a.cols ≠ b.rows) ∧
    (∀ a b : Mat ℚ, add a b = .error .shapeMismatching ↔
      (a.rows ≠ b.rows ∨ a.cols ≠ b.cols)) ∧
    (∀ a b : Mat ℚ, sub a b = .error .shapeMismatching ↔
      (a.rows ≠ b.rows ∨ a.cols ≠ b.cols)) ∧
    (∀ m : Mat ℚ, m.rows ≠ m.cols →
      lu m = .error .shapeMismatching ∧ det m = some (.error .shapeMismatching)) ∧
    (∀ (s : ℚ → ℚ) (m : Mat ℚ), m.rows < m.cols →
      qr_gram_schmidt s m = .error .shapeMismatching ∧
      qr_househoulder s m = .error .shapeMismatching) := by
  refine ⟨?_, ?_, ?_, ?_, ?_⟩
  · intro a b
    unfold mul
    by_cases h : a.cols ≠ b.rows
    · rw [if_pos h]
      exact ⟨(fun _ => h), (fun _ => rfl)⟩
    · rw [if_neg h]
      constructor
      · intro hc
        cases hc
      · intro hc
        exact absurd hc h
  · intro a b
    unfold add
    by_cases h : a.rows ≠ b.rows ∨ a.cols ≠ b.cols
    · rw [if_pos h]
      exact ⟨(fun _ => h), (fun _ => rfl)⟩
    · rw [if_neg h]
      constructor
      · intro hc
        cases hc
      · intro hc
        exact absurd hc h
  · intro a b
    unfold sub
    by_cases h : a.rows ≠ b.rows ∨ a.cols ≠ b.cols
    · rw [if_pos h]
      exact ⟨(fun _ => h), (fun _ => rfl)⟩
    · rw [if_neg h]
      constructor
      · intro hc
        cases hc
      · intro hc
        exact absurd hc h
  · intro m h
    constructor
    · unfold lu
      rw [if_pos h]
    · unfold det
      rw [if_pos h]
  · intro s m h
    constructor
    · unfold qr_gram_schmidt
      rw [if_pos h]
    · unfold qr_househoulder
      rw [if_pos h]

/-- C7 witness: concrete instances of each contract clause. -/
theorem claim_C7_witness :
    (mul (⟨1, 2, [(0 : ℚ), 0]⟩ : Mat ℚ) ⟨1, 2, [0, 0]⟩ =
      .error .shapeMismatching ↔ (2 : Nat) ≠ 1) ∧
    (lu (⟨1, 2, [(0 : ℚ), 0]⟩ : Mat ℚ) = .error .shapeMismatching ∧
      det (⟨1, 2, [(0 : ℚ), 0]⟩ : Mat ℚ) = some (.error .shapeMismatching)) ∧
    (qr_gram_schmidt (fun x => x) (⟨1, 2, [(0 : ℚ), 0]⟩ : Mat ℚ) =
      .error .shapeMismatching ∧
      qr_househoulder (fun x => x) (⟨1, 2, [(0 : ℚ), 0]⟩ : Mat ℚ) =
      .error .shapeMismatching) :=
  ⟨claim_C7.1 _ _, claim_C7.2.2.2.1 _ (by decide),
    claim_C7.2.2.2.2 _ _ (by decide)⟩

/-- C8: `det` on every 2×2 matrix takes the closed-form branch
`a[0,0]·a[1,1] − a[0,1]·a[1,0]` (the LU factorization is not consulted),
and concretely `det [[1,2],[3,4]] = -2`. -/
theorem claim_C8 :
    (∀ A : Mat ℚ, A.rows = 2 → A.cols = 2 →
      det A = some (.ok (A.elem 0 0 * A.elem 1 1 - A.elem 0 1 * A.elem 1 0))) ∧
    det (⟨2, 2, [1, 3, 2, 4]⟩ : Mat ℚ) = some (.ok (-2)) := by
  constructor
  · intro A h2 hc2
    unfold det
    rw [if_neg (by omega), if_pos h2]
  · norm_num [det, Mat.elem, Mat.idx, List.getD]

/-- C8 witness: the closed form evaluated on a concrete 2×2 matrix. -/
theorem claim_C8_witness :
    det (⟨2, 2, [(5 : ℚ), 0, 0, 3]⟩ : Mat ℚ) = some (.ok 15) :=
  (claim_C8.1 ⟨2, 2, [(5 : ℚ), 0, 0, 3]⟩ rfl rfl).trans (by
    norm_num [Mat.elem, Mat.idx, List.getD])

/-- C9: transposition is an exact involution on well-formed matrices, and
multiplying by the identity on the left returns the input exactly. -/
theorem claim_C9 :
    (∀ A : Mat ℚ, A.wf → tr (tr A) = A) ∧
    (∀ (n : Nat) (A : Mat ℚ), A.wf → A.rows = n →
      mul (Mat.identity n) A = .ok A) := by
  constructor
  · intro A hwf
    refine Mat.ext_elem (tr_wf _) hwf ?_ ?_ ?_
    · rw [tr_rows, tr_cols]
    · rw [tr_cols, tr_rows]
    · intro r c hr hc
      rw [tr_rows, tr_cols] at hr
      rw [tr_cols, tr_rows] at hc
      rw [tr_elem (tr A) (by rw [tr_rows]; exact hc) (by rw [tr_cols]; exact hr),
        tr_elem A hr hc]
  · intro n A hwf hra
    rw [mul_ok (by rw [Mat.cols_identity, hra]),
      mulMat_identity n A hra hwf]

/-- C9 witness: both round-trips on a concrete 2×3 matrix. -/
theorem claim_C9_witness :
    tr (tr (⟨2, 3, [(1 : ℚ), 2, 3, 4, 5, 6]⟩ : Mat ℚ)) =
      ⟨2, 3, [(1 : ℚ), 2, 3, 4, 5, 6]⟩ ∧
    mul (Mat.identity 2) (⟨2, 3, [(1 : ℚ), 2, 3, 4, 5, 6]⟩ : Mat ℚ) =
      .ok ⟨2, 3, [(1 : ℚ), 2, 3, 4, 5, 6]⟩ :=
  ⟨claim_C9.1 _ (by decide), claim_C9.2 2 _ (by decide) rfl⟩


/-- C10: `det` of the 0×0 matrix panics rather than returning a value or an
error: the square check passes, `lu` succeeds with empty factors, and
`diagonal_product` reads element (0,0) of an empty buffer out of bounds
(the `none` of the embedding), so `det` is not total there. -/
theorem claim_C10 :
    det (⟨0, 0, ([] : List ℚ)⟩ : Mat ℚ) = none ∧
    lu (⟨0, 0, ([] : List ℚ)⟩ : Mat ℚ) = .ok ⟨⟨0, 0, []⟩, ⟨0, 0, []⟩, []⟩ ∧
    diagonal_product (⟨0, 0, ([] : List ℚ)⟩ : Mat ℚ) = none := by
  refine ⟨?_, ?_, ?_⟩
  · norm_num [det, lu, iterUpE, iterUp, Mat.identity, Mat.zero,
      diagonal_product, Mat.idx, Except.map, List.range, List.range.loop]
  · norm_num [lu, iterUpE, iterUp, Mat.identity, Mat.zero, Except.map,
      List.range, List.range.loop]
  · norm_num [diagonal_product, Mat.idx]

/-! ## The pivot search and list bookkeeping helpers -/

theorem getD_set_self {β : Type _} {l : List β} {i : Nat} (h : i < l.length)
    (v d : β) : (l.set i v).getD i d = v := by
  rw [List.getD_eq_getElem?_getD, List.getElem?_set_self',
    List.getElem?_eq_getElem h]
  rfl

theorem getD_set_neq {β : Type _} (l : List β) {i j : Nat} (h : i ≠ j)
    (v d : β) : (l.set i v).getD j d = l.getD j d := by
  rw [List.getD_eq_getElem?_getD, List.getElem?_set_ne h,
    ← List.getD_eq_getElem?_getD]

theorem jabs_nonneg (x : α) : 0 ≤ jabs x := by
  rw [jabs_eq_abs]
  exact abs_nonneg x

theorem argmaxabs_aux (elems : List α) :
    ∀ k : Nat,
      iterUp (fun i1 ans =>
        if jabs (elems.getD (i1 + 1) 0) > jabs (elems.getD ans 0) then i1 + 1
        else ans) k 0 ≤ k ∧
      ∀ j, j ≤ k → jabs (elems.getD j 0) ≤
        jabs (elems.getD (iterUp (fun i1 ans =>
          if jabs (elems.getD (i1 + 1) 0) > jabs (elems.getD ans 0) then i1 + 1
          else ans) k 0) 0) := by
  intro k
  induction k with
  | zero =>
    refine ⟨le_rfl, fun j hj => ?_⟩
    have hj0 : j = 0 := by omega
    subst hj0
    exact le_rfl
  | succ k ih =>
    obtain ⟨hb, hs⟩ := ih
    set f : Nat → Nat → Nat := fun i1 ans =>
      if jabs (elems.getD (i1 + 1) 0) > jabs (elems.getD ans 0) then i1 + 1
      else ans with hf
    have hunf : iterUp f (k + 1) 0 = f k (iterUp f k 0) := rfl
    rw [hunf]
    by_cases h : jabs (elems.getD (k + 1) 0) > jabs (elems.getD (iterUp f k 0) 0)
    · have hsel : f k (iterUp f k 0) = k + 1 := by
        simp only [hf]
        exact if_pos h
      rw [hsel]
      refine ⟨le_rfl, fun j hj => ?_⟩
      rcases Nat.lt_succ_iff_lt_or_eq.mp (Nat.lt_succ_of_le hj) with h2 | h2
      · exact le_of_lt (lt_of_le_of_lt (hs j (by omega)) h)
      · rw [h2]
    · have hsel : f k (iterUp f k 0) = iterUp f k 0 := by
        simp only [hf]
        exact if_neg h
      rw [hsel]
      refine ⟨by omega, fun j hj => ?_⟩
      rcases Nat.lt_succ_iff_lt_or_eq.mp (Nat.lt_succ_of_le hj) with h2 | h2
      · exact hs j (by omega)
      · rw [h2]
        exact le_of_not_lt h

theorem argmaxabs_le (elems : List α) :
    ∀ j, j < elems.length →
      jabs (elems.getD j 0) ≤ jabs (elems.getD (argmaxabs elems) 0) := by
  intro j hj
  unfold argmaxabs
  rw [if_neg (by omega)]
  exact (argmaxabs_aux elems (elems.length - 1)).2 j (by omega)

theorem argmaxabs_lt (elems : List α) (h : elems.length ≠ 0) :
    argmaxabs elems < elems.length := by
  unfold argmaxabs
  rw [if_neg h]
  have := (argmaxabs_aux elems (elems.length - 1)).1
  omega

/-- If the pivot entry of column `c` is zero, the whole column is zero. -/
theorem column_zero_of_pivot_zero {m : Mat α} (hwf : m.wf) {c : Nat}
    (hc : c < m.cols) (hrows : m.rows ≠ 0)
    (h : m.elem (argmaxabs (m.data_column c)) c = 0) :
    ∀ r, r < m.rows → m.elem r c = 0 := by
  intro r hr
  have hlen : (m.data_column c).length = m.rows := Mat.data_column_length m hwf hc
  have hmax := argmaxabs_le (m.data_column c) r (by omega)
  have hplt : argmaxabs (m.data_column c) < m.rows := by
    have := argmaxabs_lt (m.data_column c) (by omega)
    omega
  rw [Mat.data_column_getD m (by omega), Mat.data_column_getD m hplt, h] at hmax
  rw [jabs_eq_abs, jabs_eq_abs, abs_zero] at hmax
  exact abs_eq_zero.mp (le_antisymm hmax (abs_nonneg _))

/-! ## Pointwise characterizations of the LU inner loops -/

theorem lSwapLoop_elem (l : Mat α) (hwf : l.wf) {i r2 : Nat}
    (hi : i < l.rows) (hr2 : r2 < l.rows) :
    ∀ k, k ≤ l.cols →
      ((lSwapLoop i r2 k l).rows = l.rows ∧ (lSwapLoop i r2 k l).cols = l.cols ∧
        (lSwapLoop i r2 k l).wf ∧
        ∀ x y : Nat, x < l.rows →
          (lSwapLoop i r2 k l).elem x y =
            if y < k ∧ x = i then l.elem r2 y
            else if y < k ∧ x = r2 then l.elem i y
            else l.elem x y) := by
  intro k
  induction k with
  | zero =>
    intro _
    exact ⟨rfl, rfl, hwf, fun x y hx => by simp [lSwapLoop, iterUp]⟩
  | succ k ih =>
    intro hk
    obtain ⟨hr1, hc1, hw1, he1⟩ := ih (by omega)
    set lk := lSwapLoop i r2 k l with hlk
    have hstep : lSwapLoop i r2 (k + 1) l =
        (lk.setE i k (lk.elem r2 k)).setE r2 k (lk.elem i k) := rfl
    have hvi : lk.elem i k = l.elem i k := by
      rw [he1 i k hi, if_neg (by omega), if_neg (by omega)]
    have hvr : lk.elem r2 k = l.elem r2 k := by
      rw [he1 r2 k hr2, if_neg (by omega), if_neg (by omega)]
    have hw2 : (lk.setE i k (lk.elem r2 k)).wf := Mat.wf_setE hw1 _ _ _
    refine ⟨by rw [hstep]; show lk.rows = l.rows; exact hr1,
      by rw [hstep]; show lk.cols = l.cols; exact hc1,
      by rw [hstep]; exact Mat.wf_setE hw2 _ _ _, fun x y hx => ?_⟩
    rw [hstep,
      Mat.elem_setE_at hw2 (by rw [Mat.rows_setE, hr1]; exact hr2)
        (by rw [Mat.cols_setE, hc1]; omega) (by rw [Mat.rows_setE, hr1]; exact hx),
      Mat.elem_setE_at hw1 (by rw [hr1]; exact hi) (by rw [hc1]; omega)
        (by rw [hr1]; exact hx),
      hvi, hvr, he1 x y hx]
    by_cases hy : y = k
    · by_cases hxr : x = r2
      · by_cases hxi : x = i
        · rw [if_pos ⟨hxr, hy⟩, if_pos ⟨by omega, hxi⟩, hy,
            show i = r2 by omega]
        · rw [if_pos ⟨hxr, hy⟩, if_neg (fun h => hxi h.2),
            if_pos ⟨by omega, hxr⟩, hy]
      · by_cases hxi : x = i
        · rw [if_neg (fun h => hxr h.1), if_pos ⟨hxi, hy⟩,
            if_pos ⟨by omega, hxi⟩, hy]
        · rw [if_neg (fun h => hxr h.1), if_neg (fun h => hxi h.1),
            if_neg (fun h => hxi h.2), if_neg (fun h => hxr h.2),
            if_neg (fun h => hxi h.2), if_neg (fun h => hxr h.2)]
    · by_cases hyk : y < k
      · by_cases hxi : x = i
        · rw [if_neg (fun h => hy h.2), if_neg (fun h => hy h.2),
            if_pos ⟨hyk, hxi⟩, if_pos ⟨by omega, hxi⟩]
        · by_cases hxr : x = r2
          · rw [if_neg (fun h => hy h.2), if_neg (fun h => hy h.2),
              if_neg (fun h => hxi h.2), if_pos ⟨hyk, hxr⟩,
              if_neg (fun h => hxi h.2), if_pos ⟨by omega, hxr⟩]
          · rw [if_neg (fun h => hy h.2), if_neg (fun h => hy h.2),
              if_neg (fun h => hxi h.2), if_neg (fun h => hxr h.2),
              if_neg (fun h => hxi h.2), if_neg (fun h => hxr h.2)]
      · rw [if_neg (fun h => hy h.2), if_neg (fun h => hy h.2),
          if_neg (fun h => hyk h.1), if_neg (fun h => hyk h.1),
          if_neg (fun h => absurd h.1 (by omega)),
          if_neg (fun h => absurd h.1 (by omega))]

theorem moveRowLoop_elem {n : Nat} (a u : Mat α) (hwa : a.wf) (hwu : u.wf)
    (har : a.rows = n) (hac : a.cols = n) (hur : u.rows = n) (huc : u.cols = n)
    {pra i : Nat} (hpra : pra < n) (hi : i < n) :
    ∀ k, k ≤ n →
      ((moveRowLoop pra i k (a, u)).1.rows = n ∧
        (moveRowLoop pra i k (a, u)).1.cols = n ∧
        (moveRowLoop pra i k (a, u)).1.wf ∧
        (moveRowLoop pra i k (a, u)).2.rows = n ∧
        (moveRowLoop pra i k (a, u)).2.cols = n ∧
        (moveRowLoop pra i k (a, u)).2.wf ∧
        (∀ x y : Nat, x < n →
          (moveRowLoop pra i k (a, u)).1.elem x y =
            if x = pra ∧ y < k then 0 else a.elem x y) ∧
        (∀ x y : Nat, x < n →
          (moveRowLoop pra i k (a, u)).2.elem x y =
            if x = i ∧ y < k then a.elem pra y else u.elem x y)) := by
  intro k
  induction k with
  | zero =>
    intro _
    exact ⟨har, hac, hwa, hur, huc, hwu,
      fun x y hx => by simp [moveRowLoop, iterUp],
      fun x y hx => by simp [moveRowLoop, iterUp]⟩
  | succ k ih =>
    intro hk
    obtain ⟨ha1, ha2, ha3, hu1, hu2, hu3, hea, heu⟩ := ih (by omega)
    set P := moveRowLoop pra i k (a, u) with hP
    have hstep : moveRowLoop pra i (k + 1) (a, u) =
        (P.1.setE pra k 0, P.2.setE i k (P.1.elem pra k)) := rfl
    have hval : P.1.elem pra k = a.elem pra k := by
      rw [hea pra k hpra, if_neg (by omega)]
    refine ⟨by rw [hstep]; show P.1.rows = n; exact ha1,
      by rw [hstep]; show P.1.cols = n; exact ha2,
      by rw [hstep]; exact Mat.wf_setE ha3 _ _ _,
      by rw [hstep]; show P.2.rows = n; exact hu1,
      by rw [hstep]; show P.2.cols = n; exact hu2,
      by rw [hstep]; exact Mat.wf_setE hu3 _ _ _,
      fun x y hx => ?_, fun x y hx => ?_⟩
    · rw [hstep]
      show (P.1.setE pra k 0).elem x y = _
      rw [Mat.elem_setE_at ha3 (by omega) (by omega) (by omega), hea x y hx]
      by_cases h1 : x = pra
      · by_cases h2 : y = k
        · rw [if_pos ⟨h1, h2⟩, if_pos ⟨h1, by omega⟩]
        · by_cases h3 : y < k
          · rw [if_neg (fun h => h2 h.2), if_pos ⟨h1, h3⟩, if_pos ⟨h1, by omega⟩]
          · rw [if_neg (fun h => h2 h.2), if_neg (fun h => h3 h.2),
              if_neg (fun h => absurd h.2 (by omega))]
      · rw [if_neg (fun h => h1 h.1), if_neg (fun h => h1 h.1),
          if_neg (fun h => h1 h.1)]
    · rw [hstep]
      show (P.2.setE i k (P.1.elem pra k)).elem x y = _
      rw [Mat.elem_setE_at hu3 (by omega) (by omega) (by omega), hval, heu x y hx]
      by_cases h1 : x = i
      · by_cases h2 : y = k
        · rw [if_pos ⟨h1, h2⟩, if_pos ⟨h1, by omega⟩, h2]
        · by_cases h3 : y < k
          · rw [if_neg (fun h => h2 h.2), if_pos ⟨h1, h3⟩, if_pos ⟨h1, by omega⟩]
          · rw [if_neg (fun h => h2 h.2), if_neg (fun h => h3 h.2),
              if_neg (fun h => absurd h.2 (by omega))]
      · rw [if_neg (fun h => h1 h.1), if_neg (fun h => h1 h.1),
          if_neg (fun h => h1 h.1)]

theorem elimRowLoop_partial {n : Nat} (a u : Mat α) (hwa : a.wf)
    (har : a.rows = n) (hac : a.cols = n) {r i : Nat} (hr : r < n)
    (hin : i ≤ n) (ratio : α) :
    ∀ k, k ≤ n - i →
      (let res := iterUp (fun k2 a2 =>
        a2.setE r (i + k2) (a2.elem r (i + k2) - ratio * u.elem i (i + k2))) k a
      res.rows = n ∧ res.cols = n ∧ res.wf ∧
        ∀ x y : Nat, x < n →
          res.elem x y =
            if x = r ∧ i ≤ y ∧ y < i + k then a.elem x y - ratio * u.elem i y
            else a.elem x y) := by
  intro k
  induction k with
  | zero =>
    intro _
    refine ⟨har, hac, hwa, fun x y hx => ?_⟩
    show a.elem x y = _
    rw [if_neg (fun h => by omega)]
  | succ k ih =>
    intro hk
    obtain ⟨ha1, ha2, ha3, hea⟩ := ih (by omega)
    set P := iterUp (fun k2 (a2 : Mat α) =>
      a2.setE r (i + k2) (a2.elem r (i + k2) - ratio * u.elem i (i + k2))) k a with hP
    have hstep : iterUp (fun k2 (a2 : Mat α) =>
        a2.setE r (i + k2) (a2.elem r (i + k2) - ratio * u.elem i (i + k2)))
        (k + 1) a = P.setE r (i + k) (P.elem r (i + k) - ratio * u.elem i (i + k)) := rfl
    have hval : P.elem r (i + k) = a.elem r (i + k) := by
      rw [hea r (i + k) hr, if_neg (fun h => by omega)]
    refine ⟨by rw [hstep]; show P.rows = n; exact ha1,
      by rw [hstep]; show P.cols = n; exact ha2,
      by rw [hstep]; exact Mat.wf_setE ha3 _ _ _, fun x y hx => ?_⟩
    rw [hstep, Mat.elem_setE_at ha3 (show r < P.rows by rw [ha1]; exact hr)
      (show i + k < P.cols by rw [ha2]; omega)
      (show x < P.rows by rw [ha1]; exact hx), hval,
      hea x y hx]
    by_cases h1 : x = r
    · by_cases h2 : y = i + k
      · rw [if_pos ⟨h1, h2⟩, if_pos ⟨h1, by omega⟩, h1, h2]
      · by_cases h3 : i ≤ y ∧ y < i + k
        · rw [if_neg (fun h => h2 h.2), if_pos ⟨h1, h3.1, h3.2⟩,
            if_pos ⟨h1, h3.1, by omega⟩]
        · rw [if_neg (fun h => h2 h.2), if_neg (fun h => h3 ⟨h.2.1, h.2.2⟩),
            if_neg (fun h => ?_)]
          exact absurd (show i ≤ y ∧ y < i + k by omega) h3
    · rw [if_neg (fun h => h1 h.1), if_neg (fun h => h1 h.1),
        if_neg (fun h => h1 h.1)]

theorem elimLoop_partial {n : Nat} (a l u : Mat α) (p invp : List Nat)
    (hperm : PermPair n p invp) (hwa : a.wf) (har : a.rows = n) (hac : a.cols = n)
    (hwl : l.wf) (hlr : l.rows = n) (hlc : l.cols = n) {i : Nat} (hi : i < n) :
    ∀ t, t ≤ n →
      (let res := iterUp (fun r al2 =>
        if al2.1.elem r i ≠ 0 then
          let ratio := al2.1.elem r i / u.elem i i
          (elimRowLoop r i n ratio u al2.1, al2.2.setE (invp.getD r 0) i ratio)
        else al2) t (a, l)
      res.1.rows = n ∧ res.1.cols = n ∧ res.1.wf ∧
      res.2.rows = n ∧ res.2.cols = n ∧ res.2.wf ∧
      (∀ x y : Nat, x < n →
        res.1.elem x y =
          if x < t ∧ a.elem x i ≠ 0 ∧ i ≤ y ∧ y < n then
            a.elem x y - (a.elem x i / u.elem i i) * u.elem i y
          else a.elem x y) ∧
      (∀ x y : Nat, x < n →
        res.2.elem x y =
          if y = i ∧ p.getD x 0 < t ∧ a.elem (p.getD x 0) i ≠ 0 then
            a.elem (p.getD x 0) i / u.elem i i
          else l.elem x y)) := by
  intro t
  induction t with
  | zero =>
    intro _
    refine ⟨har, hac, hwa, hlr, hlc, hwl, fun x y hx => ?_, fun x y hx => ?_⟩
    · show a.elem x y = _
      rw [if_neg (fun h => by omega)]
    · show l.elem x y = _
      rw [if_neg (fun h => by omega)]
  | succ t ih =>
    intro ht
    obtain ⟨hA1, hA2, hA3, hL1, hL2, hL3, heA, heL⟩ := ih (by omega)
    set B := fun (r : Nat) (al2 : Mat α × Mat α) =>
      if al2.1.elem r i ≠ 0 then
        let ratio := al2.1.elem r i / u.elem i i
        (elimRowLoop r i n ratio u al2.1, al2.2.setE (invp.getD r 0) i ratio)
      else al2 with hB
    set P := iterUp B t (a, l) with hP
    have hstep : iterUp B (t + 1) (a, l) = B t P := rfl
    have hg : P.1.elem t i = a.elem t i := by
      rw [heA t i (by omega), if_neg (fun h => by omega)]
    by_cases ha0 : a.elem t i = 0
    · have hred : B t P = P := by
        rw [hB]
        simp only [hg, ha0, ne_eq, not_true_eq_false, if_false, ite_not]
      rw [hstep, hred]
      refine ⟨hA1, hA2, hA3, hL1, hL2, hL3, fun x y hx => ?_, fun x y hx => ?_⟩
      · rw [heA x y hx]
        by_cases h1 : x < t ∧ a.elem x i ≠ 0 ∧ i ≤ y ∧ y < n
        · rw [if_pos h1, if_pos ⟨by omega, h1.2⟩]
        · rw [if_neg h1, if_neg (fun h => ?_)]
          refine h1 ⟨?_, h.2⟩
          rcases Nat.lt_succ_iff_lt_or_eq.mp h.1 with h2 | h2
          · exact h2
          · exact absurd (h2 ▸ ha0) h.2.1
      · rw [heL x y hx]
        by_cases h1 : y = i ∧ p.getD x 0 < t ∧ a.elem (p.getD x 0) i ≠ 0
        · rw [if_pos h1, if_pos ⟨h1.1, by omega, h1.2.2⟩]
        · rw [if_neg h1, if_neg (fun h => ?_)]
          refine h1 ⟨h.1, ?_, h.2.2⟩
          rcases Nat.lt_succ_iff_lt_or_eq.mp h.2.1 with h2 | h2
          · exact h2
          · exact absurd (h2 ▸ ha0) h.2.2
    · have hred : B t P =
          (elimRowLoop t i n (a.elem t i / u.elem i i) u P.1,
            P.2.setE (invp.getD t 0) i (a.elem t i / u.elem i i)) := by
        rw [hB]
        simp only [hg, ha0, ne_eq, not_false_eq_true, if_true]
      rw [hstep, hred]
      have helim := elimRowLoop_partial (n := n) P.1 u hA3 hA1 hA2
        (r := t) (i := i) (by omega) (by omega) (a.elem t i / u.elem i i)
        (n - i) le_rfl
      have helimdef : elimRowLoop t i n (a.elem t i / u.elem i i) u P.1 =
          iterUp (fun k2 (a2 : Mat α) =>
            a2.setE t (i + k2) (a2.elem t (i + k2) -
              (a.elem t i / u.elem i i) * u.elem i (i + k2))) (n - i) P.1 := rfl
      obtain ⟨hE1, hE2, hE3, heE⟩ := helim
      rw [helimdef] at *
      refine ⟨hE1, hE2, hE3,
        by show P.2.rows = n; exact hL1,
        by show P.2.cols = n; exact hL2,
        Mat.wf_setE hL3 _ _ _, fun x y hx => ?_, fun x y hx => ?_⟩
      · rw [heE x y hx]
        by_cases h1 : x = t
        · subst h1
          by_cases h2 : i ≤ y ∧ y < i + (n - i)
          · rw [if_pos ⟨rfl, h2.1, h2.2⟩, heA x y hx, if_neg (fun h => by omega),
              if_pos ⟨by omega, ha0, by omega, by omega⟩]
          · rw [if_neg (fun h => h2 ⟨h.2.1, h.2.2⟩), heA x y hx,
              if_neg (fun h => by omega), if_neg (fun h => ?_)]
            exact h2 (by omega)
        · rw [if_neg (fun h => h1 h.1), heA x y hx]
          by_cases h2 : x < t ∧ a.elem x i ≠ 0 ∧ i ≤ y ∧ y < n
          · rw [if_pos h2, if_pos ⟨by omega, h2.2⟩]
          · rw [if_neg h2, if_neg (fun h => ?_)]
            exact h2 ⟨by omega, h.2⟩
      · rw [Mat.elem_setE_at hL3
          (show invp.getD t 0 < P.2.rows by rw [hL1]; exact hperm.ilt t (by omega))
          (show i < P.2.cols by rw [hL2]; omega)
          (show x < P.2.rows by rw [hL1]; exact hx)]
        by_cases h1 : x = invp.getD t 0 ∧ y = i
        · have hpx : p.getD x 0 = t := by
            rw [h1.1]
            exact hperm.pi t (by omega)
          rw [if_pos h1, if_pos ⟨h1.2, by omega, by rw [hpx]; exact ha0⟩, hpx]
        · rw [if_neg h1, heL x y hx]
          by_cases h2 : y = i ∧ p.getD x 0 < t ∧ a.elem (p.getD x 0) i ≠ 0
          · rw [if_pos h2, if_pos ⟨h2.1, by omega, h2.2.2⟩]
          · rw [if_neg h2, if_neg (fun h => ?_)]
            refine h2 ⟨h.1, ?_, h.2.2⟩
            rcases Nat.lt_succ_iff_lt_or_eq.mp h.2.1 with h3 | h3
            · exact h3
            · exfalso
              refine h1 ⟨?_, h.1⟩
              rw [← h3] at *
              have := hperm.ip x hx
              omega

/-! ## Sum surgery helpers -/

theorem sum_update_term {n i : Nat} (hi : i < n) (F G : Nat → α)
    (h : ∀ j, j < n → j ≠ i → F j = G j) :
    ∑ j ∈ Finset.range n, F j = (∑ j ∈ Finset.range n, G j) - G i + F i := by
  have h1 := Finset.sum_eq_sum_diff_singleton_add (Finset.mem_range.mpr hi) F
  have h2 := Finset.sum_eq_sum_diff_singleton_add (Finset.mem_range.mpr hi) G
  have h3 : ∑ j ∈ Finset.range n \ {i}, F j = ∑ j ∈ Finset.range n \ {i}, G j := by
    refine Finset.sum_congr rfl (fun j hj => ?_)
    have hj2 := Finset.mem_sdiff.mp hj
    exact h j (Finset.mem_range.mp hj2.1) (by
      intro hcon
      exact hj2.2 (Finset.mem_singleton.mpr hcon))
  rw [h1, h3, h2]
  ring

theorem sum_add_indicator {n i : Nat} (hi : i < n) (F G : Nat → α) (X : α)
    (h : ∀ j, j < n → F j = G j + if j = i then X else 0) :
    ∑ j ∈ Finset.range n, F j = (∑ j ∈ Finset.range n, G j) + X := by
  rw [Finset.sum_congr rfl (fun j hj => h j (Finset.mem_range.mp hj)),
    Finset.sum_add_distrib]
  congr 1
  rw [Finset.sum_ite_eq' (Finset.range n) i (fun _ => X),
    if_pos (Finset.mem_range.mpr hi)]

/-! ## The permutation swap of one LU step -/

theorem perm_swap {n : Nat} {p invp : List Nat} (hperm : PermPair n p invp)
    {i pra : Nat} (hi : i < n) (hpra : pra < n) :
    (∀ k, k < n → ((p.set i (p.getD (invp.getD pra 0) 0)).set (invp.getD pra 0)
        (p.getD i 0)).getD k 0 =
      if k = invp.getD pra 0 then p.getD i 0
      else if k = i then p.getD (invp.getD pra 0) 0
      else p.getD k 0) ∧
    (∀ x, x < n → ((invp.set (p.getD (invp.getD pra 0) 0) i).set (p.getD i 0)
        (invp.getD pra 0)).getD x 0 =
      if x = p.getD i 0 then invp.getD pra 0
      else if x = p.getD (invp.getD pra 0) 0 then i
      else invp.getD x 0) ∧
    PermPair n ((p.set i (p.getD (invp.getD pra 0) 0)).set (invp.getD pra 0)
        (p.getD i 0))
      ((invp.set (p.getD (invp.getD pra 0) 0) i).set (p.getD i 0)
        (invp.getD pra 0)) := by
  set prpa := invp.getD pra 0 with hprpa
  set idx1 := p.getD i 0 with hidx1
  set idx2 := p.getD prpa 0 with hidx2
  have hprpa_lt : prpa < n := hperm.ilt pra hpra
  have hidx1_lt : idx1 < n := hperm.plt i hi
  have hidx2_lt : idx2 < n := hperm.plt prpa hprpa_lt
  have hpinj : ∀ k k2, k < n → k2 < n → p.getD k 0 = p.getD k2 0 → k = k2 := by
    intro k k2 hk hk2 he
    have := hperm.ip k hk
    rw [he, hperm.ip k2 hk2] at this
    omega
  have hiinj : ∀ x x2, x < n → x2 < n → invp.getD x 0 = invp.getD x2 0 → x = x2 := by
    intro x x2 hx hx2 he
    have := hperm.pi x hx
    rw [he, hperm.pi x2 hx2] at this
    omega
  have hp2v : ∀ k, k < n → ((p.set i idx2).set prpa idx1).getD k 0 =
      if k = prpa then idx1 else if k = i then idx2 else p.getD k 0 := by
    intro k hk
    by_cases h1 : k = prpa
    · subst h1
      rw [if_pos rfl, getD_set_self (by rw [List.length_set, hperm.plen]; omega)]
    · rw [if_neg h1, getD_set_neq _ (fun h => h1 h.symm)]
      by_cases h2 : k = i
      · subst h2
        rw [if_pos rfl, getD_set_self (by rw [hperm.plen]; omega)]
      · rw [if_neg h2, getD_set_neq _ (fun h => h2 h.symm)]
  have hiv : ∀ x, x < n → ((invp.set idx2 i).set idx1 prpa).getD x 0 =
      if x = idx1 then prpa else if x = idx2 then i else invp.getD x 0 := by
    intro x hx
    by_cases h1 : x = idx1
    · subst h1
      rw [if_pos rfl, getD_set_self (by rw [List.length_set, hperm.ilen]; omega)]
    · rw [if_neg h1, getD_set_neq _ (fun h => h1 h.symm)]
      by_cases h2 : x = idx2
      · subst h2
        rw [if_pos rfl, getD_set_self (by rw [hperm.ilen]; omega)]
      · rw [if_neg h2, getD_set_neq _ (fun h => h2 h.symm)]
  refine ⟨hp2v, hiv, ?_⟩
  have hiff : i = prpa ↔ idx1 = idx2 := by
    constructor
    · intro h
      rw [hidx1, hidx2, h]
    · intro h
      exact hpinj i prpa hi hprpa_lt h
  refine ⟨by rw [List.length_set, List.length_set, hperm.plen],
    by rw [List.length_set, List.length_set, hperm.ilen],
    fun k hk => ?_, fun x hx => ?_, fun k hk => ?_, fun x hx => ?_⟩
  · rw [hp2v k hk]
    by_cases h1 : k = prpa
    · rw [if_pos h1]; omega
    · rw [if_neg h1]
      by_cases h2 : k = i
      · rw [if_pos h2]; omega
      · rw [if_neg h2]; exact hperm.plt k hk
  · rw [hiv x hx]
    by_cases h1 : x = idx1
    · rw [if_pos h1]; omega
    · rw [if_neg h1]
      by_cases h2 : x = idx2
      · rw [if_pos h2]; omega
      · rw [if_neg h2]; exact hperm.ilt x hx
  · -- invp2 (p2 k) = k
    rw [hp2v k hk]
    by_cases h1 : k = prpa
    · rw [if_pos h1, hiv idx1 hidx1_lt, if_pos rfl]; omega
    · rw [if_neg h1]
      by_cases h2 : k = i
      · rw [if_pos h2, hiv idx2 hidx2_lt]
        have hne : ¬ idx2 = idx1 := by
          intro h
          exact h1 (by omega)
        rw [if_neg hne, if_pos rfl]
        omega
      · rw [if_neg h2, hiv (p.getD k 0) (hperm.plt k hk)]
        have hne1 : ¬ p.getD k 0 = idx1 := by
          intro h
          exact h2 (hpinj k i hk hi h)
        have hne2 : ¬ p.getD k 0 = idx2 := by
          intro h
          exact h1 (hpinj k prpa hk hprpa_lt h)
        rw [if_neg hne1, if_neg hne2]
        exact hperm.ip k hk
  · -- p2 (invp2 x) = x
    rw [hiv x hx]
    by_cases h1 : x = idx1
    · rw [if_pos h1, hp2v prpa hprpa_lt, if_pos rfl]
      omega
    · rw [if_neg h1]
      by_cases h2 : x = idx2
      · rw [if_pos h2, hp2v i hi]
        have hne : ¬ i = prpa := by
          intro h
          exact h1 (by rw [h2, ← hiff.mp h])
        rw [if_neg hne, if_pos rfl]
        omega
      · rw [if_neg h2, hp2v (invp.getD x 0) (hperm.ilt x hx)]
        have hne1 : ¬ invp.getD x 0 = prpa := by
          intro h
          refine h2 ?_
          rw [hidx2, ← h, hperm.pi x hx]
        have hne2 : ¬ invp.getD x 0 = i := by
          intro h
          refine h1 ?_
          rw [hidx1, ← h, hperm.pi x hx]
        rw [if_neg hne1, if_neg hne2]
        exact hperm.pi x hx


/-! ## One LU step preserves the invariant -/

theorem luStep_ok_eq {n i : Nat} {st : LUState α} {pra prpa idx1 idx2 : Nat}
    {p2 invp2 : List Nat} {l1 : Mat α} {au al : Mat α × Mat α}
    (hpra : pra = argmaxabs (st.a.data_column i))
    (hp0 : ¬ st.a.elem pra i = 0)
    (hprpa : prpa = st.invp.getD pra 0)
    (hidx1 : idx1 = st.p.getD i 0)
    (hidx2 : idx2 = st.p.getD prpa 0)
    (hp2 : p2 = (st.p.set i idx2).set prpa idx1)
    (hinvp2 : invp2 = (st.invp.set idx2 i).set idx1 prpa)
    (hl1 : l1 = lSwapLoop i prpa i st.l)
    (hau : au = moveRowLoop pra i n (st.a, st.u))
    (hal : al = elimLoop i n invp2 au.2 (au.1, l1)) :
    luStep n i st = .ok ⟨al.1, al.2, au.2, p2, invp2⟩ := by
  subst hal
  subst hau
  subst hl1
  subst hinvp2
  subst hp2
  subst hidx1
  subst hidx2
  subst hprpa
  subst hpra
  simp only [luStep, if_neg hp0]

theorem luStep_preserves {A : Mat α} {n i : Nat} (hi : i < n)
    {st st2 : LUState α} (hinv : LUInv A n i st)
    (hstep : luStep n i st = .ok st2) : LUInv A n (i + 1) st2 := by
  have hcoll : (st.a.data_column i).length = n := by
    rw [Mat.data_column_length st.a hinv.awf (by rw [hinv.acols]; exact hi),
      hinv.arows]
  by_cases hp0 : st.a.elem (argmaxabs (st.a.data_column i)) i = 0
  · have herr : luStep n i st = .error .singularMatrix := by
      simp only [luStep, if_pos hp0]
    rw [herr] at hstep
    cases hstep
  · set pra := argmaxabs (st.a.data_column i) with hpradef
    set prpa := st.invp.getD pra 0 with hprpadef
    set idx1 := st.p.getD i 0 with hidx1def
    set idx2 := st.p.getD prpa 0 with hidx2def
    set p2 := (st.p.set i idx2).set prpa idx1 with hp2def
    set invp2 := (st.invp.set idx2 i).set idx1 prpa with hinvp2def
    set l1 := lSwapLoop i prpa i st.l with hl1def
    set au := moveRowLoop pra i n (st.a, st.u) with haudef
    set al := elimLoop i n invp2 au.2 (au.1, l1) with haldef
    have hok := luStep_ok_eq (n := n) hpradef hp0 hprpadef hidx1def hidx2def
      hp2def hinvp2def hl1def haudef haldef
    rw [hok] at hstep
    injection hstep with h2
    subst h2
    have hpra_lt : pra < n := by
      rw [hpradef, ← hcoll]
      exact argmaxabs_lt _ (by omega)
    have hprpa_lt : prpa < n := by
      rw [hprpadef]
      exact hinv.perm.ilt pra hpra_lt
    have hpipra : st.p.getD prpa 0 = pra := by
      rw [hprpadef]
      exact hinv.perm.pi pra hpra_lt
    have hidx2pra : idx2 = pra := by rw [hidx2def, hpipra]
    have hprpa_ge : i ≤ prpa := by
      by_contra hlt
      push_neg at hlt
      have h0 := hinv.rowfin prpa hlt i hi
      rw [hpipra] at h0
      exact hp0 h0
    have hps := perm_swap hinv.perm hi hpra_lt
    rw [← hprpadef, ← hidx1def, ← hidx2def, ← hp2def, ← hinvp2def] at hps
    obtain ⟨hp2v, hiv, hperm2⟩ := hps
    have hlsw := lSwapLoop_elem st.l hinv.lwf (by rw [hinv.lrows]; exact hi)
      (by rw [hinv.lrows]; exact hprpa_lt) i (by rw [hinv.lcols]; omega)
    rw [← hl1def] at hlsw
    obtain ⟨hl1r, hl1c, hl1w, hl1e⟩ := hlsw
    have hmv := moveRowLoop_elem st.a st.u hinv.awf hinv.uwf hinv.arows
      hinv.acols hinv.urows hinv.ucols hpra_lt hi n le_rfl
    rw [← haudef] at hmv
    obtain ⟨ha2r, ha2c, ha2w, hu2r, hu2c, hu2w, ha2e, hu2e⟩ := hmv
    have hel := elimLoop_partial au.1 l1 au.2 p2 invp2 hperm2 ha2w ha2r ha2c
      hl1w (hl1r.trans hinv.lrows) (hl1c.trans hinv.lcols) hi n le_rfl
    have heldef : al = iterUp (fun r al2 =>
        if al2.1.elem r i ≠ 0 then
          let ratio := al2.1.elem r i / au.2.elem i i
          (elimRowLoop r i n ratio au.2 al2.1, al2.2.setE (invp2.getD r 0) i ratio)
        else al2) n (au.1, l1) := haldef
    obtain ⟨ha3r, ha3c, ha3w, hl3r, hl3c, hl3w, ha3e, hl3e⟩ := hel
    rw [← heldef] at ha3r ha3c ha3w hl3r hl3c hl3w ha3e hl3e
    have hupiv : au.2.elem i i = st.a.elem pra i := by
      rw [hu2e i i (by omega), if_pos ⟨rfl, by omega⟩]
    have hupiv0 : ¬ au.2.elem i i = 0 := by
      rw [hupiv]
      exact hp0
    have ha2pra : ∀ y, y < n → au.1.elem pra y = 0 := fun y hy => by
      rw [ha2e pra y hpra_lt, if_pos ⟨rfl, hy⟩]
    have ha2other : ∀ x y, x < n → x ≠ pra → au.1.elem x y = st.a.elem x y :=
      fun x y hx hne => by rw [ha2e x y hx, if_neg (fun h => hne h.1)]
    have hu2row : ∀ y, y < n → au.2.elem i y = st.a.elem pra y := fun y hy => by
      rw [hu2e i y (by omega), if_pos ⟨rfl, hy⟩]
    have hu2other : ∀ x y, x < n → x ≠ i → au.2.elem x y = st.u.elem x y :=
      fun x y hx hne => by rw [hu2e x y hx, if_neg (fun h => hne h.1)]
    have hfinzero : ∀ k, k < i → ∀ c, c < n → au.1.elem (st.p.getD k 0) c = 0 := by
      intro k hk c hc
      have hpkn : st.p.getD k 0 < n := hinv.perm.plt k (by omega)
      have hne : st.p.getD k 0 ≠ pra := by
        intro h
        have h2 := hinv.perm.ip k (by omega)
        rw [h, ← hprpadef] at h2
        omega
      rw [ha2other _ _ hpkn hne]
      exact hinv.rowfin k hk c hc
    have hp2i : p2.getD i 0 = pra := by
      rw [hp2v i hi]
      by_cases h1 : i = prpa
      · rw [if_pos h1, hidx1def, h1, hpipra]
      · rw [if_neg h1, if_pos rfl, hidx2pra]
    have hp2low : ∀ k, k < i → p2.getD k 0 = st.p.getD k 0 := by
      intro k hk
      rw [hp2v k (by omega), if_neg (by omega), if_neg (by omega)]
    have hT : ∀ x, x < n → ∀ c, c < n → A.elem x c = au.1.elem x c +
        ∑ j ∈ Finset.range n, l1.elem (invp2.getD x 0) j * au.2.elem j c := by
      intro x hx c hc
      by_cases hxpra : x = pra
      · subst hxpra
        have hivx : invp2.getD pra 0 = i := by
          rw [hiv pra hx]
          by_cases h1 : pra = idx1
          · rw [if_pos h1]
            have h2 := hinv.perm.ip i hi
            rw [← hidx1def, ← h1, ← hprpadef] at h2
            exact h2
          · rw [if_neg h1, if_pos hidx2pra.symm]
        rw [ha2pra c hc, hivx, zero_add]
        have hsum : ∑ j ∈ Finset.range n, l1.elem i j * au.2.elem j c =
            (∑ j ∈ Finset.range n, st.l.elem prpa j * st.u.elem j c) +
              st.a.elem pra c := by
          refine sum_add_indicator hi _ _ _ (fun j hj => ?_)
          by_cases hji : j = i
          · have hl1jj : l1.elem i i = 1 := by
              rw [hl1e i i (by rw [hinv.lrows]; exact hi),
                if_neg (fun h => by omega), if_neg (fun h => by omega),
                hinv.ldiag i hi]
            rw [hji, if_pos rfl, hl1jj, one_mul, hu2row c hc,
              hinv.uhi i le_rfl hi c hc, mul_zero, zero_add]
          · rw [if_neg hji, add_zero]
            by_cases hjlt : j < i
            · rw [hl1e i j (by rw [hinv.lrows]; exact hi), if_pos ⟨hjlt, rfl⟩,
                hu2other j c (by omega) hji]
            · rw [hu2other j c (by omega) hji,
                hinv.uhi j (by omega) (by omega) c hc, mul_zero, mul_zero]
        rw [hsum]
        have hrec := hinv.recon pra hx c hc
        rw [← hprpadef] at hrec
        rw [hrec]
        ring
      · by_cases hxidx1 : x = idx1
        · have hine : ¬ i = prpa := by
            intro h
            refine hxpra ?_
            rw [hxidx1, hidx1def, h, hpipra]
          have hivx : invp2.getD x 0 = prpa := by
            rw [hiv x hx, if_pos hxidx1]
          have hinvx_old : st.invp.getD x 0 = i := by
            have h2 := hinv.perm.ip i hi
            rw [← hidx1def, ← hxidx1] at h2
            exact h2
          rw [ha2other x c hx hxpra, hivx]
          have hsum : ∑ j ∈ Finset.range n, l1.elem prpa j * au.2.elem j c =
              ∑ j ∈ Finset.range n, st.l.elem i j * st.u.elem j c := by
            refine Finset.sum_congr rfl (fun j hj => ?_)
            have hjn := Finset.mem_range.mp hj
            by_cases hji : j = i
            · rw [hl1e prpa j (by rw [hinv.lrows]; exact hprpa_lt),
                if_neg (fun h => by omega), if_neg (fun h => by omega),
                hji, hinv.lid prpa i hprpa_lt hi le_rfl (fun h => hine h.symm),
                zero_mul, hinv.uhi i le_rfl hi c hc, mul_zero]
            · by_cases hjlt : j < i
              · rw [hl1e prpa j (by rw [hinv.lrows]; exact hprpa_lt),
                  if_neg (fun h => hine h.2.symm), if_pos ⟨hjlt, rfl⟩,
                  hu2other j c hjn hji]
              · rw [hu2other j c hjn hji, hinv.uhi j (by omega) hjn c hc,
                  mul_zero, mul_zero]
          rw [hsum]
          have hrec := hinv.recon x hx c hc
          rw [hinvx_old] at hrec
          exact hrec
        · have hxidx2 : ¬ x = idx2 := by
            intro h
            exact hxpra (by rw [h, hidx2pra])
          have hivx : invp2.getD x 0 = st.invp.getD x 0 := by
            rw [hiv x hx, if_neg hxidx1, if_neg hxidx2]
          have hk0n : st.invp.getD x 0 < n := hinv.perm.ilt x hx
          have hk0i : st.invp.getD x 0 ≠ i := by
            intro h
            refine hxidx1 ?_
            rw [hidx1def, ← h, hinv.perm.pi x hx]
          have hk0prpa : st.invp.getD x 0 ≠ prpa := by
            intro h
            refine hxpra ?_
            rw [← hidx2pra, hidx2def, ← h, hinv.perm.pi x hx]
          rw [ha2other x c hx hxpra, hivx]
          have hsum : ∑ j ∈ Finset.range n,
              l1.elem (st.invp.getD x 0) j * au.2.elem j c =
              ∑ j ∈ Finset.range n,
                st.l.elem (st.invp.getD x 0) j * st.u.elem j c := by
            refine Finset.sum_congr rfl (fun j hj => ?_)
            have hjn := Finset.mem_range.mp hj
            by_cases hji : j = i
            · rw [hl1e (st.invp.getD x 0) j (by rw [hinv.lrows]; exact hk0n),
                if_neg (fun h => by omega), if_neg (fun h => by omega),
                hji, hinv.lid _ i hk0n hi le_rfl hk0i, zero_mul, zero_mul]
            · by_cases hjlt : j < i
              · rw [hl1e (st.invp.getD x 0) j (by rw [hinv.lrows]; exact hk0n),
                  if_neg (fun h => hk0i h.2), if_neg (fun h => hk0prpa h.2),
                  hu2other j c hjn hji]
              · rw [hu2other j c hjn hji, hinv.uhi j (by omega) hjn c hc,
                  mul_zero, mul_zero]
          rw [hsum]
          exact hinv.recon x hx c hc
    refine ⟨ha3r, ha3c, ha3w, hl3r, hl3c, hl3w, hu2r, hu2c, hu2w, hperm2,
      ?_, ?_, ?_, ?_, ?_, ?_, ?_, ?_, ?_⟩
    · -- colzero up to i + 1
      intro c hc r hr
      by_cases hci : c < i
      · rw [ha3e r c hr, if_neg (fun h => by omega)]
        by_cases hrp : r = pra
        · rw [hrp, ha2pra c (by omega)]
        · rw [ha2other r c hr hrp, hinv.colzero c hci r hr]
      · have hci2 : c = i := by omega
        rw [hci2]
        by_cases hg : au.1.elem r i = 0
        · rw [ha3e r i hr, if_neg (fun h => h.2.1 hg), hg]
        · rw [ha3e r i hr, if_pos ⟨hr, hg, le_rfl, hi⟩,
            div_mul_cancel₀ _ hupiv0]
          ring
    · -- rowfin up to i + 1
      intro k hk c hc
      by_cases hki : k < i
      · have hpk_lt : st.p.getD k 0 < n := hinv.perm.plt k (by omega)
        rw [hp2low k hki, ha3e _ c hpk_lt,
          if_neg (fun h => h.2.1 (hfinzero k hki i hi)), hfinzero k hki c hc]
      · have hki2 : k = i := by omega
        rw [hki2, hp2i, ha3e pra c hpra_lt,
          if_neg (fun h => h.2.1 (ha2pra i hi)), ha2pra c hc]
    · -- uhi above i + 1
      intro k hk hkn c hc
      rw [hu2other k c hkn (by omega), hinv.uhi k (by omega) hkn c hc]
    · -- utri up to i + 1
      intro k hk c hck
      by_cases hki : k < i
      · rw [hu2other k c (by omega) (by omega), hinv.utri k hki c hck]
      · have hki2 : k = i := by omega
        rw [hki2, hu2row c (by omega), hinv.colzero c (by omega) pra hpra_lt]
    · -- udiag up to i + 1
      intro k hk
      by_cases hki : k < i
      · rw [hu2other k k (by omega) (by omega)]
        exact hinv.udiag k hki
      · have hki2 : k = i := by omega
        rw [hki2, hupiv]
        exact hp0
    · -- ldiag
      intro k hk
      by_cases hki : k = i
      · rw [hki, hl3e i i hi,
          if_neg (fun h => h.2.2 (by rw [hp2i]; exact ha2pra i hi)),
          hl1e i i (by rw [hinv.lrows]; exact hi),
          if_neg (fun h => by omega), if_neg (fun h => by omega),
          hinv.ldiag i hi]
      · rw [hl3e k k hk, if_neg (fun h => hki h.1),
          hl1e k k (by rw [hinv.lrows]; exact hk),
          if_neg (fun h => by omega), if_neg (fun h => by omega),
          hinv.ldiag k hk]
    · -- lupper
      intro k c hk hc hkc
      by_cases hci : c = i
      · have hklt : k < i := by omega
        have hz0 : au.1.elem (p2.getD k 0) i = 0 := by
          rw [hp2low k hklt]
          exact hfinzero k hklt i hi
        rw [hci, hl3e k i hk, if_neg (fun h => h.2.2 hz0),
          hl1e k i (by rw [hinv.lrows]; exact hk),
          if_neg (fun h => by omega), if_neg (fun h => by omega),
          hinv.lupper k i hk hi hklt]
      · rw [hl3e k c hk, if_neg (fun h => hci h.1),
          hl1e k c (by rw [hinv.lrows]; exact hk),
          if_neg (fun h => by omega), if_neg (fun h => by omega),
          hinv.lupper k c hk hc hkc]
    · -- lid from column i + 1 on
      intro k c hk hc hic hkc
      rw [hl3e k c hk, if_neg (fun h => by omega),
        hl1e k c (by rw [hinv.lrows]; exact hk),
        if_neg (fun h => by omega), if_neg (fun h => by omega),
        hinv.lid k c hk hc (by omega) hkc]
    · -- recon
      intro x hx c hc
      have hp2iv : p2.getD (invp2.getD x 0) 0 = x := hperm2.pi x hx
      have hivlt : invp2.getD x 0 < n := hperm2.ilt x hx
      by_cases hg : au.1.elem x i = 0
      · have hsum0 : ∑ j ∈ Finset.range n,
            al.2.elem (invp2.getD x 0) j * au.2.elem j c =
            ∑ j ∈ Finset.range n,
              l1.elem (invp2.getD x 0) j * au.2.elem j c := by
          refine Finset.sum_congr rfl (fun j hj => ?_)
          have hcond : ¬ (j = i ∧ p2.getD (invp2.getD x 0) 0 < n ∧
              au.1.elem (p2.getD (invp2.getD x 0) 0) i ≠ 0) := by
            rw [hp2iv]
            intro h
            exact h.2.2 hg
          rw [hl3e _ j hivlt, if_neg hcond]
        have ha3x : al.1.elem x c = au.1.elem x c := by
          rw [ha3e x c hx, if_neg (fun h => h.2.1 hg)]
        rw [ha3x, hsum0]
        exact hT x hx c hc
      · have hxpra2 : ¬ x = pra := by
          intro h
          rw [h] at hg
          exact hg (ha2pra i hi)
        have hivi : ¬ invp2.getD x 0 = i := by
          intro h
          rw [h, hp2i] at hp2iv
          exact hxpra2 hp2iv.symm
        have hl1ivi : l1.elem (invp2.getD x 0) i = 0 := by
          rw [hl1e _ i (by rw [hinv.lrows]; exact hivlt),
            if_neg (fun h => by omega), if_neg (fun h => by omega)]
          exact hinv.lid _ i hivlt hi le_rfl hivi
        have hcondpos : al.2.elem (invp2.getD x 0) i =
            au.1.elem x i / au.2.elem i i := by
          have h1 : (i = i ∧ p2.getD (invp2.getD x 0) 0 < n ∧
              au.1.elem (p2.getD (invp2.getD x 0) 0) i ≠ 0) := by
            rw [hp2iv]
            exact ⟨rfl, hx, hg⟩
          rw [hl3e _ i hivlt, if_pos h1, hp2iv]
        have h1 : ∑ j ∈ Finset.range n,
            al.2.elem (invp2.getD x 0) j * au.2.elem j c =
            (∑ j ∈ Finset.range n,
              l1.elem (invp2.getD x 0) j * au.2.elem j c) -
              l1.elem (invp2.getD x 0) i * au.2.elem i c +
              al.2.elem (invp2.getD x 0) i * au.2.elem i c :=
          sum_update_term hi _ _ (fun j hj hji => by
            show al.2.elem (invp2.getD x 0) j * au.2.elem j c =
              l1.elem (invp2.getD x 0) j * au.2.elem j c
            rw [hl3e _ j hivlt, if_neg (fun h => hji h.1)])
        rw [h1, hcondpos, hl1ivi, zero_mul, sub_zero]
        by_cases hci : i ≤ c
        · rw [ha3e x c hx, if_pos ⟨hx, hg, hci, hc⟩]
          have hTx := hT x hx c hc
          rw [hTx]
          ring
        · have hz : au.2.elem i c = 0 := by
            rw [hu2row c hc, hinv.colzero c (by omega) pra hpra_lt]
          rw [ha3e x c hx, if_neg (fun h => hci h.2.2.1), hz, mul_zero, add_zero]
          exact hT x hx c hc

/-! ## Running the full LU loop -/

theorem range_getD {n k : Nat} (hk : k < n) : (List.range n).getD k 0 = k := by
  rw [List.getD_eq_getElem?_getD, List.getElem?_range hk]
  rfl

theorem permPair_range (n : Nat) : PermPair n (List.range n) (List.range n) := by
  refine ⟨List.length_range n, List.length_range n, fun k hk => ?_, fun x hx => ?_,
    fun k hk => ?_, fun x hx => ?_⟩
  · rw [range_getD hk]
    exact hk
  · rw [range_getD hx]
    exact hx
  · rw [range_getD hk, range_getD hk]
  · rw [range_getD hx, range_getD hx]

theorem lu_init_inv {A : Mat α} {n : Nat} (hwf : A.wf) (hr : A.rows = n)
    (hc : A.cols = n) :
    LUInv A n 0 ⟨A, Mat.identity n, Mat.zero n n, List.range n, List.range n⟩ := by
  refine ⟨hr, hc, hwf, Mat.rows_identity n, Mat.cols_identity n,
    Mat.wf_identity n, Mat.rows_zero n n, Mat.cols_zero n n, Mat.wf_zero n n,
    permPair_range n, ?_, ?_, ?_, ?_, ?_, ?_, ?_, ?_, ?_⟩
  · intro c hc2
    exact absurd hc2 (by omega)
  · intro k hk
    exact absurd hk (by omega)
  · intro k _ hk c hc2
    exact Mat.elem_zero n n k c
  · intro k hk
    exact absurd hk (by omega)
  · intro k hk
    exact absurd hk (by omega)
  · intro k hk
    show (Mat.identity (α := α) n).elem k k = 1
    rw [Mat.elem_identity hk hk, if_pos rfl]
  · intro k c2 hk hc2 hkc
    show (Mat.identity (α := α) n).elem k c2 = 0
    rw [Mat.elem_identity hk hc2, if_neg (by omega)]
  · intro k c2 hk hc2 _ hkc
    show (Mat.identity (α := α) n).elem k c2 = 0
    rw [Mat.elem_identity hk hc2, if_neg hkc]
  · intro x hx c2 hc2
    show A.elem x c2 = A.elem x c2 + ∑ j ∈ Finset.range n,
      (Mat.identity (α := α) n).elem ((List.range n).getD x 0) j *
        (Mat.zero (α := α) n n).elem j c2
    have hz : ∀ j ∈ Finset.range n,
        (Mat.identity (α := α) n).elem ((List.range n).getD x 0) j *
          (Mat.zero (α := α) n n).elem j c2 = 0 := fun j _ => by
      rw [Mat.elem_zero, mul_zero]
    rw [Finset.sum_congr rfl hz, Finset.sum_const_zero, add_zero]

theorem iterUpE_luStep_cases {A : Mat α} {n : Nat} {st0 : LUState α}
    (h0 : LUInv A n 0 st0) :
    ∀ t, t ≤ n →
      (∃ st, iterUpE (luStep n) t st0 = .ok st ∧ LUInv A n t st) ∨
      (∃ i st, i < t ∧ LUInv A n i st ∧
        st.a.elem (argmaxabs (st.a.data_column i)) i = 0 ∧
        iterUpE (luStep n) t st0 = .error .singularMatrix) := by
  intro t
  induction t with
  | zero =>
    intro _
    exact Or.inl ⟨st0, rfl, h0⟩
  | succ t ih =>
    intro ht
    rcases ih (by omega) with ⟨st, hok, hinv⟩ | ⟨i, st, hit, hinv, hpz, herr⟩
    · have hstep : iterUpE (luStep n) (t + 1) st0 = luStep n t st := by
        show (iterUpE (luStep n) t st0).bind (luStep n t) = _
        rw [hok]
        rfl
      cases hlu : luStep n t st with
      | ok st2 =>
        exact Or.inl ⟨st2, by rw [hstep, hlu],
          luStep_preserves (by omega) hinv hlu⟩
      | error e =>
        have he := (luStep_singular_iff n t st).2 e hlu
        subst he
        exact Or.inr ⟨t, st, by omega, hinv,
          ((luStep_singular_iff n t st).1).mp hlu, by rw [hstep, hlu]⟩
    · refine Or.inr ⟨i, st, by omega, hinv, hpz, ?_⟩
      show (iterUpE (luStep n) t st0).bind (luStep n t) = _
      rw [herr]
      rfl

theorem lu_cases {A : Mat α} {n : Nat} (hwf : A.wf) (hr : A.rows = n)
    (hcn : A.cols = n) :
    (∃ st, LUInv A n n st ∧ lu A = .ok ⟨st.l, st.u, st.p⟩) ∨
    ((∃ i st, i < n ∧ LUInv A n i st ∧
        st.a.elem (argmaxabs (st.a.data_column i)) i = 0) ∧
      lu A = .error .singularMatrix) := by
  have hsq : ¬ A.rows ≠ A.cols := by omega
  have hlu : lu A = (iterUpE (luStep n) n
      ⟨A, Mat.identity n, Mat.zero n n, List.range n, List.range n⟩).map
      (fun st => ⟨st.l, st.u, st.p⟩) := by
    simp only [lu, if_neg hsq]
    rw [hr]
  rcases iterUpE_luStep_cases (lu_init_inv hwf hr hcn) n le_rfl with
    ⟨st, hok, hinv⟩ | ⟨i, st, hit, hinv, hpz, herr⟩
  · refine Or.inl ⟨st, hinv, ?_⟩
    rw [hlu, hok]
    rfl
  · refine Or.inr ⟨⟨i, st, hit, hinv, hpz⟩, ?_⟩
    rw [hlu, herr]
    rfl

/-! ## Consequences of a successful LU run -/

theorem lu_ok_recon {A : Mat α} {n : Nat} {st : LUState α}
    (hinv : LUInv A n n st) :
    ∀ k c, k < n → c < n →
      (mulMat st.l st.u).elem k c = A.elem (st.p.getD k 0) c := by
  intro k c hk hc
  have hpk : st.p.getD k 0 < n := hinv.perm.plt k hk
  have hrec := hinv.recon (st.p.getD k 0) hpk c hc
  rw [hinv.perm.ip k hk] at hrec
  rw [mulMat_elem st.l st.u (by rw [hinv.lrows]; exact hk)
    (by rw [hinv.ucols]; exact hc), hinv.lcols, hrec,
    hinv.colzero c hc _ hpk, zero_add]

theorem PermPair.perm_range {n : Nat} {p invp : List Nat}
    (h : PermPair n p invp) : p.Perm (List.range n) := by
  have hget : ∀ a : Fin p.length, p.get a = p.getD a.val 0 := by
    intro a
    rw [List.getD_eq_getElem?_getD, List.getElem?_eq_getElem a.isLt]
    rfl
  have hplen := h.plen
  have hnodup : p.Nodup := by
    rw [List.nodup_iff_injective_get]
    intro a b hab
    rw [hget a, hget b] at hab
    have ha := h.ip a.val (by have := a.isLt; omega)
    have hb := h.ip b.val (by have := b.isLt; omega)
    rw [hab, hb] at ha
    exact Fin.ext ha.symm
  have hsub : p ⊆ List.range n := by
    intro x hx
    obtain ⟨a, ha⟩ := List.get_of_mem hx
    rw [List.mem_range, ← ha, hget a]
    exact h.plt a.val (by have := a.isLt; omega)
  exact (List.subperm_of_subset hnodup hsub).perm_of_length_le
    (by rw [List.length_range, h.plen])

/-! ## Determinant bridge: LU success and failure against the abstract
determinant of the embedded matrix -/

theorem lu_ok_det_ne_zero {A : Mat α} {n : Nat} {st : LUState α}
    (hr : A.rows = n) (hinv : LUInv A n n st) : (toSq A).det ≠ 0 := by
  subst hr
  set σ := hinv.perm.toEquiv with hσ
  set L : Matrix (Fin A.rows) (Fin A.rows) α :=
    Matrix.of (fun k j : Fin A.rows => st.l.elem k j) with hL
  set U : Matrix (Fin A.rows) (Fin A.rows) α :=
    Matrix.of (fun j c : Fin A.rows => st.u.elem j c) with hU
  have hkey : (toSq A).submatrix (⇑σ) id = L * U := by
    funext k c
    rw [Matrix.mul_apply]
    show A.elem (σ k).val c.val = ∑ j : Fin A.rows, st.l.elem k j * st.u.elem j c
    have hσk : ((σ k) : Fin A.rows).val = st.p.getD k.val 0 := rfl
    rw [hσk, ← lu_ok_recon hinv k c k.isLt c.isLt,
      mulMat_elem st.l st.u (by rw [hinv.lrows]; exact k.isLt)
        (by rw [hinv.ucols]; exact c.isLt), hinv.lcols, Finset.sum_range]
  have hLdet : L.det = 1 := by
    have htri : L.BlockTriangular OrderDual.toDual := by
      intro a b hab
      rw [OrderDual.toDual_lt_toDual] at hab
      show st.l.elem a b = 0
      exact hinv.lupper a b a.isLt b.isLt hab
    rw [Matrix.det_of_lowerTriangular L htri]
    refine Finset.prod_eq_one (fun k _ => ?_)
    show st.l.elem k k = 1
    exact hinv.ldiag k k.isLt
  have hUdet : U.det ≠ 0 := by
    have htri : U.BlockTriangular id := by
      intro a b hab
      show st.u.elem a b = 0
      exact hinv.utri a a.isLt b hab
    rw [Matrix.det_of_upperTriangular htri, Finset.prod_ne_zero_iff]
    intro k _
    exact hinv.udiag k k.isLt
  intro hdet0
  have h1 := Matrix.det_permute σ (toSq A)
  rw [hkey, Matrix.det_mul, hLdet, one_mul, hdet0, mul_zero] at h1
  exact hUdet h1

theorem lu_fail_det_zero {A : Mat α} {n i : Nat} {st : LUState α}
    (hr : A.rows = n) (hin : i < n) (hinv : LUInv A n i st)
    (hpz : st.a.elem (argmaxabs (st.a.data_column i)) i = 0) :
    (toSq A).det = 0 := by
  subst hr
  have hcz : ∀ r, r < A.rows → st.a.elem r i = 0 := by
    have h2 := column_zero_of_pivot_zero hinv.awf
      (show i < st.a.cols by rw [hinv.acols]; exact hin)
      (show st.a.rows ≠ 0 by rw [hinv.arows]; omega) hpz
    intro r hrn
    exact h2 r (by rw [hinv.arows]; exact hrn)
  have hcolA : ∀ x, x < A.rows → ∀ c, c ≤ i → A.elem x c =
      ∑ j ∈ Finset.range i, st.l.elem (st.invp.getD x 0) j * st.u.elem j c := by
    intro x hx c hci
    have hcn : c < A.rows := by omega
    have hrec := hinv.recon x hx c hcn
    have hza : st.a.elem x c = 0 := by
      rcases Nat.lt_or_ge c i with h | h
      · exact hinv.colzero c h x hx
      · have hcieq : c = i := by omega
        rw [hcieq]
        exact hcz x hx
    rw [hza, zero_add] at hrec
    rw [hrec]
    refine (Finset.sum_subset (Finset.range_subset.mpr (by omega)) ?_).symm
    intro j hj hnotin
    have hji : i ≤ j := by
      by_contra hcon
      exact hnotin (Finset.mem_range.mpr (by omega))
    rw [hinv.uhi j hji (Finset.mem_range.mp hj) c hcn, mul_zero]
  set M : Matrix (Fin (i + 1)) (Fin (i + 1)) α :=
    Matrix.of (fun j c : Fin (i + 1) =>
      if (j : Nat) < i then st.u.elem j c else 0) with hM
  have hdetM : M.det = 0 := by
    apply Matrix.det_eq_zero_of_row_eq_zero (i := (⟨i, by omega⟩ : Fin (i + 1)))
    intro j
    show (if i < i then st.u.elem i j.val else 0) = 0
    rw [if_neg (by omega)]
  obtain ⟨coef, hcoef0, hker⟩ := Matrix.exists_mulVec_eq_zero_iff.mpr hdetM
  set wnat : Nat → α :=
    (fun cv => if h : cv < i + 1 then coef ⟨cv, h⟩ else 0) with hwnat
  have hwnat_eta : ∀ c : Fin (i + 1), wnat c.val = coef c := by
    intro c
    show (if h : (c : Nat) < i + 1 then coef ⟨c, h⟩ else 0) = coef c
    rw [dif_pos c.isLt]
  have hker_row : ∀ j, j < i →
      ∑ cv ∈ Finset.range (i + 1), st.u.elem j cv * wnat cv = 0 := by
    intro j hj
    have h1 := congrFun hker ⟨j, by omega⟩
    rw [Pi.zero_apply] at h1
    have h2 : ∑ c : Fin (i + 1),
        (if j < i then st.u.elem j c.val else 0) * coef c = 0 := h1
    rw [Finset.sum_range]
    refine Eq.trans ?_ h2
    refine Finset.sum_congr rfl (fun c _ => ?_)
    rw [if_pos hj, hwnat_eta c]
  set w : Fin A.rows → α := (fun c => wnat c.val) with hw
  have hwne : w ≠ 0 := by
    intro hz
    apply hcoef0
    funext c
    have hc2 : (c : Nat) < A.rows := by have := c.isLt; omega
    have h1 : w ⟨c, hc2⟩ = coef c := hwnat_eta c
    rw [hz, Pi.zero_apply] at h1
    rw [Pi.zero_apply]
    exact h1.symm
  have hmulv : (toSq A).mulVec w = 0 := by
    funext x
    rw [Pi.zero_apply]
    have hrange : ∑ cv ∈ Finset.range A.rows, A.elem x.val cv * wnat cv = 0 := by
      have hshrink : ∑ cv ∈ Finset.range A.rows, A.elem x.val cv * wnat cv =
          ∑ cv ∈ Finset.range (i + 1), A.elem x.val cv * wnat cv := by
        refine (Finset.sum_subset (Finset.range_subset.mpr (by omega)) ?_).symm
        intro cv hcv hnotin
        have hge : i + 1 ≤ cv := by
          by_contra hcon
          exact hnotin (Finset.mem_range.mpr (by omega))
        show A.elem x.val cv *
          (if h : cv < i + 1 then coef ⟨cv, h⟩ else 0) = 0
        rw [dif_neg (by omega), mul_zero]
      rw [hshrink]
      have hcols : ∀ cv ∈ Finset.range (i + 1), A.elem x.val cv * wnat cv =
          ∑ j ∈ Finset.range i,
            st.l.elem (st.invp.getD x.val 0) j * st.u.elem j cv * wnat cv := by
        intro cv hcv
        rw [hcolA x.val x.isLt cv (by have := Finset.mem_range.mp hcv; omega),
          Finset.sum_mul]
      rw [Finset.sum_congr rfl hcols, Finset.sum_comm]
      refine Finset.sum_eq_zero (fun j hj => ?_)
      have hjlt := Finset.mem_range.mp hj
      have h4 : ∀ cv ∈ Finset.range (i + 1),
          st.l.elem (st.invp.getD x.val 0) j * st.u.elem j cv * wnat cv =
          st.l.elem (st.invp.getD x.val 0) j * (st.u.elem j cv * wnat cv) := by
        intro cv _
        ring
      rw [Finset.sum_congr rfl h4, ← Finset.mul_sum, hker_row j hjlt, mul_zero]
    calc (toSq A).mulVec w x
        = ∑ cv ∈ Finset.range A.rows, A.elem x.val cv * wnat cv :=
          (Finset.sum_range (fun cv => A.elem x.val cv * wnat cv)).symm
      _ = 0 := hrange
  exact Matrix.exists_mulVec_eq_zero_iff.mp ⟨w, hwne, hmulv⟩

/-- C1: for every square matrix over the exact field ℚ (the embedding's
stand-in for f64, making the 1e-7 tolerance an exact bound), if the
matrix is non-singular (its determinant is nonzero) then `lu` succeeds;
and whenever `lu` returns a result, `p` is a permutation of `0..n`,
`L·U` reconstructs the row-permuted input within `1e-7` (indeed exactly),
`L` has unit diagonal, and every sub-diagonal entry of `U` is exactly
zero. -/
theorem claim_C1 (A : Mat ℚ) (n : Nat) (hwf : A.wf) (hr : A.rows = n)
    (hc : A.cols = n) :
    ((toSq A).det ≠ 0 → ∃ d, lu A = .ok d) ∧
    (∀ d, lu A = .ok d →
      d.p.Perm (List.range n) ∧
      (∀ k c, k < n → c < n →
        |(mulMat d.l d.u).elem k c - A.elem (d.p.getD k 0) c| ≤ 1 / 10 ^ 7) ∧
      (∀ k, k < n → d.l.elem k k = 1) ∧
      (∀ r c2, r < n → c2 < n → c2 < r → d.u.elem r c2 = 0)) := by
  constructor
  · intro hdet
    rcases lu_cases hwf hr hc with ⟨st, hinv, hok⟩ | ⟨⟨i, st, hit, hinv, hpz⟩, herr⟩
    · exact ⟨⟨st.l, st.u, st.p⟩, hok⟩
    · exact absurd (lu_fail_det_zero hr hit hinv hpz) hdet
  · intro d hok
    rcases lu_cases hwf hr hc with ⟨st, hinv, hok2⟩ | ⟨_, herr⟩
    · rw [hok] at hok2
      injection hok2 with hd
      subst hd
      refine ⟨hinv.perm.perm_range, ?_, ?_, ?_⟩
      · intro k c hk hc2
        show |(mulMat st.l st.u).elem k c - A.elem (st.p.getD k 0) c| ≤ 1 / 10 ^ 7
        rw [lu_ok_recon hinv k c hk hc2, sub_self, abs_zero]
        norm_num
      · intro k hk
        exact hinv.ldiag k hk
      · intro r c2 hrn hc2 hlt
        exact hinv.utri r hrn c2 hlt
    · rw [herr] at hok
      cases hok

theorem claim_C1_witness :
    (toSq (⟨1, 1, [2]⟩ : Mat ℚ)).det ≠ 0 ∧
    (∃ d, lu (⟨1, 1, [2]⟩ : Mat ℚ) = .ok d) := by
  have hdet : (toSq (⟨1, 1, [2]⟩ : Mat ℚ)).det ≠ 0 := by
    rw [Matrix.det_fin_one]
    show (2 : ℚ) ≠ 0
    norm_num
  exact ⟨hdet, (claim_C1 ⟨1, 1, [2]⟩ 1 (by decide) rfl rfl).1 hdet⟩

/-- C4: over a square input the generic `luStep` fails with SingularMatrix
exactly when the maximal-absolute-value entry of the eliminated column is
exactly zero; the `Mat64` step fails exactly when that magnitude is below
`1e-16`; and every square matrix with a row equal to a scalar multiple of
another row makes `lu` fail with SingularMatrix. -/
theorem claim_C4 :
    (∀ (n i : Nat) (st : LUState ℚ),
      luStep n i st = .error .singularMatrix ↔
        st.a.elem (argmaxabs (st.a.data_column i)) i = 0) ∧
    (∀ (n i : Nat) (st : LUState ℚ),
      luTolStep n i st = .error .singularMatrix ↔
        |st.a.elem (argmaxabs (st.a.data_column i)) i| < 1 / 10 ^ 16) ∧
    (∀ (A : Mat ℚ) (n : Nat), A.wf → A.rows = n → A.cols = n →
      ∀ x y : Nat, x < n → y < n → x ≠ y → ∀ k : ℚ,
        (∀ c, c < n → A.elem x c = k * A.elem y c) →
        lu A = .error .singularMatrix) := by
  refine ⟨fun n i st => (luStep_singular_iff n i st).1,
    fun n i st => (luTolStep_singular_iff n i st).1, ?_⟩
  intro A n hwf hr hc x y hx hy hxy k hprop
  rcases lu_cases hwf hr hc with ⟨st, hinv, hok⟩ | ⟨_, herr⟩
  · exfalso
    apply lu_ok_det_ne_zero hr hinv
    subst hr
    have hroweq : (toSq A) ⟨x, hx⟩ = k • (toSq A) ⟨y, hy⟩ := by
      funext c
      show A.elem x c.val = k * A.elem y c.val
      exact hprop c.val c.isLt
    have hupd : toSq A = (toSq A).updateRow ⟨x, hx⟩ (k • (toSq A) ⟨y, hy⟩) := by
      rw [← hroweq, Matrix.updateRow_eq_self]
    rw [hupd, Matrix.det_updateRow_smul]
    have hzero : ((toSq A).updateRow ⟨x, hx⟩ ((toSq A) ⟨y, hy⟩)).det = 0 := by
      refine Matrix.det_zero_of_row_eq
        (show (⟨x, hx⟩ : Fin A.rows) ≠ ⟨y, hy⟩ from Fin.ne_of_val_ne hxy) ?_
      rw [Matrix.updateRow_self,
        Matrix.updateRow_ne (Fin.ne_of_val_ne (Ne.symm hxy))]
    rw [hzero, mul_zero]
  · exact herr

theorem claim_C4_witness :
    (∀ c, c < 2 → (⟨2, 2, [1, 1, 2, 2]⟩ : Mat ℚ).elem 0 c =
      1 * (⟨2, 2, [1, 1, 2, 2]⟩ : Mat ℚ).elem 1 c) ∧
    lu (⟨2, 2, [1, 1, 2, 2]⟩ : Mat ℚ) = .error .singularMatrix := by
  have hprop : ∀ c, c < 2 → (⟨2, 2, [1, 1, 2, 2]⟩ : Mat ℚ).elem 0 c =
      1 * (⟨2, 2, [1, 1, 2, 2]⟩ : Mat ℚ).elem 1 c := by
    intro c hc
    interval_cases c
    · show (1 : ℚ) = 1 * 1
      norm_num
    · show (2 : ℚ) = 1 * 2
      norm_num
  exact ⟨hprop, claim_C4.2.2 ⟨2, 2, [1, 1, 2, 2]⟩ 2 (by decide) rfl rfl 0 1
    (by decide) (by decide) (by decide) 1 hprop⟩

/-! ## Householder reflector algebra -/

theorem jsign_sq (x : α) : jsign x * jsign x = 1 := by
  unfold jsign
  by_cases h : x ≥ 0
  · rw [if_pos h]
    norm_num
  · rw [if_neg h]
    norm_num

theorem sum_delta_pick {m x : Nat} (hx : x < m) (g : Nat → α) :
    ∑ y ∈ Finset.range m, (if x = y then (1 : α) else 0) * g y = g x := by
  have h1 : ∀ y ∈ Finset.range m,
      (if x = y then (1 : α) else 0) * g y = if x = y then g y else 0 := by
    intro y _
    by_cases h : x = y
    · rw [if_pos h, if_pos h, one_mul]
    · rw [if_neg h, if_neg h, zero_mul]
  rw [Finset.sum_congr rfl h1, Finset.sum_ite_eq (Finset.range m) x g,
    if_pos (Finset.mem_range.mpr hx)]

theorem sum_range_shift (i m : Nat) (him : i ≤ m) (g : Nat → α)
    (hg : ∀ y, y < i → g y = 0) :
    ∑ y ∈ Finset.range m, g y = ∑ k ∈ Finset.range (m - i), g (i + k) := by
  have hm : m = i + (m - i) := by omega
  conv_lhs => rw [hm]
  rw [Finset.sum_range_add,
    Finset.sum_eq_zero (fun y hy => hg y (Finset.mem_range.mp hy)), zero_add]

theorem householder_annihilate {N : Nat} (hN : 0 < N) (X U0 U : Nat → α)
    (alpha S0 : α) (s : α → α) (hsq : ∀ t : α, 0 ≤ t → s t * s t = t)
    (halpha : alpha = -s (∑ k ∈ Finset.range N, X k * X k) * jsign (X 0))
    (hU0 : ∀ k, U0 k = if k = 0 then X 0 - alpha else X k)
    (hS0 : S0 = ∑ k ∈ Finset.range N, U0 k * U0 k)
    (hU : ∀ k, U k = U0 k / s S0) :
    ((∑ k ∈ Finset.range N, U k * U k) = 1 ∨ ∀ k, k < N → U k = 0) ∧
    (∀ j, 1 ≤ j → j < N →
      X j - 2 * U j * (∑ k ∈ Finset.range N, U k * X k) = 0) := by
  set Sx := ∑ k ∈ Finset.range N, X k * X k with hSx
  have hSx_nonneg : 0 ≤ Sx := Finset.sum_nonneg (fun k _ => mul_self_nonneg _)
  have halpha_sq : alpha * alpha = Sx := by
    have hj := jsign_sq (X 0)
    calc alpha * alpha
        = (s Sx * s Sx) * (jsign (X 0) * jsign (X 0)) := by rw [halpha]; ring
      _ = Sx * 1 := by rw [hsq Sx hSx_nonneg, hj]
      _ = Sx := mul_one _
  have hdot : ∑ k ∈ Finset.range N, U0 k * X k = Sx - alpha * X 0 := by
    have h1 : ∀ k ∈ Finset.range N, U0 k * X k =
        X k * X k - (if k = 0 then alpha * X 0 else 0) := by
      intro k _
      rw [hU0 k]
      by_cases hk : k = 0
      · rw [if_pos hk, if_pos hk, hk]
        ring
      · rw [if_neg hk, if_neg hk]
        ring
    rw [Finset.sum_congr rfl h1, Finset.sum_sub_distrib,
      Finset.sum_ite_eq' (Finset.range N) 0 (fun _ => alpha * X 0),
      if_pos (Finset.mem_range.mpr hN)]
  have hS0v : S0 = 2 * (Sx - alpha * X 0) := by
    have h1 : ∀ k ∈ Finset.range N, U0 k * U0 k =
        X k * X k - (if k = 0 then 2 * (alpha * X 0) - alpha * alpha else 0) := by
      intro k _
      rw [hU0 k]
      by_cases hk : k = 0
      · rw [if_pos hk, if_pos hk, hk]
        ring
      · rw [if_neg hk, if_neg hk]
        ring
    rw [hS0, Finset.sum_congr rfl h1, Finset.sum_sub_distrib,
      Finset.sum_ite_eq' (Finset.range N)
        0 (fun _ => 2 * (alpha * X 0) - alpha * alpha),
      if_pos (Finset.mem_range.mpr hN), halpha_sq]
    ring
  have hS0_nonneg : 0 ≤ S0 := by
    rw [hS0]
    exact Finset.sum_nonneg (fun k _ => mul_self_nonneg _)
  by_cases hz : S0 = 0
  · have hU0z : ∀ k, k < N → U0 k = 0 := by
      intro k hk
      have h1 := (Finset.sum_eq_zero_iff_of_nonneg
        (fun k2 _ => mul_self_nonneg (U0 k2))).mp (hS0 ▸ hz) k
        (Finset.mem_range.mpr hk)
      exact mul_self_eq_zero.mp h1
    have hUz : ∀ k, k < N → U k = 0 := by
      intro k hk
      rw [hU k, hU0z k hk, zero_div]
    refine ⟨Or.inr hUz, fun j hj1 hjN => ?_⟩
    have hXj : X j = U0 j := by
      rw [hU0 j, if_neg (by omega)]
    rw [hUz j hjN, hXj, hU0z j hjN, mul_zero, zero_mul, sub_zero]
  · have hsnorm : s S0 * s S0 = S0 := hsq S0 hS0_nonneg
    have hs_ne : s S0 ≠ 0 := fun h => hz (by rw [← hsnorm, h, mul_zero])
    have hw_ne : Sx - alpha * X 0 ≠ 0 := fun h => hz (by rw [hS0v, h, mul_zero])
    have hsumU : ∑ k ∈ Finset.range N, U k * U k = 1 := by
      have h1 : ∀ k ∈ Finset.range N, U k * U k = U0 k * U0 k / (s S0 * s S0) := by
        intro k _
        rw [hU k, div_mul_div_comm]
      rw [Finset.sum_congr rfl h1, ← Finset.sum_div, ← hS0, hsnorm]
      exact div_self hz
    refine ⟨Or.inl hsumU, fun j hj1 hjN => ?_⟩
    have hdotU : ∑ k ∈ Finset.range N, U k * X k = (Sx - alpha * X 0) / s S0 := by
      have h1 : ∀ k ∈ Finset.range N, U k * X k = U0 k * X k / s S0 := by
        intro k _
        rw [hU k, div_mul_eq_mul_div]
      rw [Finset.sum_congr rfl h1, ← Finset.sum_div, hdot]
    have hXj : X j = U0 j := by
      rw [hU0 j, if_neg (by omega)]
    rw [hdotU, hU j]
    have hprod : 2 * (U0 j / s S0) * ((Sx - alpha * X 0) / s S0) = U0 j := by
      have h2 : (2 : α) * (Sx - alpha * X 0) ≠ 0 :=
        mul_ne_zero two_ne_zero hw_ne
      calc 2 * (U0 j / s S0) * ((Sx - alpha * X 0) / s S0)
          = (2 * (Sx - alpha * X 0)) * U0 j / (s S0 * s S0) := by ring
        _ = (2 * (Sx - alpha * X 0)) * U0 j / (2 * (Sx - alpha * X 0)) := by
            rw [hsnorm, hS0v]
        _ = U0 j := mul_div_cancel_left₀ _ h2
    rw [hprod, hXj, sub_self]

/-! ## Gram-Schmidt: the returned R is strictly upper triangular -/

theorem iterUp_hold_lt {σ : Type _} {P : σ → Prop} {f : Nat → σ → σ} {n : Nat}
    (hf : ∀ i, i < n → ∀ st, P st → P (f i st)) :
    ∀ st, P st → P (iterUp f n st) := by
  induction n with
  | zero =>
    intro st h
    exact h
  | succ n ih =>
    intro st h
    show P (f n (iterUp f n st))
    exact hf n (by omega) _ (ih (fun i hi st2 h2 => hf i (by omega) st2 h2) st h)

theorem qr_gs_rmat_subdiag (mat q : Mat α) {m n : Nat} (hm : mat.rows = m)
    (hn : mat.cols = n) (hnm : n ≤ m) {rmat : Mat α}
    (hrm : rmat = iterUp (fun c rm => iterUp (fun r rm2 =>
        rm2.setE r c (vector_dot_product (q.data_column r) (mat.data_column c)))
        (c + 1) rm) n (Mat.zero m n)) :
    rmat.rows = m ∧ rmat.cols = n ∧ rmat.wf ∧
      ∀ r c : Nat, r < m → c < n → c < r → rmat.elem r c = 0 := by
  subst hrm
  refine iterUp_hold_lt (P := fun rm : Mat α => rm.rows = m ∧ rm.cols = n ∧
      rm.wf ∧ ∀ r c : Nat, r < m → c < n → c < r → rm.elem r c = 0) ?_
    (Mat.zero m n)
    ⟨rfl, rfl, Mat.wf_zero m n, fun r c _ _ _ => Mat.elem_zero m n r c⟩
  intro c hcn rm hP
  refine iterUp_hold_lt (P := fun rm2 : Mat α => rm2.rows = m ∧ rm2.cols = n ∧
      rm2.wf ∧ ∀ r c : Nat, r < m → c < n → c < r → rm2.elem r c = 0) ?_ rm hP
  intro r hrc rm2 hP2
  obtain ⟨h1, h2, h3, h4⟩ := hP2
  refine ⟨by rw [Mat.rows_setE, h1], by rw [Mat.cols_setE, h2],
    Mat.wf_setE h3 _ _ _, ?_⟩
  intro r2 c2 hr2 hc2 hc2r2
  have hne : ¬ (r2 = r ∧ c2 = c) := by
    intro hcon
    omega
  rw [Mat.elem_setE_at h3 (by rw [h1]; omega) (by rw [h2]; omega)
    (by rw [h1]; exact hr2), if_neg hne]
  exact h4 r2 c2 hr2 hc2 hc2r2

theorem qr_gram_schmidt_ok_eq (s : α → α) (mat : Mat α) {aq : Mat α × Mat α}
    {rmat : Mat α} (hsh : ¬ mat.rows < mat.cols)
    (haq : aq = iterUp (fun i aq2 =>
      let a2 := iterUp (fun ii a3 =>
        let ratio := vector_dot_product (a3.data_column i) (aq2.2.data_column ii)
        iterUp (fun j a4 => a4.setE j i (a4.elem j i - ratio * aq2.2.elem j ii))
          mat.rows a3) i aq2.1
      let u := a2.data_column i
      let u_l2 := l2_norm_of_vector s u
      let q2 := iterUp (fun j q3 => q3.setE j i (u.getD j 0 / u_l2)) mat.rows aq2.2
      (a2, q2)) mat.cols (mat, Mat.zero mat.rows mat.rows))
    (hrm : rmat = iterUp (fun c rm =>
      iterUp (fun r rm2 =>
        rm2.setE r c (vector_dot_product ((aq.2).data_column r)
          (mat.data_column c))) (c + 1) rm) mat.cols
      (Mat.zero mat.rows mat.cols)) :
    qr_gram_schmidt s mat = .ok ⟨aq.2, rmat⟩ := by
  subst hrm
  subst haq
  simp only [qr_gram_schmidt, if_neg hsh]

/-! ## The reflector matrix `q_i` built by `qr_househoulder` -/

theorem hh_qi_inner {m i : Nat} (u : List α) (j : Nat) (hij : i + j < m)
    (qi : Mat α) (hwf : qi.wf) (hr : qi.rows = m) (hc : qi.cols = m) :
    ∀ t, t ≤ m - i →
      ((iterUp (fun k qi2 =>
        qi2.setE (i + j) (i + k)
          (qi2.elem (i + j) (i + k) - u.getD j 0 * u.getD k 0 -
            u.getD j 0 * u.getD k 0)) t qi).rows = m ∧
      (iterUp (fun k qi2 =>
        qi2.setE (i + j) (i + k)
          (qi2.elem (i + j) (i + k) - u.getD j 0 * u.getD k 0 -
            u.getD j 0 * u.getD k 0)) t qi).cols = m ∧
      (iterUp (fun k qi2 =>
        qi2.setE (i + j) (i + k)
          (qi2.elem (i + j) (i + k) - u.getD j 0 * u.getD k 0 -
            u.getD j 0 * u.getD k 0)) t qi).wf ∧
      ∀ x y : Nat, x < m → y < m →
        (iterUp (fun k qi2 =>
          qi2.setE (i + j) (i + k)
            (qi2.elem (i + j) (i + k) - u.getD j 0 * u.getD k 0 -
              u.getD j 0 * u.getD k 0)) t qi).elem x y =
          if x = i + j ∧ i ≤ y ∧ y < i + t then
            qi.elem x y - u.getD j 0 * u.getD (y - i) 0 -
              u.getD j 0 * u.getD (y - i) 0
          else qi.elem x y) := by
  intro t
  induction t with
  | zero =>
    intro _
    refine ⟨hr, hc, hwf, fun x y hx hy => ?_⟩
    show qi.elem x y = _
    rw [if_neg (fun h => by omega)]
  | succ t ih =>
    intro ht
    obtain ⟨h1, h2, h3, h4⟩ := ih (by omega)
    set P := iterUp (fun k qi2 =>
      qi2.setE (i + j) (i + k)
        (qi2.elem (i + j) (i + k) - u.getD j 0 * u.getD k 0 -
          u.getD j 0 * u.getD k 0)) t qi with hP
    have hstep : iterUp (fun k qi2 =>
        qi2.setE (i + j) (i + k)
          (qi2.elem (i + j) (i + k) - u.getD j 0 * u.getD k 0 -
            u.getD j 0 * u.getD k 0)) (t + 1) qi =
        P.setE (i + j) (i + t)
          (P.elem (i + j) (i + t) - u.getD j 0 * u.getD t 0 -
            u.getD j 0 * u.getD t 0) := rfl
    have hread : P.elem (i + j) (i + t) = qi.elem (i + j) (i + t) := by
      rw [h4 (i + j) (i + t) hij (by omega), if_neg (fun h => by omega)]
    refine ⟨by rw [hstep, Mat.rows_setE]; exact h1,
      by rw [hstep, Mat.cols_setE]; exact h2,
      by rw [hstep]; exact Mat.wf_setE h3 _ _ _, fun x y hx hy => ?_⟩
    rw [hstep, Mat.elem_setE_at h3 (by rw [h1]; exact hij) (by rw [h2]; omega)
      (by rw [h1]; exact hx), hread]
    by_cases hxy : x = i + j ∧ y = i + t
    · rw [if_pos hxy, if_pos (by omega), hxy.1, hxy.2,
        show i + t - i = t from by omega]
    · rw [if_neg hxy, h4 x y hx hy]
      by_cases hold : x = i + j ∧ i ≤ y ∧ y < i + t
      · rw [if_pos hold, if_pos (by omega)]
      · rw [if_neg hold, if_neg (fun h => ?_)]
        refine hold ⟨h.1, h.2.1, ?_⟩
        rcases Nat.lt_succ_iff_lt_or_eq.mp (by omega : y - i < t + 1) with h5 | h5
        · omega
        · exfalso
          exact hxy ⟨h.1, by omega⟩

theorem hh_qi_elem {m i : Nat} (u : List α) (him : i < m) :
    ∀ t, t ≤ m - i →
      ((iterUp (fun j qi => iterUp (fun k qi2 =>
        qi2.setE (i + j) (i + k)
          (qi2.elem (i + j) (i + k) - u.getD j 0 * u.getD k 0 -
            u.getD j 0 * u.getD k 0)) (m - i) qi) t (Mat.identity m)).rows = m ∧
      (iterUp (fun j qi => iterUp (fun k qi2 =>
        qi2.setE (i + j) (i + k)
          (qi2.elem (i + j) (i + k) - u.getD j 0 * u.getD k 0 -
            u.getD j 0 * u.getD k 0)) (m - i) qi) t (Mat.identity m)).cols = m ∧
      (iterUp (fun j qi => iterUp (fun k qi2 =>
        qi2.setE (i + j) (i + k)
          (qi2.elem (i + j) (i + k) - u.getD j 0 * u.getD k 0 -
            u.getD j 0 * u.getD k 0)) (m - i) qi) t (Mat.identity m)).wf ∧
      ∀ x y : Nat, x < m → y < m →
        (iterUp (fun j qi => iterUp (fun k qi2 =>
          qi2.setE (i + j) (i + k)
            (qi2.elem (i + j) (i + k) - u.getD j 0 * u.getD k 0 -
              u.getD j 0 * u.getD k 0)) (m - i) qi) t (Mat.identity m)).elem x y =
          if i ≤ x ∧ x < i + t ∧ i ≤ y then
            (if x = y then (1 : α) else 0) -
              u.getD (x - i) 0 * u.getD (y - i) 0 -
              u.getD (x - i) 0 * u.getD (y - i) 0
          else (if x = y then (1 : α) else 0)) := by
  intro t
  induction t with
  | zero =>
    intro _
    refine ⟨Mat.rows_identity m, Mat.cols_identity m, Mat.wf_identity m,
      fun x y hx hy => ?_⟩
    show (Mat.identity (α := α) m).elem x y = _
    rw [if_neg (fun h => by omega), Mat.elem_identity hx hy]
  | succ t ih =>
    intro ht
    obtain ⟨h1, h2, h3, h4⟩ := ih (by omega)
    set P := iterUp (fun j qi => iterUp (fun k qi2 =>
      qi2.setE (i + j) (i + k)
        (qi2.elem (i + j) (i + k) - u.getD j 0 * u.getD k 0 -
          u.getD j 0 * u.getD k 0)) (m - i) qi) t (Mat.identity m) with hP
    have hstep : iterUp (fun j qi => iterUp (fun k qi2 =>
        qi2.setE (i + j) (i + k)
          (qi2.elem (i + j) (i + k) - u.getD j 0 * u.getD k 0 -
            u.getD j 0 * u.getD k 0)) (m - i) qi) (t + 1) (Mat.identity m) =
        iterUp (fun k qi2 =>
          qi2.setE (i + t) (i + k)
            (qi2.elem (i + t) (i + k) - u.getD t 0 * u.getD k 0 -
              u.getD t 0 * u.getD k 0)) (m - i) P := rfl
    have hit : i + t < m := by omega
    obtain ⟨g1, g2, g3, g4⟩ := hh_qi_inner u t hit P h3 h1 h2 (m - i) le_rfl
    have hmm : i + (m - i) = m := by omega
    refine ⟨by rw [hstep]; exact g1, by rw [hstep]; exact g2,
      by rw [hstep]; exact g3, fun x y hx hy => ?_⟩
    rw [hstep, g4 x y hx hy]
    by_cases hx2 : x = i + t
    · by_cases hy2 : i ≤ y
      · have hcond1 : x = i + t ∧ i ≤ y ∧ y < i + (m - i) := ⟨hx2, hy2, by omega⟩
        have hcond2 : ¬ (i ≤ x ∧ x < i + t ∧ i ≤ y) := by omega
        have hcond3 : i ≤ x ∧ x < i + (t + 1) ∧ i ≤ y := by omega
        rw [if_pos hcond1, h4 x y hx hy, if_neg hcond2, if_pos hcond3,
          hx2, show i + t - i = t from by omega]
      · have hcond1 : ¬ (x = i + t ∧ i ≤ y ∧ y < i + (m - i)) := fun h => hy2 h.2.1
        have hcond2 : ¬ (i ≤ x ∧ x < i + t ∧ i ≤ y) := fun h => hy2 h.2.2
        have hcond3 : ¬ (i ≤ x ∧ x < i + (t + 1) ∧ i ≤ y) := fun h => hy2 h.2.2
        rw [if_neg hcond1, h4 x y hx hy, if_neg hcond2, if_neg hcond3]
    · have hcond1 : ¬ (x = i + t ∧ i ≤ y ∧ y < i + (m - i)) := fun h => hx2 h.1
      rw [if_neg hcond1, h4 x y hx hy]
      by_cases hold : i ≤ x ∧ x < i + t ∧ i ≤ y
      · have hcond3 : i ≤ x ∧ x < i + (t + 1) ∧ i ≤ y := by omega
        rw [if_pos hold, if_pos hcond3]
      · have hcond3 : ¬ (i ≤ x ∧ x < i + (t + 1) ∧ i ≤ y) := by
          intro h
          refine hold ⟨h.1, ?_, h.2.2⟩
          omega
        rw [if_neg hold, if_neg hcond3]

theorem hh_qi_v {m i : Nat} (u : List α) (him : i < m) {Q : Mat α}
    (hQ : Q = iterUp (fun j qi => iterUp (fun k qi2 =>
        qi2.setE (i + j) (i + k)
          (qi2.elem (i + j) (i + k) - u.getD j 0 * u.getD k 0 -
            u.getD j 0 * u.getD k 0)) (m - i) qi) (m - i) (Mat.identity m)) :
    Q.rows = m ∧ Q.cols = m ∧ Q.wf ∧
    ∀ x y : Nat, x < m → y < m →
      Q.elem x y = (if x = y then (1 : α) else 0) -
        2 * ((if i ≤ x then u.getD (x - i) 0 else 0) *
          (if i ≤ y then u.getD (y - i) 0 else 0)) := by
  subst hQ
  obtain ⟨h1, h2, h3, h4⟩ := hh_qi_elem u him (m - i) le_rfl
  refine ⟨h1, h2, h3, fun x y hx hy => ?_⟩
  rw [h4 x y hx hy]
  by_cases hxi : i ≤ x
  · by_cases hyi : i ≤ y
    · rw [if_pos ⟨hxi, by omega, hyi⟩, if_pos hxi, if_pos hyi]
      ring
    · rw [if_neg (fun h => hyi h.2.2), if_neg hyi, mul_zero, mul_zero, sub_zero]
  · rw [if_neg (fun h => hxi h.1), if_neg hxi, zero_mul, mul_zero, sub_zero]

theorem sum_delta_pick2 {m c : Nat} (hc : c < m) (g : Nat → α) :
    ∑ y ∈ Finset.range m, (if y = c then (1 : α) else 0) * g y = g c := by
  have h1 : ∀ y ∈ Finset.range m,
      (if y = c then (1 : α) else 0) * g y = if y = c then g y else 0 := by
    intro y _
    by_cases h : y = c
    · rw [if_pos h, if_pos h, one_mul]
    · rw [if_neg h, if_neg h, zero_mul]
  rw [Finset.sum_congr rfl h1, Finset.sum_ite_eq' (Finset.range m) c g,
    if_pos (Finset.mem_range.mpr hc)]

theorem reflector_sq {m : Nat} (v : Nat → α) (Q : Mat α)
    (hr : Q.rows = m) (hc : Q.cols = m) (hwf : Q.wf)
    (he : ∀ x y, x < m → y < m →
      Q.elem x y = (if x = y then (1 : α) else 0) - 2 * (v x * v y))
    (hS : (∑ y ∈ Finset.range m, v y * v y) = 1 ∨ ∀ y, y < m → v y = 0) :
    mulMat Q Q = Mat.identity m := by
  refine Mat.ext_elem (mulMat_wf _ _) (Mat.wf_identity m)
    (by rw [mulMat_rows, hr, Mat.rows_identity])
    (by rw [mulMat_cols, hc, Mat.cols_identity]) ?_
  intro x c2 hx hc2
  rw [mulMat_rows, hr] at hx
  rw [mulMat_cols, hc] at hc2
  rw [mulMat_elem Q Q (by rw [hr]; exact hx) (by rw [hc]; exact hc2), hc,
    Mat.elem_identity hx hc2]
  have hterm : ∀ y ∈ Finset.range m, Q.elem x y * Q.elem y c2 =
      (if x = y then (1 : α) else 0) * (if y = c2 then (1 : α) else 0)
      - (if x = y then (1 : α) else 0) * (2 * (v c2 * v y))
      - (if y = c2 then (1 : α) else 0) * (2 * (v x * v y))
      + 4 * (v x * v c2) * (v y * v y) := by
    intro y hy
    have hym := Finset.mem_range.mp hy
    rw [he x y hx hym, he y c2 hym hc2]
    ring
  rw [Finset.sum_congr rfl hterm, Finset.sum_add_distrib,
    Finset.sum_sub_distrib, Finset.sum_sub_distrib,
    sum_delta_pick hx (fun y => if y = c2 then (1 : α) else 0),
    sum_delta_pick hx (fun y => 2 * (v c2 * v y)),
    sum_delta_pick2 hc2 (fun y => 2 * (v x * v y)), ← Finset.mul_sum]
  rcases hS with h1 | h1
  · rw [h1, mul_one]
    ring
  · rw [h1 x hx, h1 c2 hc2]
    ring

theorem mulMat_assoc (a b c : Mat α) (hab : a.cols = b.rows)
    (hbc : b.cols = c.rows) :
    mulMat (mulMat a b) c = mulMat a (mulMat b c) := by
  refine Mat.ext_elem (mulMat_wf _ _) (mulMat_wf _ _)
    (by rw [mulMat_rows, mulMat_rows, mulMat_rows])
    (by rw [mulMat_cols, mulMat_cols, mulMat_cols]) ?_
  intro r cc hr hcc
  rw [mulMat_rows, mulMat_rows] at hr
  rw [mulMat_cols] at hcc
  rw [mulMat_elem _ _ (by rw [mulMat_rows]; exact hr) hcc,
    mulMat_elem _ _ hr (by rw [mulMat_cols]; exact hcc), mulMat_cols]
  have hL : ∀ k ∈ Finset.range b.cols, (mulMat a b).elem r k * c.elem k cc =
      ∑ j ∈ Finset.range a.cols, a.elem r j * b.elem j k * c.elem k cc := by
    intro k hk
    rw [mulMat_elem a b hr (Finset.mem_range.mp hk), Finset.sum_mul]
  have hR : ∀ j ∈ Finset.range a.cols,
      a.elem r j * (mulMat b c).elem j cc =
      ∑ k ∈ Finset.range b.cols, a.elem r j * (b.elem j k * c.elem k cc) := by
    intro j hj
    rw [mulMat_elem b c (by rw [← hab]; exact Finset.mem_range.mp hj) hcc,
      Finset.mul_sum]
  rw [Finset.sum_congr rfl hL, Finset.sum_congr rfl hR, Finset.sum_comm]
  refine Finset.sum_congr rfl (fun j _ => Finset.sum_congr rfl (fun k _ => ?_))
  ring

theorem tr_mulMat (p q : Mat α) (hpq : p.cols = q.rows) :
    tr (mulMat p q) = mulMat (tr q) (tr p) := by
  refine Mat.ext_elem (tr_wf _) (mulMat_wf _ _)
    (by rw [tr_rows, mulMat_cols, mulMat_rows, tr_rows])
    (by rw [tr_cols, mulMat_rows, mulMat_cols, tr_cols]) ?_
  intro x y hx hy
  rw [tr_rows, mulMat_cols] at hx
  rw [tr_cols, mulMat_rows] at hy
  rw [tr_elem (mulMat p q) (by rw [mulMat_rows]; exact hy)
    (by rw [mulMat_cols]; exact hx),
    mulMat_elem p q hy hx,
    mulMat_elem (tr q) (tr p) (by rw [tr_rows]; exact hx)
      (by rw [tr_cols]; exact hy), tr_cols, hpq]
  refine Finset.sum_congr rfl (fun k hk => ?_)
  have hkm := Finset.mem_range.mp hk
  rw [tr_elem q hkm hx, tr_elem p hy (by rw [hpq]; exact hkm)]
  ring

theorem unwrapD_mul {p q : Mat α} (h : p.cols = q.rows) :
    unwrapD (mul p q) = mulMat p q := by
  rw [mul_ok h]
  rfl

/-! ## One Householder step preserves the invariant -/

theorem hh_step_preserves {s : α → α} (hsq : ∀ x : α, 0 ≤ x → s x * s x = x)
    {mat : Mat α} {m n t : Nat} (htm : t + 1 < m) (htn : t < n) (hnm : n ≤ m)
    (hmr : mat.rows = m) (hmc : mat.cols = n)
    {aq : Mat α × Mat α} (hinv : HHInv mat m n t aq)
    {x0 u0 u : List α} {alpha : α} {Qi : Mat α} {aq2 : Mat α × Mat α}
    (hx : x0 = (aq.1.data_column t).drop t)
    (halpha : alpha = -l2_norm_of_vector s x0 * jsign (x0.getD 0 0))
    (hu0 : u0 = x0.set 0 (x0.getD 0 0 - alpha))
    (hun : u = u0.map (fun v => v / l2_norm_of_vector s u0))
    (hQi : Qi = iterUp (fun j qi => iterUp (fun k qi2 =>
        qi2.setE (t + j) (t + k)
          (qi2.elem (t + j) (t + k) - u.getD j 0 * u.getD k 0 -
            u.getD j 0 * u.getD k 0)) (m - t) qi) (m - t) (Mat.identity m))
    (haq2 : aq2 = (unwrapD (mul Qi aq.1), unwrapD (mul Qi aq.2))) :
    HHInv mat m n (t + 1) aq2 := by
  obtain ⟨ha1, ha2, ha3, hq1, hq2, hq3, hqqt, hqtq, hafac, hlz⟩ := hinv
  have htmm : t < m := by omega
  obtain ⟨hQr, hQc, hQw, hQe⟩ := hh_qi_v u htmm hQi
  have hxlen : x0.length = m - t := by
    rw [hx, List.length_drop, Mat.data_column_length aq.1 ha3
      (by rw [ha2]; exact htn), ha1]
  have hu0len : u0.length = m - t := by
    rw [hu0, List.length_set, hxlen]
  have hulen : u.length = m - t := by
    rw [hun, List.length_map, hu0len]
  have hN : 0 < m - t := by omega
  have hxe : ∀ k, k < m - t → x0.getD k 0 = aq.1.elem (t + k) t := by
    intro k hk
    rw [hx, List.getD_eq_getElem?_getD, List.getElem?_drop,
      ← List.getD_eq_getElem?_getD]
    exact Mat.data_column_getD aq.1 (by rw [ha1]; omega)
  have hgetD0 : ∀ (l : List α) (k : Nat), l.length ≤ k → l.getD k 0 = 0 := by
    intro l k hk
    rw [List.getD_eq_getElem?_getD, List.getElem?_eq_none hk]
    rfl
  have hu0e : ∀ k, u0.getD k 0 =
      if k = 0 then x0.getD 0 0 - alpha else x0.getD k 0 := by
    intro k
    by_cases hk : k = 0
    · rw [hk, if_pos rfl, hu0, getD_set_self (by rw [hxlen]; omega)]
    · rw [if_neg hk, hu0, getD_set_neq _ (fun h => hk h.symm)]
  have hxsum : l2_norm_of_vector s x0 =
      s (∑ k ∈ Finset.range (m - t), x0.getD k 0 * x0.getD k 0) := by
    unfold l2_norm_of_vector
    rw [sum_sq_eq, hxlen]
  have hu0sum : l2_norm_of_vector s u0 =
      s (∑ k ∈ Finset.range (m - t), u0.getD k 0 * u0.getD k 0) := by
    unfold l2_norm_of_vector
    rw [sum_sq_eq, hu0len]
  have hue : ∀ k, u.getD k 0 = u0.getD k 0 /
      s (∑ k2 ∈ Finset.range (m - t), u0.getD k2 0 * u0.getD k2 0) := by
    intro k
    by_cases hk : k < m - t
    · have h1 : (u0.map (fun v => v / l2_norm_of_vector s u0)).getD k 0 =
          u0.getD k 0 / l2_norm_of_vector s u0 := by
        rw [List.getD_eq_getElem?_getD, List.getElem?_map,
          List.getElem?_eq_getElem (show k < u0.length by rw [hu0len]; exact hk),
          List.getD_eq_getElem?_getD,
          List.getElem?_eq_getElem (show k < u0.length by rw [hu0len]; exact hk)]
        rfl
      rw [hun, h1, hu0sum]
    · rw [hgetD0 u k (by omega), hgetD0 u0 k (by omega), zero_div]
  have hann := householder_annihilate hN (fun k => x0.getD k 0)
    (fun k => u0.getD k 0) (fun k => u.getD k 0) alpha
    (∑ k ∈ Finset.range (m - t), u0.getD k 0 * u0.getD k 0) s hsq
    (by rw [halpha, hxsum])
    hu0e
    rfl
    hue
  obtain ⟨hunit, hannz⟩ := hann
  have hvsum : (∑ y ∈ Finset.range m,
      (if t ≤ y then u.getD (y - t) 0 else 0) *
      (if t ≤ y then u.getD (y - t) 0 else 0)) =
      ∑ k ∈ Finset.range (m - t), u.getD k 0 * u.getD k 0 := by
    rw [sum_range_shift t m (by omega) _
      (fun y hy => by rw [if_neg (show ¬ t ≤ y from by omega), zero_mul])]
    refine Finset.sum_congr rfl (fun k hk => ?_)
    rw [if_pos (show t ≤ t + k from by omega),
      show t + k - t = k from by omega]
  have hSv : (∑ y ∈ Finset.range m,
      (if t ≤ y then u.getD (y - t) 0 else 0) *
      (if t ≤ y then u.getD (y - t) 0 else 0)) = 1 ∨
      (∀ y, y < m → (if t ≤ y then u.getD (y - t) 0 else 0) = 0) := by
    rcases hunit with h1 | h1
    · left
      rw [hvsum]
      exact h1
    · right
      intro y hy
      by_cases hty : t ≤ y
      · rw [if_pos hty]
        exact h1 (y - t) (by omega)
      · rw [if_neg hty]
  have hQsq : mulMat Qi Qi = Mat.identity m :=
    reflector_sq (fun z => if t ≤ z then u.getD (z - t) 0 else 0) Qi hQr hQc hQw
      (fun x y hxm hym => hQe x y hxm hym) hSv
  have hQtr : tr Qi = Qi := by
    refine Mat.ext_elem (tr_wf _) hQw (by rw [tr_rows, hQr, hQc])
      (by rw [tr_cols, hQc, hQr]) ?_
    intro x y hxb hyb
    rw [tr_rows, hQc] at hxb
    rw [tr_cols, hQr] at hyb
    rw [tr_elem Qi (by rw [hQr]; exact hyb) (by rw [hQc]; exact hxb),
      hQe y x hyb hxb, hQe x y hxb hyb]
    by_cases hxy : x = y
    · rw [hxy]
    · rw [if_neg (show ¬ y = x from fun h => hxy h.symm), if_neg hxy]
      ring
  have hQcolsA : Qi.cols = aq.1.rows := by rw [hQc, ha1]
  have hQcolsQ : Qi.cols = aq.2.rows := by rw [hQc, hq1]
  have ha2' : aq2.1 = mulMat Qi aq.1 := by
    rw [haq2]
    exact unwrapD_mul hQcolsA
  have hq2' : aq2.2 = mulMat Qi aq.2 := by
    rw [haq2]
    exact unwrapD_mul hQcolsQ
  refine ⟨?_, ?_, ?_, ?_, ?_, ?_, ?_, ?_, ?_, ?_⟩
  · rw [ha2', mulMat_rows, hQr]
  · rw [ha2', mulMat_cols, ha2]
  · rw [ha2']
    exact mulMat_wf _ _
  · rw [hq2', mulMat_rows, hQr]
  · rw [hq2', mulMat_cols, hq2]
  · rw [hq2']
    exact mulMat_wf _ _
  · rw [hq2', tr_mulMat Qi aq.2 hQcolsQ,
      mulMat_assoc Qi aq.2 _ hQcolsQ (by rw [mulMat_rows, tr_rows]),
      ← mulMat_assoc aq.2 (tr aq.2) (tr Qi) (by rw [tr_rows])
        (by rw [tr_cols, tr_rows, hq1, hQc]),
      hqqt, mulMat_identity m (tr Qi) (by rw [tr_rows, hQc]) (tr_wf _),
      hQtr, hQsq]
  · rw [hq2', tr_mulMat Qi aq.2 hQcolsQ,
      mulMat_assoc (tr aq.2) (tr Qi) _ (by rw [tr_cols, tr_rows, hq1, hQc])
        (by rw [tr_cols, mulMat_rows]),
      ← mulMat_assoc (tr Qi) Qi aq.2 (by rw [tr_cols]) hQcolsQ,
      hQtr, hQsq, mulMat_identity m aq.2 hq1 hq3, hqtq]
  · rw [ha2', hq2', hafac,
      ← mulMat_assoc Qi aq.2 mat hQcolsQ (by rw [hq2, hmr])]
  · intro c hc r hcr hrm
    have hcn : c < n := by omega
    rw [ha2', mulMat_elem Qi aq.1 (by rw [hQr]; exact hrm)
      (by rw [ha2]; exact hcn), hQc]
    have hterm : ∀ y ∈ Finset.range m, Qi.elem r y * aq.1.elem y c =
        (if r = y then (1 : α) else 0) * aq.1.elem y c -
        (2 * (if t ≤ r then u.getD (r - t) 0 else 0)) *
          ((if t ≤ y then u.getD (y - t) 0 else 0) * aq.1.elem y c) := by
      intro y hy
      rw [hQe r y hrm (Finset.mem_range.mp hy)]
      ring
    rw [Finset.sum_congr rfl hterm, Finset.sum_sub_distrib,
      sum_delta_pick hrm (fun y => aq.1.elem y c), ← Finset.mul_sum]
    by_cases hcase : c < t
    · rw [hlz c hcase r hcr hrm]
      have hz2 : ∀ y ∈ Finset.range m,
          (if t ≤ y then u.getD (y - t) 0 else 0) * aq.1.elem y c = 0 := by
        intro y hy
        by_cases hty : t ≤ y
        · rw [hlz c hcase y (by omega) (Finset.mem_range.mp hy), mul_zero]
        · rw [if_neg hty, zero_mul]
      have h0 : (∑ y ∈ Finset.range m,
          (if t ≤ y then u.getD (y - t) 0 else 0) * aq.1.elem y c) = 0 :=
        Finset.sum_eq_zero hz2
      rw [h0, mul_zero, sub_zero]
    · have hct : c = t := by omega
      subst hct
      have hxval : aq.1.elem r c = x0.getD (r - c) 0 := by
        rw [hxe (r - c) (by omega), show c + (r - c) = r from by omega]
      have hsum2 : (∑ y ∈ Finset.range m,
          (if c ≤ y then u.getD (y - c) 0 else 0) * aq.1.elem y c) =
          ∑ k ∈ Finset.range (m - c), u.getD k 0 * x0.getD k 0 := by
        rw [sum_range_shift c m (by omega) _
          (fun y hy => by rw [if_neg (show ¬ c ≤ y from by omega), zero_mul])]
        refine Finset.sum_congr rfl (fun k hk => ?_)
        rw [if_pos (show c ≤ c + k from by omega),
          show c + k - c = k from by omega, ← hxe k (Finset.mem_range.mp hk)]
      rw [hxval, hsum2, if_pos (show c ≤ r from by omega)]
      exact hannz (r - c) (by omega) (by omega)

theorem tr_identity (m : Nat) : tr (Mat.identity (α := α) m) = Mat.identity m := by
  refine Mat.ext_elem (tr_wf _) (Mat.wf_identity m)
    (by rw [tr_rows, Mat.cols_identity, Mat.rows_identity])
    (by rw [tr_cols, Mat.rows_identity, Mat.cols_identity]) ?_
  intro x y hx hy
  rw [tr_rows, Mat.cols_identity] at hx
  rw [tr_cols, Mat.rows_identity] at hy
  rw [tr_elem (Mat.identity m) (by rw [Mat.rows_identity]; exact hy)
    (by rw [Mat.cols_identity]; exact hx),
    Mat.elem_identity hy hx, Mat.elem_identity hx hy]
  by_cases hxy : x = y
  · rw [hxy]
  · rw [if_neg (show ¬ y = x from fun h => hxy h.symm), if_neg hxy]

theorem hh_loop_inv {s : α → α} (hsq : ∀ x : α, 0 ≤ x → s x * s x = x)
    {mat : Mat α} {m n : Nat} (hmr : mat.rows = m) (hmc : mat.cols = n)
    (hw : mat.wf) (hnm : n ≤ m) :
    ∀ T, T ≤ (if m - 1 < n then m - 1 else n) →
      HHInv mat m n T (iterUp (fun i aq2 =>
        let x := (aq2.1.data_column i).drop i
        let alpha := -l2_norm_of_vector s x * jsign (x.getD 0 0)
        let u0 := x.set 0 (x.getD 0 0 - alpha)
        let u_norm := l2_norm_of_vector s u0
        let u := u0.map (fun v => v / u_norm)
        let q_i := iterUp (fun j qi =>
          iterUp (fun k qi2 =>
            let q_i_v := qi2.elem (i + j) (i + k)
            let vvt := u.getD j 0 * u.getD k 0
            qi2.setE (i + j) (i + k) (q_i_v - vvt - vvt)) (m - i) qi)
          (m - i) (Mat.identity m)
        (unwrapD (mul q_i aq2.1), unwrapD (mul q_i aq2.2))) T
        (mat, Mat.identity m)) := by
  have hfi1 : (if m - 1 < n then m - 1 else n) ≤ m - 1 := by
    by_cases h : m - 1 < n
    · rw [if_pos h]
    · rw [if_neg h]
      omega
  have hfi2 : (if m - 1 < n then m - 1 else n) ≤ n := by
    by_cases h : m - 1 < n
    · rw [if_pos h]
      omega
    · rw [if_neg h]
  intro T
  induction T with
  | zero =>
    intro _
    show HHInv mat m n 0 (mat, Mat.identity m)
    refine ⟨hmr, hmc, hw, Mat.rows_identity m, Mat.cols_identity m,
      Mat.wf_identity m, ?_, ?_, ?_, fun c hc => absurd hc (by omega)⟩
    · rw [tr_identity, mulMat_identity m (Mat.identity m) (Mat.rows_identity m)
        (Mat.wf_identity m)]
    · rw [tr_identity, mulMat_identity m (Mat.identity m) (Mat.rows_identity m)
        (Mat.wf_identity m)]
    · rw [mulMat_identity m mat hmr hw]
  | succ T ih =>
    intro hT
    have hstep := hh_step_preserves hsq
      (show T + 1 < m by omega) (show T < n by omega) hnm hmr hmc
      (ih (by omega)) rfl rfl rfl rfl rfl rfl
    exact hstep

theorem qr_househoulder_ok_eq (s : α → α) (mat : Mat α)
    (hsh : ¬ mat.rows < mat.cols) :
    qr_househoulder s mat = .ok
      ⟨tr (iterUp (fun i aq2 =>
        let x := (aq2.1.data_column i).drop i
        let alpha := -l2_norm_of_vector s x * jsign (x.getD 0 0)
        let u0 := x.set 0 (x.getD 0 0 - alpha)
        let u_norm := l2_norm_of_vector s u0
        let u := u0.map (fun v => v / u_norm)
        let q_i := iterUp (fun j qi =>
          iterUp (fun k qi2 =>
            let q_i_v := qi2.elem (i + j) (i + k)
            let vvt := u.getD j 0 * u.getD k 0
            qi2.setE (i + j) (i + k) (q_i_v - vvt - vvt)) (mat.rows - i) qi)
          (mat.rows - i) (Mat.identity mat.rows)
        (unwrapD (mul q_i aq2.1), unwrapD (mul q_i aq2.2)))
        (if mat.rows - 1 < mat.cols then mat.rows - 1 else mat.cols)
        (mat, Mat.identity mat.rows)).2,
      (iterUp (fun i aq2 =>
        let x := (aq2.1.data_column i).drop i
        let alpha := -l2_norm_of_vector s x * jsign (x.getD 0 0)
        let u0 := x.set 0 (x.getD 0 0 - alpha)
        let u_norm := l2_norm_of_vector s u0
        let u := u0.map (fun v => v / u_norm)
        let q_i := iterUp (fun j qi =>
          iterUp (fun k qi2 =>
            let q_i_v := qi2.elem (i + j) (i + k)
            let vvt := u.getD j 0 * u.getD k 0
            qi2.setE (i + j) (i + k) (q_i_v - vvt - vvt)) (mat.rows - i) qi)
          (mat.rows - i) (Mat.identity mat.rows)
        (unwrapD (mul q_i aq2.1), unwrapD (mul q_i aq2.2)))
        (if mat.rows - 1 < mat.cols then mat.rows - 1 else mat.cols)
        (mat, Mat.identity mat.rows)).1⟩ := by
  unfold qr_househoulder
  rw [if_neg hsh]

/-- C5: on every accepted input (rows ≥ cols), both QR algorithms return an
R whose entries strictly below the diagonal are exactly zero — structurally
for Gram-Schmidt (those cells are never written), and through the exact
reflector annihilation for Householder (over ℝ with the real square root
standing for `f64::sqrt`). -/
theorem claim_C5 (A : Mat ℝ) (hwf : A.wf) (hsh : ¬ A.rows < A.cols) :
    (∀ d, qr_gram_schmidt Real.sqrt A = .ok d →
      ∀ r c, r < A.rows → c < A.cols → c < r → d.r.elem r c = 0) ∧
    (∀ d, qr_househoulder Real.sqrt A = .ok d →
      ∀ r c, r < A.rows → c < A.cols → c < r → d.r.elem r c = 0) := by
  have hsq : ∀ x : ℝ, 0 ≤ x → Real.sqrt x * Real.sqrt x = x :=
    fun x hx => Real.mul_self_sqrt hx
  constructor
  · intro d hd r c hr hc hcr
    have hok := qr_gram_schmidt_ok_eq Real.sqrt A hsh rfl rfl
    rw [hd] at hok
    injection hok with h2
    rw [h2]
    exact (qr_gs_rmat_subdiag A _ rfl rfl (by omega) rfl).2.2.2 r c hr hc hcr
  · intro d hd r c hr hc hcr
    have hok := qr_househoulder_ok_eq Real.sqrt A hsh
    rw [hd] at hok
    injection hok with h2
    rw [h2]
    have hinv := hh_loop_inv hsq (rfl : A.rows = A.rows) rfl hwf (by omega)
      (if A.rows - 1 < A.cols then A.rows - 1 else A.cols) le_rfl
    by_cases hcfi : c < (if A.rows - 1 < A.cols then A.rows - 1 else A.cols)
    · exact hinv.lowz c hcfi r hcr hr
    · exfalso
      by_cases hbr : A.rows - 1 < A.cols
      · rw [if_pos hbr] at hcfi
        omega
      · rw [if_neg hbr] at hcfi
        omega

theorem claim_C5_witness :
    (∀ d, qr_gram_schmidt Real.sqrt (⟨2, 1, [1, 0]⟩ : Mat ℝ) = .ok d →
      ∀ r c, r < 2 → c < 1 → c < r → d.r.elem r c = 0) ∧
    (∀ d, qr_househoulder Real.sqrt (⟨2, 1, [1, 0]⟩ : Mat ℝ) = .ok d →
      ∀ r c, r < 2 → c < 1 → c < r → d.r.elem r c = 0) :=
  claim_C5 ⟨2, 1, [1, 0]⟩ (by decide) (by decide)

/-! ## Gram-Schmidt orthonormality development -/

theorem tr_tr {A : Mat α} (hwf : A.wf) : tr (tr A) = A := by
  refine Mat.ext_elem (tr_wf _) hwf (by rw [tr_rows, tr_cols])
    (by rw [tr_cols, tr_rows]) ?_
  intro r c hr hc
  rw [tr_rows, tr_cols] at hr
  rw [tr_cols, tr_rows] at hc
  rw [tr_elem (tr A) (by rw [tr_rows]; exact hc) (by rw [tr_cols]; exact hr),
    tr_elem A hr hc]

theorem sum_triangle_swap (i : Nat) (F : Nat → Nat → α) :
    ∑ ii ∈ Finset.range i, ∑ jj ∈ Finset.range (ii + 1), F ii jj =
    ∑ jj ∈ Finset.range i, ∑ ii ∈ Finset.Ico jj i, F ii jj := by
  induction i with
  | zero => simp
  | succ i ih =>
    rw [Finset.sum_range_succ, ih]
    have h1 : ∀ jj ∈ Finset.range i, (∑ ii ∈ Finset.Ico jj (i + 1), F ii jj) =
        (∑ ii ∈ Finset.Ico jj i, F ii jj) + F i jj := by
      intro jj hjj
      have hjj2 := Finset.mem_range.mp hjj
      exact Finset.sum_Ico_succ_top (by omega) _
    have h2 : (∑ ii ∈ Finset.Ico i (i + 1), F ii i) = F i i := by
      rw [Finset.sum_Ico_succ_top le_rfl, Finset.Ico_self, Finset.sum_empty,
        zero_add]
    rw [show (∑ jj ∈ Finset.range (i + 1),
        ∑ ii ∈ Finset.Ico jj (i + 1), F ii jj) =
        (∑ jj ∈ Finset.range i, ∑ ii ∈ Finset.Ico jj (i + 1), F ii jj) +
          F i i from by rw [Finset.sum_range_succ, h2],
      Finset.sum_congr rfl h1, Finset.sum_add_distrib, Finset.sum_range_succ]
    ring

theorem gs_flatten {mat : Mat α} {m i : Nat} (W : Nat → α) (delta : Nat → α)
    (Q : Nat → Nat → α)
    (hA : ∀ r, r < m → W r = mat.elem r i -
      ∑ ii ∈ Finset.range i, delta ii * Q r ii)
    (hq : ∀ ii, ii < i → ∃ γ : Nat → α, ∀ r, r < m →
      Q r ii = ∑ jj ∈ Finset.range (ii + 1), γ jj * mat.elem r jj) :
    ∃ co : Nat → α, co i = 1 ∧ ∀ r, r < m →
      W r = ∑ jj ∈ Finset.range (i + 1), co jj * mat.elem r jj := by
  have hch : ∀ ii, ∃ γ : Nat → α, ii < i → ∀ r, r < m →
      Q r ii = ∑ jj ∈ Finset.range (ii + 1), γ jj * mat.elem r jj := by
    intro ii
    by_cases h : ii < i
    · obtain ⟨γ, hγ⟩ := hq ii h
      exact ⟨γ, fun _ => hγ⟩
    · exact ⟨fun _ => 0, fun h2 => absurd h2 h⟩
  obtain ⟨Γ, hΓ⟩ := Classical.axiomOfChoice hch
  set co : Nat → α := fun jj => if jj = i then 1 else
    (if jj < i then -(∑ ii ∈ Finset.Ico jj i, delta ii * Γ ii jj) else 0)
    with hco
  have hcoe : ∀ jj, co jj = if jj = i then 1 else
      (if jj < i then -(∑ ii ∈ Finset.Ico jj i, delta ii * Γ ii jj) else 0) :=
    fun jj => rfl
  refine ⟨co, by rw [hcoe i, if_pos rfl], ?_⟩
  intro r hr
  rw [hA r hr, Finset.sum_range_succ, hcoe i, if_pos rfl, one_mul]
  have h3 : ∀ jj ∈ Finset.range i, co jj * mat.elem r jj =
      -(∑ ii ∈ Finset.Ico jj i, delta ii * Γ ii jj * mat.elem r jj) := by
    intro jj hjj
    have hjj2 := Finset.mem_range.mp hjj
    rw [hcoe jj, if_neg (by omega), if_pos hjj2, neg_mul, Finset.sum_mul]
  rw [Finset.sum_congr rfl h3, Finset.sum_neg_distrib]
  have h4 : ∑ ii ∈ Finset.range i, delta ii * Q r ii =
      ∑ jj ∈ Finset.range i, ∑ ii ∈ Finset.Ico jj i,
        delta ii * Γ ii jj * mat.elem r jj := by
    have h5 : ∀ ii ∈ Finset.range i, delta ii * Q r ii =
        ∑ jj ∈ Finset.range (ii + 1), delta ii * Γ ii jj * mat.elem r jj := by
      intro ii hii
      rw [hΓ ii (Finset.mem_range.mp hii) r hr, Finset.mul_sum]
      refine Finset.sum_congr rfl (fun jj _ => ?_)
      ring
    rw [Finset.sum_congr rfl h5, sum_triangle_swap]
  rw [h4]
  ring

theorem gs_sub_loop (a3 : Mat α) (hwf : a3.wf) {m n i : Nat}
    (hr : a3.rows = m) (hc : a3.cols = n) (hi : i < n) (ratio : α) (q : Mat α) (ii : Nat) :
    ∀ s, s ≤ m →
      ((iterUp (fun j a4 =>
        a4.setE j i (a4.elem j i - ratio * q.elem j ii)) s a3).rows = m ∧
      (iterUp (fun j a4 =>
        a4.setE j i (a4.elem j i - ratio * q.elem j ii)) s a3).cols = n ∧
      (iterUp (fun j a4 =>
        a4.setE j i (a4.elem j i - ratio * q.elem j ii)) s a3).wf ∧
      ∀ r c : Nat, r < m →
        (iterUp (fun j a4 =>
          a4.setE j i (a4.elem j i - ratio * q.elem j ii)) s a3).elem r c =
          if c = i ∧ r < s then a3.elem r i - ratio * q.elem r ii
          else a3.elem r c) := by
  intro s
  induction s with
  | zero =>
    intro _
    refine ⟨hr, hc, hwf, fun r c hrm => ?_⟩
    show a3.elem r c = _
    by_cases hci : c = i
    · rw [if_neg (fun h => by omega), hci]
    · rw [if_neg (fun h => hci h.1)]
  | succ s ih =>
    intro hs
    obtain ⟨h1, h2, h3, h4⟩ := ih (by omega)
    set P := iterUp (fun j a4 =>
      a4.setE j i (a4.elem j i - ratio * q.elem j ii)) s a3 with hP
    have hstep : iterUp (fun j a4 =>
        a4.setE j i (a4.elem j i - ratio * q.elem j ii)) (s + 1) a3 =
        P.setE s i (P.elem s i - ratio * q.elem s ii) := rfl
    have hread : P.elem s i = a3.elem s i := by
      rw [h4 s i (by omega), if_neg (fun h => by omega)]
    refine ⟨by rw [hstep, Mat.rows_setE]; exact h1,
      by rw [hstep, Mat.cols_setE]; exact h2,
      by rw [hstep]; exact Mat.wf_setE h3 _ _ _, fun r c hrm => ?_⟩
    rw [hstep, Mat.elem_setE_at h3 (by rw [h1]; omega) (by rw [h2]; exact hi)
      (by rw [h1]; exact hrm), hread, h4 r c hrm]
    by_cases hrs : r = s ∧ c = i
    · rw [if_pos hrs, if_pos (⟨hrs.2, by omega⟩ : c = i ∧ r < s + 1), hrs.1]
    · by_cases hold : c = i ∧ r < s
      · rw [if_neg (fun h => hrs ⟨h.1, h.2⟩), if_pos hold,
          if_pos ⟨hold.1, by omega⟩]
      · rw [if_neg (fun h => hrs ⟨h.1, h.2⟩), if_neg hold,
          if_neg (fun h => ?_)]
        refine hold ⟨h.1, ?_⟩
        rcases Nat.lt_succ_iff_lt_or_eq.mp h.2 with h5 | h5
        · exact h5
        · exact absurd ⟨h5, h.1⟩ hrs

theorem gs_qcol_loop (q : Mat α) (hwf : q.wf) {m i : Nat}
    (hr : q.rows = m) (hc : q.cols = m) (hi : i < m) (u : List α) (u_l2 : α) :
    ∀ s, s ≤ m →
      ((iterUp (fun j q3 => q3.setE j i (u.getD j 0 / u_l2)) s q).rows = m ∧
      (iterUp (fun j q3 => q3.setE j i (u.getD j 0 / u_l2)) s q).cols = m ∧
      (iterUp (fun j q3 => q3.setE j i (u.getD j 0 / u_l2)) s q).wf ∧
      ∀ r c : Nat, r < m →
        (iterUp (fun j q3 => q3.setE j i (u.getD j 0 / u_l2)) s q).elem r c =
          if c = i ∧ r < s then u.getD r 0 / u_l2 else q.elem r c) := by
  intro s
  induction s with
  | zero =>
    intro _
    refine ⟨hr, hc, hwf, fun r c hrm => ?_⟩
    show q.elem r c = _
    rw [if_neg (fun h => by omega)]
  | succ s ih =>
    intro hs
    obtain ⟨h1, h2, h3, h4⟩ := ih (by omega)
    set P := iterUp (fun j q3 => q3.setE j i (u.getD j 0 / u_l2)) s q with hP
    have hstep : iterUp (fun j q3 => q3.setE j i (u.getD j 0 / u_l2)) (s + 1) q =
        P.setE s i (u.getD s 0 / u_l2) := rfl
    refine ⟨by rw [hstep, Mat.rows_setE]; exact h1,
      by rw [hstep, Mat.cols_setE]; exact h2,
      by rw [hstep]; exact Mat.wf_setE h3 _ _ _, fun r c hrm => ?_⟩
    rw [hstep, Mat.elem_setE_at h3 (by rw [h1]; omega) (by rw [h2]; exact hi)
      (by rw [h1]; exact hrm), h4 r c hrm]
    by_cases hrs : r = s ∧ c = i
    · rw [if_pos hrs, if_pos (⟨hrs.2, by omega⟩ : c = i ∧ r < s + 1), hrs.1]
    · by_cases hold : c = i ∧ r < s
      · rw [if_neg hrs, if_pos hold, if_pos (⟨hold.1, by omega⟩ : c = i ∧ r < s + 1)]
      · rw [if_neg hrs, if_neg hold, if_neg (fun h => ?_)]
        refine hold ⟨h.1, ?_⟩
        rcases Nat.lt_succ_iff_lt_or_eq.mp h.2 with h5 | h5
        · exact h5
        · exact absurd ⟨h5, h.1⟩ hrs

theorem gs_proj_loop (A1 q : Mat α) (hwa : A1.wf) (hwq : q.wf) {m n i : Nat}
    (ha1 : A1.rows = m) (ha2 : A1.cols = n) (hq1 : q.rows = m) (hq2 : q.cols = m)
    (hi : i < n) (hnm : n ≤ m)
    (horth : ∀ j k, j < i → k < i →
      (∑ r ∈ Finset.range m, q.elem r j * q.elem r k) =
        if j = k then 1 else 0) :
    ∀ s, s ≤ i →
      ((iterUp (fun ii a3 =>
        let ratio := vector_dot_product (a3.data_column i) (q.data_column ii)
        iterUp (fun j a4 =>
          a4.setE j i (a4.elem j i - ratio * q.elem j ii)) m a3) s A1).rows = m ∧
      (iterUp (fun ii a3 =>
        let ratio := vector_dot_product (a3.data_column i) (q.data_column ii)
        iterUp (fun j a4 =>
          a4.setE j i (a4.elem j i - ratio * q.elem j ii)) m a3) s A1).cols = n ∧
      (iterUp (fun ii a3 =>
        let ratio := vector_dot_product (a3.data_column i) (q.data_column ii)
        iterUp (fun j a4 =>
          a4.setE j i (a4.elem j i - ratio * q.elem j ii)) m a3) s A1).wf ∧
      (∀ r c : Nat, r < m → c ≠ i →
        (iterUp (fun ii a3 =>
          let ratio := vector_dot_product (a3.data_column i) (q.data_column ii)
          iterUp (fun j a4 =>
            a4.setE j i (a4.elem j i - ratio * q.elem j ii)) m a3) s A1).elem r c
          = A1.elem r c) ∧
      (∃ δ : Nat → α, ∀ r, r < m →
        (iterUp (fun ii a3 =>
          let ratio := vector_dot_product (a3.data_column i) (q.data_column ii)
          iterUp (fun j a4 =>
            a4.setE j i (a4.elem j i - ratio * q.elem j ii)) m a3) s A1).elem r i
          = A1.elem r i - ∑ ii ∈ Finset.range s, δ ii * q.elem r ii) ∧
      (∀ ii2, ii2 < s →
        (∑ r ∈ Finset.range m,
          (iterUp (fun ii a3 =>
            let ratio := vector_dot_product (a3.data_column i) (q.data_column ii)
            iterUp (fun j a4 =>
              a4.setE j i (a4.elem j i - ratio * q.elem j ii)) m a3) s A1).elem r i
            * q.elem r ii2) = 0)) := by
  intro s
  induction s with
  | zero =>
    intro _
    refine ⟨ha1, ha2, hwa, fun r c hrm _ => rfl, ⟨fun _ => 0, fun r hrm => ?_⟩,
      fun ii2 hii2 => absurd hii2 (by omega)⟩
    show A1.elem r i = _
    rw [Finset.sum_range_zero, sub_zero]
  | succ s ih =>
    intro hs
    obtain ⟨h1, h2, h3, h4, ⟨δ, hδ⟩, h6⟩ := ih (by omega)
    set P := iterUp (fun ii a3 =>
      let ratio := vector_dot_product (a3.data_column i) (q.data_column ii)
      iterUp (fun j a4 =>
        a4.setE j i (a4.elem j i - ratio * q.elem j ii)) m a3) s A1 with hP
    set ratio := vector_dot_product (P.data_column i) (q.data_column s)
      with hratio
    have hstep : iterUp (fun ii a3 =>
        let ratio := vector_dot_product (a3.data_column i) (q.data_column ii)
        iterUp (fun j a4 =>
          a4.setE j i (a4.elem j i - ratio * q.elem j ii)) m a3) (s + 1) A1 =
        iterUp (fun j a4 =>
          a4.setE j i (a4.elem j i - ratio * q.elem j s)) m P := rfl
    obtain ⟨g1, g2, g3, g4⟩ := gs_sub_loop P h3 h1 h2 hi ratio q s m le_rfl
    have hdot : ratio = ∑ r ∈ Finset.range m, P.elem r i * q.elem r s := by
      rw [hratio, dot_columns h3 hwq (by rw [h2]; exact hi)
        (by rw [hq2]; omega) (by rw [h1, hq1]), h1]
    have hse : ∀ r, r < m → (iterUp (fun j a4 =>
        a4.setE j i (a4.elem j i - ratio * q.elem j s)) m P).elem r i =
        P.elem r i - ratio * q.elem r s := by
      intro r hrm
      rw [g4 r i hrm, if_pos ⟨rfl, hrm⟩]
    refine ⟨by rw [hstep]; exact g1, by rw [hstep]; exact g2,
      by rw [hstep]; exact g3, ?_, ?_, ?_⟩
    · intro r c hrm hcne
      rw [hstep, g4 r c hrm, if_neg (fun h => hcne h.1)]
      exact h4 r c hrm hcne
    · set dl : Nat → α := fun ii => if ii = s then ratio else δ ii with hdl
      have hdle : ∀ ii, dl ii = if ii = s then ratio else δ ii := fun ii => rfl
      refine ⟨dl, fun r hrm => ?_⟩
      rw [hstep, hse r hrm, hδ r hrm, Finset.sum_range_succ, hdle s, if_pos rfl]
      have hc : ∀ ii ∈ Finset.range s,
          dl ii * q.elem r ii = δ ii * q.elem r ii := by
        intro ii hii
        rw [hdle ii, if_neg (by have := Finset.mem_range.mp hii; omega)]
      rw [Finset.sum_congr rfl hc]
      ring
    · intro ii2 hii2
      have hsumrw : (∑ r ∈ Finset.range m, (iterUp (fun j a4 =>
          a4.setE j i (a4.elem j i - ratio * q.elem j s)) m P).elem r i *
            q.elem r ii2) =
          (∑ r ∈ Finset.range m, P.elem r i * q.elem r ii2) -
            ratio * ∑ r ∈ Finset.range m, q.elem r s * q.elem r ii2 := by
        have hpt : ∀ r ∈ Finset.range m, (iterUp (fun j a4 =>
            a4.setE j i (a4.elem j i - ratio * q.elem j s)) m P).elem r i *
              q.elem r ii2 =
            P.elem r i * q.elem r ii2 -
              ratio * (q.elem r s * q.elem r ii2) := by
          intro r hrm
          rw [hse r (Finset.mem_range.mp hrm)]
          ring
        rw [Finset.sum_congr rfl hpt, Finset.sum_sub_distrib, ← Finset.mul_sum]
      rw [hstep, hsumrw]
      rcases Nat.lt_succ_iff_lt_or_eq.mp hii2 with h5 | h5
      · rw [h6 ii2 h5, horth s ii2 (by omega) (by omega),
          if_neg (by omega), mul_zero, sub_zero]
      · rw [h5, ← hdot, horth s s (by omega) (by omega), if_pos rfl]
        ring

theorem gs_step_preserves {s : α → α} (hsq : ∀ x : α, 0 ≤ x → s x * s x = x)
    {mat : Mat α} {m n t : Nat} (htn : t < n) (hnm : n ≤ m)
    (hmr : mat.rows = m) (hmc : mat.cols = n) (hind : colIndep mat)
    {aq : Mat α × Mat α} (hinv : GSInv mat m n t aq)
    {a2 : Mat α} {u : List α} {u_l2 : α} {q2 : Mat α}
    (ha2d : a2 = iterUp (fun ii a3 =>
      let ratio := vector_dot_product (a3.data_column t) (aq.2.data_column ii)
      iterUp (fun j a4 =>
        a4.setE j t (a4.elem j t - ratio * aq.2.elem j ii)) m a3) t aq.1)
    (hud : u = a2.data_column t)
    (hl2d : u_l2 = l2_norm_of_vector s u)
    (hq2d : q2 = iterUp (fun j q3 => q3.setE j t (u.getD j 0 / u_l2)) m aq.2) :
    GSInv mat m n (t + 1) (a2, q2) := by
  obtain ⟨ha1, ha2c, ha3, hq1, hq2c, hq3, hafr, hqfr, horth, haspan, hqspan⟩ :=
    hinv
  have htm : t < m := by omega
  obtain ⟨g1, g2, g3, g4, ⟨δ, hδ⟩, g6⟩ := gs_proj_loop aq.1 aq.2 ha3 hq3 ha1
    ha2c hq1 hq2c htn hnm horth t le_rfl
  rw [← ha2d] at g1 g2 g3 g4 g6 hδ
  have hacol : ∀ c, t + 1 ≤ c → c < n → ∀ r, r < m →
      a2.elem r c = mat.elem r c := by
    intro c hc1 hc2 r hr
    rw [g4 r c hr (by omega)]
    exact hafr c (by omega) hc2 r hr
  have hrep : ∀ r, r < m → a2.elem r t =
      mat.elem r t - ∑ ii ∈ Finset.range t, δ ii * aq.2.elem r ii := by
    intro r hr
    rw [hδ r hr, hafr t le_rfl htn r hr]
  have hulen : u.length = m := by
    rw [hud, Mat.data_column_length a2 g3 (by rw [g2]; exact htn), g1]
  have hue : ∀ r, r < m → u.getD r 0 = a2.elem r t := by
    intro r hr
    rw [hud]
    exact Mat.data_column_getD a2 (by rw [g1]; exact hr)
  set S := ∑ r ∈ Finset.range m, a2.elem r t * a2.elem r t with hS
  have hSnn : 0 ≤ S := Finset.sum_nonneg (fun r _ => mul_self_nonneg _)
  have hl2S : u_l2 = s S := by
    rw [hl2d]
    unfold l2_norm_of_vector
    rw [sum_sq_eq, hulen]
    congr 1
    refine Finset.sum_congr rfl (fun r hr => ?_)
    rw [hue r (Finset.mem_range.mp hr)]
  obtain ⟨co, hco1, hcorep⟩ := gs_flatten (fun r => a2.elem r t) δ
    (fun r ii => aq.2.elem r ii) hrep (fun ii hii => hqspan ii hii)
  have hSne : S ≠ 0 := by
    intro hS0
    have hsum0 : (∑ r ∈ Finset.range m, a2.elem r t * a2.elem r t) = 0 := by
      rw [← hS]
      exact hS0
    have hz : ∀ r, r < m → a2.elem r t = 0 := by
      intro r hr
      have h1 := (Finset.sum_eq_zero_iff_of_nonneg
        (fun r2 _ => mul_self_nonneg (a2.elem r2 t))).mp hsum0 r
        (Finset.mem_range.mpr hr)
      exact mul_self_eq_zero.mp h1
    set co2 : Nat → α := fun j => if j < t + 1 then co j else 0 with hco2
    have hco2e : ∀ j, co2 j = if j < t + 1 then co j else 0 := fun j => rfl
    have hall : ∀ r, r < mat.rows →
        ∑ j ∈ Finset.range mat.cols, co2 j * mat.elem r j = 0 := by
      intro r hr
      rw [hmr] at hr
      have hshr : ∑ j ∈ Finset.range mat.cols, co2 j * mat.elem r j =
          ∑ j ∈ Finset.range (t + 1), co2 j * mat.elem r j := by
        rw [hmc]
        refine (Finset.sum_subset (Finset.range_subset.mpr (by omega)) ?_).symm
        intro j hj hnot
        rw [hco2e j, if_neg (fun h => hnot (Finset.mem_range.mpr h)), zero_mul]
      have hcg : ∀ j ∈ Finset.range (t + 1),
          co2 j * mat.elem r j = co j * mat.elem r j := by
        intro j hj
        rw [hco2e j, if_pos (Finset.mem_range.mp hj)]
      rw [hshr, Finset.sum_congr rfl hcg, ← hcorep r hr, hz r hr]
    have hzero := hind co2 hall t (by rw [hmc]; omega)
    rw [hco2e t, if_pos (by omega), hco1] at hzero
    exact one_ne_zero hzero
  have hl2ne : u_l2 ≠ 0 := by
    intro h0
    apply hSne
    rw [← hsq S hSnn, ← hl2S, h0, mul_zero]
  obtain ⟨k1, k2, k3, k4⟩ := gs_qcol_loop aq.2 hq3 hq1 hq2c htm u u_l2 m le_rfl
  rw [← hq2d] at k1 k2 k3 k4
  have hq2e : ∀ r c, r < m →
      q2.elem r c = if c = t then u.getD r 0 / u_l2 else aq.2.elem r c := by
    intro r c hr
    rw [k4 r c hr]
    by_cases hct : c = t
    · rw [if_pos (⟨hct, hr⟩ : c = t ∧ r < m), if_pos hct]
    · rw [if_neg (fun h => hct h.1), if_neg hct]
  have hq2t : ∀ r, r < m → q2.elem r t = a2.elem r t / u_l2 := by
    intro r hr
    rw [hq2e r t hr, if_pos rfl, hue r hr]
  have hq2old : ∀ r c, r < m → c ≠ t → q2.elem r c = aq.2.elem r c := by
    intro r c hr hc
    rw [hq2e r c hr, if_neg hc]
  have hqt_unit : (∑ r ∈ Finset.range m, q2.elem r t * q2.elem r t) = 1 := by
    have h1 : ∀ r ∈ Finset.range m, q2.elem r t * q2.elem r t =
        (a2.elem r t * a2.elem r t) / (u_l2 * u_l2) := by
      intro r hr
      rw [hq2t r (Finset.mem_range.mp hr), div_mul_div_comm]
    rw [Finset.sum_congr rfl h1, ← Finset.sum_div, ← hS, hl2S, hsq S hSnn]
    exact div_self hSne
  refine ⟨g1, g2, g3, k1, k2, k3, ?_, ?_, ?_, ?_, ?_⟩
  · intro c hc1 hc2 r hr
    exact hacol c hc1 hc2 r hr
  · intro c hc1 hc2 r hr
    rw [hq2old r c hr (by omega)]
    exact hqfr c (by omega) hc2 r hr
  · intro j k hj hk
    by_cases hjt : j = t
    · by_cases hkt : k = t
      · rw [hjt, hkt, hqt_unit, if_pos rfl]
      · have hkt2 : k < t := by omega
        have h1 : ∀ r ∈ Finset.range m, q2.elem r j * q2.elem r k =
            (a2.elem r t * aq.2.elem r k) / u_l2 := by
          intro r hr
          rw [hjt, hq2t r (Finset.mem_range.mp hr),
            hq2old r k (Finset.mem_range.mp hr) (by omega)]
          ring
        rw [Finset.sum_congr rfl h1, ← Finset.sum_div, g6 k hkt2, zero_div,
          if_neg (by omega)]
    · by_cases hkt : k = t
      · have hjt2 : j < t := by omega
        have h1 : ∀ r ∈ Finset.range m, q2.elem r j * q2.elem r k =
            (a2.elem r t * aq.2.elem r j) / u_l2 := by
          intro r hr
          rw [hkt, hq2t r (Finset.mem_range.mp hr),
            hq2old r j (Finset.mem_range.mp hr) (by omega)]
          ring
        rw [Finset.sum_congr rfl h1, ← Finset.sum_div, g6 j hjt2, zero_div,
          if_neg (by omega)]
      · have h1 : ∀ r ∈ Finset.range m, q2.elem r j * q2.elem r k =
            aq.2.elem r j * aq.2.elem r k := by
          intro r hr
          rw [hq2old r j (Finset.mem_range.mp hr) hjt,
            hq2old r k (Finset.mem_range.mp hr) hkt]
        rw [Finset.sum_congr rfl h1]
        exact horth j k (by omega) (by omega)
  · intro c hc
    by_cases hct : c = t
    · set bt : Nat → α := fun j => if j = t then u_l2 else δ j with hbt
      have hbte : ∀ j, bt j = if j = t then u_l2 else δ j := fun j => rfl
      refine ⟨bt, fun r hr => ?_⟩
      rw [hct, Finset.sum_range_succ, hbte t, if_pos rfl, hq2t r hr]
      have hcg : ∀ j ∈ Finset.range t,
          bt j * q2.elem r j = δ j * aq.2.elem r j := by
        intro j hj
        have hjt := Finset.mem_range.mp hj
        rw [hbte j, if_neg (by omega), hq2old r j hr (by omega)]
      rw [Finset.sum_congr rfl hcg, mul_comm u_l2 (a2.elem r t / u_l2),
        div_mul_cancel₀ _ hl2ne]
      have := hrep r hr
      rw [this]
      ring
    · obtain ⟨β, hβ⟩ := haspan c (by omega)
      refine ⟨β, fun r hr => ?_⟩
      rw [hβ r hr]
      refine Finset.sum_congr rfl (fun j hj => ?_)
      have hjc := Finset.mem_range.mp hj
      rw [hq2old r j hr (by omega)]
  · intro j hj
    by_cases hjt : j = t
    · refine ⟨fun jj => co jj / u_l2, fun r hr => ?_⟩
      rw [hjt, hq2t r hr, hcorep r hr, Finset.sum_div]
      refine Finset.sum_congr rfl (fun jj hjj => ?_)
      ring
    · obtain ⟨γ, hγ⟩ := hqspan j (by omega)
      refine ⟨γ, fun r hr => ?_⟩
      rw [hq2old r j hr hjt]
      exact hγ r hr

theorem gs_rcol_loop (rm : Mat α) (hwf : rm.wf) {m n c : Nat}
    (h1 : rm.rows = m) (h2 : rm.cols = n) (hc : c < n) (f : Nat → α) :
    ∀ s2, s2 ≤ m →
      ((iterUp (fun r rm2 => rm2.setE r c (f r)) s2 rm).rows = m ∧
      (iterUp (fun r rm2 => rm2.setE r c (f r)) s2 rm).cols = n ∧
      (iterUp (fun r rm2 => rm2.setE r c (f r)) s2 rm).wf ∧
      ∀ r2 c2 : Nat, r2 < m →
        (iterUp (fun r rm2 => rm2.setE r c (f r)) s2 rm).elem r2 c2 =
          if c2 = c ∧ r2 < s2 then f r2 else rm.elem r2 c2) := by
  intro s2
  induction s2 with
  | zero =>
    intro _
    refine ⟨h1, h2, hwf, fun r2 c2 hr2 => ?_⟩
    show rm.elem r2 c2 = _
    rw [if_neg (fun h => by omega)]
  | succ s2 ih =>
    intro hs2
    obtain ⟨g1, g2, g3, g4⟩ := ih (by omega)
    set P := iterUp (fun r rm2 => rm2.setE r c (f r)) s2 rm with hP
    have hstep : iterUp (fun r rm2 => rm2.setE r c (f r)) (s2 + 1) rm =
        P.setE s2 c (f s2) := rfl
    refine ⟨by rw [hstep, Mat.rows_setE]; exact g1,
      by rw [hstep, Mat.cols_setE]; exact g2,
      by rw [hstep]; exact Mat.wf_setE g3 _ _ _, fun r2 c2 hr2 => ?_⟩
    rw [hstep, Mat.elem_setE_at g3 (by rw [g1]; omega) (by rw [g2]; exact hc)
      (by rw [g1]; exact hr2), g4 r2 c2 hr2]
    by_cases hrs : r2 = s2 ∧ c2 = c
    · rw [if_pos hrs, if_pos (⟨hrs.2, by omega⟩ : c2 = c ∧ r2 < s2 + 1), hrs.1]
    · by_cases hold : c2 = c ∧ r2 < s2
      · rw [if_neg hrs, if_pos hold,
          if_pos (⟨hold.1, by omega⟩ : c2 = c ∧ r2 < s2 + 1)]
      · rw [if_neg hrs, if_neg hold, if_neg (fun h => ?_)]
        refine hold ⟨h.1, ?_⟩
        rcases Nat.lt_succ_iff_lt_or_eq.mp h.2 with h5 | h5
        · exact h5
        · exact absurd ⟨h5, h.1⟩ hrs

theorem qr_gs_rmat_elem (mat q : Mat α) {m n : Nat} (hm : mat.rows = m)
    (hn : mat.cols = n) (hnm : n ≤ m) :
    ∀ tc, tc ≤ n →
      ((iterUp (fun c rm => iterUp (fun r rm2 =>
        rm2.setE r c (vector_dot_product (q.data_column r) (mat.data_column c)))
        (c + 1) rm) tc (Mat.zero m n)).rows = m ∧
      (iterUp (fun c rm => iterUp (fun r rm2 =>
        rm2.setE r c (vector_dot_product (q.data_column r) (mat.data_column c)))
        (c + 1) rm) tc (Mat.zero m n)).cols = n ∧
      (iterUp (fun c rm => iterUp (fun r rm2 =>
        rm2.setE r c (vector_dot_product (q.data_column r) (mat.data_column c)))
        (c + 1) rm) tc (Mat.zero m n)).wf ∧
      ∀ r c : Nat, r < m → c < n →
        (iterUp (fun c rm => iterUp (fun r rm2 =>
          rm2.setE r c (vector_dot_product (q.data_column r)
            (mat.data_column c))) (c + 1) rm) tc (Mat.zero m n)).elem r c =
          if c < tc ∧ r ≤ c then
            vector_dot_product (q.data_column r) (mat.data_column c)
          else 0) := by
  intro tc
  induction tc with
  | zero =>
    intro _
    refine ⟨rfl, rfl, Mat.wf_zero m n, fun r c hr hc => ?_⟩
    show (Mat.zero (α := α) m n).elem r c = _
    rw [if_neg (fun h => by omega), Mat.elem_zero]
  | succ tc ih =>
    intro htc
    obtain ⟨g1, g2, g3, g4⟩ := ih (by omega)
    set P := iterUp (fun c rm => iterUp (fun r rm2 =>
      rm2.setE r c (vector_dot_product (q.data_column r) (mat.data_column c)))
      (c + 1) rm) tc (Mat.zero m n) with hP
    have hstep : iterUp (fun c rm => iterUp (fun r rm2 =>
        rm2.setE r c (vector_dot_product (q.data_column r)
          (mat.data_column c))) (c + 1) rm) (tc + 1) (Mat.zero m n) =
        iterUp (fun r rm2 => rm2.setE r tc
          (vector_dot_product (q.data_column r) (mat.data_column tc)))
          (tc + 1) P := rfl
    obtain ⟨k1, k2, k3, k4⟩ := gs_rcol_loop (c := tc) P g3 g1 g2 (by omega)
      (fun r => vector_dot_product (q.data_column r) (mat.data_column tc))
      (tc + 1) (by omega)
    refine ⟨by rw [hstep]; exact k1, by rw [hstep]; exact k2,
      by rw [hstep]; exact k3, fun r c hr hc => ?_⟩
    rw [hstep, k4 r c hr]
    by_cases hct : c = tc
    · by_cases hrc : r ≤ c
      · rw [if_pos (⟨hct, by omega⟩ : c = tc ∧ r < tc + 1),
          if_pos (⟨by omega, hrc⟩ : c < tc + 1 ∧ r ≤ c), hct]
      · rw [if_neg (fun h => by omega), g4 r c hr hc,
          if_neg (fun h => by omega), if_neg (fun h => hrc h.2)]
    · rw [if_neg (fun h => hct h.1), g4 r c hr hc]
      by_cases hold : c < tc ∧ r ≤ c
      · rw [if_pos hold, if_pos (⟨by omega, hold.2⟩ : c < tc + 1 ∧ r ≤ c)]
      · rw [if_neg hold, if_neg (fun h => hold ⟨by omega, h.2⟩)]

theorem gs_loop_inv {s : α → α} (hsq : ∀ x : α, 0 ≤ x → s x * s x = x)
    {mat : Mat α} {m n : Nat} (hmr : mat.rows = m) (hmc : mat.cols = n)
    (hw : mat.wf) (hnm : n ≤ m) (hind : colIndep mat) :
    ∀ T, T ≤ n → GSInv mat m n T (iterUp (fun i aq2 =>
      let a2 := iterUp (fun ii a3 =>
        let ratio := vector_dot_product (a3.data_column i) (aq2.2.data_column ii)
        iterUp (fun j a4 =>
          a4.setE j i (a4.elem j i - ratio * aq2.2.elem j ii)) m a3) i aq2.1
      let u := a2.data_column i
      let u_l2 := l2_norm_of_vector s u
      let q2 := iterUp (fun j q3 => q3.setE j i (u.getD j 0 / u_l2)) m aq2.2
      (a2, q2)) T (mat, Mat.zero m m)) := by
  intro T
  induction T with
  | zero =>
    intro _
    show GSInv mat m n 0 (mat, Mat.zero m m)
    refine ⟨hmr, hmc, hw, rfl, rfl, Mat.wf_zero m m,
      fun c _ hc2 r hr => rfl, fun c _ hc2 r hr => Mat.elem_zero m m r c,
      fun j k hj hk => absurd hj (by omega),
      fun c hc => absurd hc (by omega), fun j hj => absurd hj (by omega)⟩
  | succ T ih =>
    intro hT
    exact gs_step_preserves hsq (by omega) hnm hmr hmc hind (ih (by omega))
      rfl rfl rfl rfl

theorem gs_qtq_block {mat : Mat α} {m n : Nat} {aq : Mat α × Mat α}
    (hinv : GSInv mat m n n aq) :
    ∀ j k, j < m → k < m → (mulMat (tr aq.2) aq.2).elem j k =
      if j = k ∧ j < n then 1 else 0 := by
  intro j k hj hk
  rw [mulMat_elem (tr aq.2) aq.2 (by rw [tr_rows, hinv.qcols]; exact hj)
    (by rw [hinv.qcols]; exact hk), tr_cols, hinv.qrows]
  have hpt : ∀ y ∈ Finset.range m, (tr aq.2).elem j y * aq.2.elem y k =
      aq.2.elem y j * aq.2.elem y k := by
    intro y hy
    rw [tr_elem aq.2 (by rw [hinv.qrows]; exact Finset.mem_range.mp hy)
      (by rw [hinv.qcols]; exact hj)]
  rw [Finset.sum_congr rfl hpt]
  by_cases hjn : j < n
  · by_cases hkn : k < n
    · rw [hinv.orth j k hjn hkn]
      by_cases hjk : j = k
      · rw [if_pos hjk, if_pos ⟨hjk, hjn⟩]
      · rw [if_neg hjk, if_neg (fun h => hjk h.1)]
    · have hz : ∀ y ∈ Finset.range m, aq.2.elem y j * aq.2.elem y k = 0 := by
        intro y hy
        rw [hinv.qfresh k (by omega) hk y (Finset.mem_range.mp hy), mul_zero]
      rw [Finset.sum_eq_zero hz,
        if_neg (show ¬ (j = k ∧ j < n) from fun h => hkn (h.1 ▸ h.2))]
  · have hz : ∀ y ∈ Finset.range m, aq.2.elem y j * aq.2.elem y k = 0 := by
      intro y hy
      rw [hinv.qfresh j (by omega) hj y (Finset.mem_range.mp hy), zero_mul]
    rw [Finset.sum_eq_zero hz,
      if_neg (show ¬ (j = k ∧ j < n) from fun h => hjn h.2)]

theorem gs_recon_tol {mat : Mat α} {m n : Nat} {aq : Mat α × Mat α}
    {rmat : Mat α} (hinv : GSInv mat m n n aq) (hnm : n ≤ m)
    (hmr : mat.rows = m) (hmc : mat.cols = n) (hmw : mat.wf)
    (hrm : rmat = iterUp (fun c rm => iterUp (fun r rm2 =>
      rm2.setE r c (vector_dot_product ((aq.2).data_column r)
        (mat.data_column c))) (c + 1) rm) n (Mat.zero m n)) :
    ∀ x c, x < m → c < n →
      |(mulMat aq.2 rmat).elem x c - mat.elem x c| ≤ 1 / 10 ^ 7 := by
  obtain ⟨e1, e2, e3, e4⟩ := qr_gs_rmat_elem mat aq.2 hmr hmc hnm n le_rfl
  rw [← hrm] at e1 e2 e3 e4
  have hmain : ∀ x c, x < m → c < n →
      (mulMat aq.2 rmat).elem x c = mat.elem x c := by
    intro x c hx hc
    rw [mulMat_elem aq.2 rmat (by rw [hinv.qrows]; exact hx)
      (by rw [e2]; exact hc), hinv.qcols]
    have hshrink : (∑ y ∈ Finset.range m, aq.2.elem x y * rmat.elem y c) =
        ∑ y ∈ Finset.range (c + 1), aq.2.elem x y * rmat.elem y c := by
      refine (Finset.sum_subset (Finset.range_subset.mpr (by omega)) ?_).symm
      intro y hy hnot
      rw [e4 y c (Finset.mem_range.mp hy) hc, if_neg (fun h => ?_), mul_zero]
      exact hnot (Finset.mem_range.mpr (by omega))
    obtain ⟨β, hβ⟩ := hinv.aspan c hc
    have hdotv : ∀ y, y ≤ c → rmat.elem y c = β y := by
      intro y hyc
      have hym : y < m := by omega
      rw [e4 y c hym hc, if_pos ⟨hc, hyc⟩,
        dot_columns hinv.qwf hmw (by rw [hinv.qcols]; omega)
          (by rw [hmc]; exact hc) (by rw [hinv.qrows, hmr]), hinv.qrows]
      have hpt : ∀ r ∈ Finset.range m, aq.2.elem r y * mat.elem r c =
          ∑ j ∈ Finset.range (c + 1),
            β j * (aq.2.elem r y * aq.2.elem r j) := by
        intro r hr
        rw [hβ r (Finset.mem_range.mp hr), Finset.mul_sum]
        refine Finset.sum_congr rfl (fun j _ => ?_)
        ring
      rw [Finset.sum_congr rfl hpt, Finset.sum_comm]
      have hout : ∀ j ∈ Finset.range (c + 1),
          (∑ r ∈ Finset.range m, β j * (aq.2.elem r y * aq.2.elem r j)) =
          if y = j then β j else 0 := by
        intro j hj
        have hjc := Finset.mem_range.mp hj
        rw [← Finset.mul_sum, hinv.orth y j (by omega) (by omega)]
        by_cases hyj : y = j
        · rw [if_pos hyj, if_pos hyj, mul_one]
        · rw [if_neg hyj, if_neg hyj, mul_zero]
      rw [Finset.sum_congr rfl hout,
        Finset.sum_ite_eq (Finset.range (c + 1)) y β,
        if_pos (Finset.mem_range.mpr (by omega))]
    have hfin : ∀ y ∈ Finset.range (c + 1), aq.2.elem x y * rmat.elem y c =
        β y * aq.2.elem x y := by
      intro y hy
      rw [hdotv y (by have := Finset.mem_range.mp hy; omega)]
      ring
    rw [hshrink, Finset.sum_congr rfl hfin, ← hβ x hx]
  intro x c hx hc
  rw [hmain x c hx hc, sub_self, abs_zero]
  norm_num

theorem hh_qtq {mat : Mat α} {m n t : Nat} {aq : Mat α × Mat α}
    (hinv : HHInv mat m n t aq) :
    mulMat (tr (tr aq.2)) (tr aq.2) = Mat.identity m := by
  rw [tr_tr hinv.qwf]
  exact hinv.qqt

theorem hh_recon_tol {mat : Mat α} {m n t : Nat} {aq : Mat α × Mat α}
    (hinv : HHInv mat m n t aq) (hmr : mat.rows = m) (hmw : mat.wf) :
    ∀ x c : Nat, |(mulMat (tr aq.2) aq.1).elem x c - mat.elem x c| ≤
      1 / 10 ^ 7 := by
  have hmain : mulMat (tr aq.2) aq.1 = mat := by
    rw [hinv.afac, ← mulMat_assoc (tr aq.2) aq.2 mat (by rw [tr_cols])
      (by rw [hinv.qcols, hmr]), hinv.qtq, mulMat_identity m mat hmr hmw]
  intro x c
  rw [hmain, sub_self, abs_zero]
  norm_num

theorem gs_qtq_tol {mat : Mat α} {m n : Nat} {aq : Mat α × Mat α}
    (hinv : GSInv mat m n n aq) :
    ∀ j k, j < m → k < m →
      |(mulMat (tr aq.2) aq.2).elem j k -
        (if j = k ∧ j < n then 1 else 0)| ≤ 1 / 10 ^ 7 := by
  intro j k hj hk
  rw [gs_qtq_block hinv j k hj hk, sub_self, abs_zero]
  norm_num

theorem hh_qtq_tol {mat : Mat α} {m n t : Nat} {aq : Mat α × Mat α}
    (hinv : HHInv mat m n t aq) :
    ∀ j k : Nat, |(mulMat (tr (tr aq.2)) (tr aq.2)).elem j k -
      (Mat.identity m).elem j k| ≤ 1 / 10 ^ 7 := by
  intro j k
  rw [tr_tr hinv.qwf, hinv.qqt, sub_self, abs_zero]
  norm_num

/-- C2 (corrected): on every m×n real input with m ≥ n and full column
rank, both QR algorithms succeed and reconstruct the input exactly (hence
within 1e-7); Householder's Q satisfies Qᵗ·Q = I_m within 1e-7 (in fact
exactly), but Gram-Schmidt returns an m×m Q whose columns beyond the first
n are zero, so its Qᵗ·Q is the m×m block matrix with I_n in the top-left
corner and zeros elsewhere — not the identity of its own size. -/
theorem claim_C2 (A : Mat ℝ) (hwf : A.wf) (hsh : ¬ A.rows < A.cols)
    (hind : colIndep A) :
    (∃ d, qr_gram_schmidt Real.sqrt A = .ok d ∧
      (∀ j k, j < A.rows → k < A.rows →
        |(mulMat (tr d.q) d.q).elem j k -
          (if j = k ∧ j < A.cols then 1 else 0)| ≤ 1 / 10 ^ 7) ∧
      (∀ x c, x < A.rows → c < A.cols →
        |(mulMat d.q d.r).elem x c - A.elem x c| ≤ 1 / 10 ^ 7)) ∧
    (∃ d, qr_househoulder Real.sqrt A = .ok d ∧
      (∀ j k : Nat, |(mulMat (tr d.q) d.q).elem j k -
        (Mat.identity A.rows).elem j k| ≤ 1 / 10 ^ 7) ∧
      (∀ x c : Nat, |(mulMat d.q d.r).elem x c - A.elem x c| ≤ 1 / 10 ^ 7)) := by
  have hsq : ∀ x : ℝ, 0 ≤ x → Real.sqrt x * Real.sqrt x = x :=
    fun x hx => Real.mul_self_sqrt hx
  have hnm : A.cols ≤ A.rows := by omega
  constructor
  · refine ⟨_, qr_gram_schmidt_ok_eq Real.sqrt A hsh rfl rfl, ?_, ?_⟩
    · have hinv := gs_loop_inv hsq (rfl : A.rows = A.rows) rfl hwf hnm hind
        A.cols le_rfl
      exact gs_qtq_tol hinv
    · have hinv := gs_loop_inv hsq (rfl : A.rows = A.rows) rfl hwf hnm hind
        A.cols le_rfl
      exact gs_recon_tol hinv hnm rfl rfl hwf rfl
  · refine ⟨_, qr_househoulder_ok_eq Real.sqrt A hsh, ?_, ?_⟩
    · have hinv := hh_loop_inv hsq (rfl : A.rows = A.rows) rfl hwf hnm
        (if A.rows - 1 < A.cols then A.rows - 1 else A.cols) le_rfl
      exact hh_qtq_tol hinv
    · have hinv := hh_loop_inv hsq (rfl : A.rows = A.rows) rfl hwf hnm
        (if A.rows - 1 < A.cols then A.rows - 1 else A.cols) le_rfl
      exact hh_recon_tol hinv rfl hwf

theorem claim_C2_witness :
    (∃ d, qr_gram_schmidt Real.sqrt (⟨1, 1, [1]⟩ : Mat ℝ) = .ok d ∧
      (∀ j k, j < (⟨1, 1, [(1:ℝ)]⟩ : Mat ℝ).rows →
        k < (⟨1, 1, [(1:ℝ)]⟩ : Mat ℝ).rows →
        |(mulMat (tr d.q) d.q).elem j k -
          (if j = k ∧ j < (⟨1, 1, [(1:ℝ)]⟩ : Mat ℝ).cols then 1 else 0)| ≤
            1 / 10 ^ 7) ∧
      (∀ x c, x < (⟨1, 1, [(1:ℝ)]⟩ : Mat ℝ).rows →
        c < (⟨1, 1, [(1:ℝ)]⟩ : Mat ℝ).cols →
        |(mulMat d.q d.r).elem x c - (⟨1, 1, [(1:ℝ)]⟩ : Mat ℝ).elem x c| ≤
          1 / 10 ^ 7)) ∧
    (∃ d, qr_househoulder Real.sqrt (⟨1, 1, [1]⟩ : Mat ℝ) = .ok d ∧
      (∀ j k : Nat, |(mulMat (tr d.q) d.q).elem j k -
        (Mat.identity (⟨1, 1, [(1:ℝ)]⟩ : Mat ℝ).rows).elem j k| ≤
          1 / 10 ^ 7) ∧
      (∀ x c : Nat, |(mulMat d.q d.r).elem x c -
        (⟨1, 1, [(1:ℝ)]⟩ : Mat ℝ).elem x c| ≤ 1 / 10 ^ 7)) :=
  claim_C2 ⟨1, 1, [1]⟩ (by decide) (by decide) (by
    intro co h j hj
    have hj0 : j = 0 := by
      have : j < 1 := hj
      omega
    subst hj0
    have h0 := h 0 (by decide)
    rw [show (⟨1, 1, [(1:ℝ)]⟩ : Mat ℝ).cols = 1 from rfl,
      Finset.sum_range_one,
      show (⟨1, 1, [(1:ℝ)]⟩ : Mat ℝ).elem 0 0 = 1 from rfl, mul_one] at h0
    exact h0)

theorem claim_C2_counterexample :
    qr_gram_schmidt Real.sqrt (⟨2, 1, [1, 0]⟩ : Mat ℝ) =
      .ok ⟨⟨2, 2, [1, 0, 0, 0]⟩, ⟨2, 1, [1, 0]⟩⟩ ∧
    colIndep (⟨2, 1, [(1:ℝ), 0]⟩ : Mat ℝ) ∧
    (mulMat (tr (⟨2, 2, [(1:ℝ), 0, 0, 0]⟩ : Mat ℝ))
      (⟨2, 2, [(1:ℝ), 0, 0, 0]⟩ : Mat ℝ)).elem 1 1 = 0 ∧
    ¬ |(mulMat (tr (⟨2, 2, [(1:ℝ), 0, 0, 0]⟩ : Mat ℝ))
        (⟨2, 2, [(1:ℝ), 0, 0, 0]⟩ : Mat ℝ)).elem 1 1 -
      (Mat.identity 2 : Mat ℝ).elem 1 1| ≤ 1 / 10 ^ 7 := by
  refine ⟨?_, ?_, ?_, ?_⟩
  · norm_num [qr_gram_schmidt, iterUp, Mat.zero, Mat.elem, Mat.setE, Mat.idx,
      Mat.data_column, l2_norm_of_vector, vector_dot_product, List.drop,
      List.take, List.map, List.sum, List.zip, List.zipWith, List.getD,
      List.get?, List.set, List.foldr, List.replicate, Real.sqrt_one]
  · intro co h j hj
    have hj0 : j = 0 := by
      have : j < 1 := hj
      omega
    subst hj0
    have h0 := h 0 (by decide)
    rw [show (⟨2, 1, [(1:ℝ), 0]⟩ : Mat ℝ).cols = 1 from rfl,
      Finset.sum_range_one,
      show (⟨2, 1, [(1:ℝ), 0]⟩ : Mat ℝ).elem 0 0 = 1 from rfl, mul_one] at h0
    exact h0
  · norm_num [mulMat, tr, iterUp, Mat.zero, Mat.elem, Mat.setE, Mat.idx,
      List.getD, List.get?, List.set, List.replicate]
  · have h3 : (mulMat (tr (⟨2, 2, [(1:ℝ), 0, 0, 0]⟩ : Mat ℝ))
        (⟨2, 2, [(1:ℝ), 0, 0, 0]⟩ : Mat ℝ)).elem 1 1 = 0 := by
      norm_num [mulMat, tr, iterUp, Mat.zero, Mat.elem, Mat.setE, Mat.idx,
        List.getD, List.get?, List.set, List.replicate]
    rw [h3, show (Mat.identity 2 : Mat ℝ).elem 1 1 = 1 from by
      norm_num [Mat.identity, iterUp, Mat.zero, Mat.elem, Mat.setE, Mat.idx,
        List.getD, List.get?, List.set, List.replicate]]
    norm_num
